import Mathlib

/-!
# go-flows: key extraction, shard routing and the flow table

A shallow embedding of `packet/flow.go`, `packet/table.go` and `flows/table.go`.

* Bytes are natural numbers (a byte slice is a `List Nat`), times are natural numbers.
* The flow objects live in the memory carried by `FlowTable` (`base`, `tcp`), a pointer to a
  flow is a `Ptr`; the `calls` field records the method calls in the order in which they happen.
* A Go panic is the result `none`.
-/

set_option autoImplicit false

namespace GoFlows

/-! ## Keys and hashing (`packet/flow.go`) -/

/-- A flow key: the bytes of a `fiveTuple4` (13) or `fiveTuple6` (37) array. -/
abbrev FlowKey := List Nat

/-- Timestamps (`flows.Time`). -/
abbrev Time := Nat

def fnvBasis : Nat := 14695981039346656037

def fnvPrime : Nat := 1099511628211

/-- The loop of `fnvHash`: `for i := i; i < len(s); i++ { h ^= uint64(s[i]); h *= fnvPrime }`,
with the `uint64` product wrapping modulo `2^64`. -/
def fnvHash.loop (s : List Nat) (i h : Nat) : Nat :=
  if i < s.length then
    fnvHash.loop s (i + 1) (((h ^^^ s.getD i 0) * fnvPrime) % 2 ^ 64)
  else h
termination_by s.length - i

/-- Source `fnvHash`. -/
def fnvHash (s : List Nat) : Nat :=
  fnvHash.loop s 0 fnvBasis

/-- Method `Hash` of `fiveTuple4` and `fiveTuple6`: `fnvHash(t[:])`. -/
def FlowKey.Hash (t : FlowKey) : Nat :=
  fnvHash t

/-- The transport layers a `packetBuffer` can hold (`decode` sets `transport` to one of
`&pb.udp`, `&pb.tcp`, `&pb.icmpv4`, `&pb.icmpv6`). -/
inductive LayerType where
  | TCP
  | UDP
  | ICMPv4
  | ICMPv6
  deriving DecidableEq, Repr

/-- Membership in `layers.LayerClassIPControl` (the ICMP family). -/
def LayerClassIPControl.Contains : LayerType → Bool
  | .ICMPv4 => true
  | .ICMPv6 => true
  | _ => false

/-- The network layer as `fivetuple` sees it: the raw bytes of the two endpoints of
`NetworkFlow()`. -/
structure NetworkLayer where
  srcIP : List Nat
  dstIP : List Nat
  deriving DecidableEq, Repr

/-- The transport layer as the program sees it: its layer type, the raw bytes of the two
endpoints of `TransportFlow()`, and the three flag bits of `layers.TCP` that `TCPFlow.Event`
reads. -/
structure TransportLayer where
  layerType : LayerType
  srcPort : List Nat
  dstPort : List Nat
  RST : Bool
  FIN : Bool
  ACK : Bool
  deriving DecidableEq, Repr

/-- The fields of `packetBuffer` that the flow engine reads. -/
structure packetBuffer where
  key : FlowKey
  time : Time
  network : Option NetworkLayer
  transport : Option TransportLayer
  forward : Bool
  deriving DecidableEq, Repr

/-- Go `bytes.Compare`: -1, 0 or 1, lexicographic, a proper prefix being smaller. -/
def bytesCompare : List Nat → List Nat → Int
  | [], [] => 0
  | [], _ :: _ => -1
  | _ :: _, [] => 1
  | x :: xs, y :: ys =>
    if x < y then -1 else if y < x then 1 else bytesCompare xs ys

/-- Method `LessThan` of `gopacket.Endpoint` for two endpoints of one flow (same endpoint
type): `bytes.Compare(a.raw[:a.len], b.raw[:b.len]) < 0`. -/
def Endpoint.LessThan (a b : List Nat) : Bool :=
  decide (bytesCompare a b < 0)

/-- Go `copy(dst[0:n], src)` into a zeroed array slot of `n` bytes: the first `n` bytes of
`src`, the rest of the slot staying zero. -/
def copyInto (n : Nat) (src : List Nat) : List Nat :=
  src.take n ++ List.replicate (n - src.length) 0

/-- The `switch proto` of `fivetuple`. -/
def protoByte : LayerType → Nat
  | .TCP => 6
  | .UDP => 17
  | .ICMPv4 => 1
  | .ICMPv6 => 58

/-- Source `fivetuple`. The result `none` is the source's `(nil, false)`. -/
def fivetuple (packet : packetBuffer) : Option (FlowKey × Bool) :=
  match packet.network with
  | none => none
  | some network =>
    match packet.transport with
    | none => none
    | some transport =>
      let srcPortR := transport.srcPort
      let dstPortR := transport.dstPort
      let proto := transport.layerType
      let srcIP := network.srcIP
      let dstIP := network.dstIP
      let swap := Endpoint.LessThan dstIP srcIP
      let forward := !swap
      let srcIPR := if swap then dstIP else srcIP
      let dstIPR := if swap then srcIP else dstIP
      let swapPorts := swap && !LayerClassIPControl.Contains proto
      let srcPortS := if swapPorts then dstPortR else srcPortR
      let dstPortS := if swapPorts then srcPortR else dstPortR
      let protoB := protoByte proto
      if srcIPR.length = 4 then
        some (copyInto 4 srcIPR ++ copyInto 4 dstIPR ++ [protoB] ++ copyInto 2 srcPortS
          ++ copyInto 2 dstPortS, forward)
      else if srcIPR.length = 16 then
        some (copyInto 16 srcIPR ++ copyInto 16 dstIPR ++ [protoB] ++ copyInto 2 srcPortS
          ++ copyInto 2 dstPortS, forward)
      else none

/-- The reference definition of the key extractor, written from the specification: no key
without a network or a transport layer or when the address length is neither 4 nor 16;
otherwise `forward` is false exactly when `dst < src` in the lexicographic order, and the key
is smaller IP, larger IP, protocol byte, port of the first IP, port of the second IP. -/
def fivetupleRef (packet : packetBuffer) : Option (FlowKey × Bool) :=
  match packet.network, packet.transport with
  | some n, some t =>
    if n.srcIP.length = 4 ∨ n.srcIP.length = 16 then
      let proto : Nat :=
        match t.layerType with
        | .TCP => 6
        | .UDP => 17
        | .ICMPv4 => 1
        | .ICMPv6 => 58
      let control : Bool := t.layerType = .ICMPv4 ∨ t.layerType = .ICMPv6
      if n.dstIP < n.srcIP then
        if control then some (n.dstIP ++ n.srcIP ++ [proto] ++ t.srcPort ++ t.dstPort, false)
        else some (n.dstIP ++ n.srcIP ++ [proto] ++ t.dstPort ++ t.srcPort, false)
      else some (n.srcIP ++ n.dstIP ++ [proto] ++ t.srcPort ++ t.dstPort, true)
    else none
  | _, _ => none

/-- The reference FNV-1a hash, written from the specification: start at the offset basis and,
for each byte in order, xor it in and multiply by the prime modulo `2^64`. -/
def fnv1a (s : List Nat) : Nat :=
  s.foldl (fun h b => ((h ^^^ b) * 1099511628211) % 18446744073709551616) 14695981039346656037

/-! ## The dispatcher (`packet/table.go`) -/

/-- The routing loop of `ParallelFlowTable.Event`: `tmp[h].push(b)` with
`h := b.Key().Hash() % uint64(num)`. The remainder by zero panics. -/
def ParallelFlowTable.route (num : Nat) :
    List packetBuffer → List (List packetBuffer) → Option (List (List packetBuffer))
  | [], tmp => some tmp
  | b :: rest, tmp =>
    if num = 0 then none
    else
      let h := FlowKey.Hash b.key % num
      ParallelFlowTable.route num rest (tmp.set h (tmp.getD h [] ++ [b]))

/-- Source `ParallelFlowTable.Event` for `num = len(pft.tables)` shards, without the expiry
broadcast: one empty batch per shard, the routing loop, and the batches that are published by
`finalize`, in shard order. -/
def ParallelFlowTable.Event (num : Nat) (buffer : List packetBuffer) :
    Option (List (List packetBuffer)) :=
  ParallelFlowTable.route num buffer (List.replicate num [])

/-! ## Flows (`packet/flow.go`) and the flow table (`flows/table.go`) -/

/-- The export reasons. -/
inductive FlowEndReason where
  | Idle
  | Active
  | End
  | EOF
  deriving DecidableEq, Repr

/-- A value of the interface `flows.Flow`: the dynamic type (`*TCPFlow` or `*UniFlow`) and the
address of the object among the objects of that type. -/
inductive Ptr where
  | tcp (a : Nat)
  | uni (a : Nat)
  deriving DecidableEq, Repr

/-- Modelled from the spec: the state of `flows.BaseFlow` (its source file is not among the
sources): the key, the first-seen and last-seen timestamps, the computed next-event time and
the active bit. The field `id` is not program state: it numbers the flow instances in the order
in which `Init` starts them, so that the recorded calls can name an instance. -/
structure BaseFlow where
  key : FlowKey
  firstSeen : Time
  lastSeen : Time
  nextEvent : Time
  active : Bool
  id : Nat
  deriving DecidableEq, Repr

/-- The fields that `TCPFlow` adds to its embedded `BaseFlow`. -/
structure TCPFlow where
  srcFIN : Bool
  dstFIN : Bool
  dstACK : Bool
  srcACK : Bool
  deriving DecidableEq, Repr

/-- The method calls that the model records: those the table makes on the flow creator and on
a flow (`NewFlow`, `Expire`, `Event`, `EOF`, `Recycle`) and `Export`, which a flow makes on
itself. Flows are named by their instance number. -/
inductive Call where
  | NewFlow (id : Nat)
  | Expire (id : Nat) (when : Time)
  | Event (id : Nat) (event : packetBuffer)
  | EOF (id : Nat) (now : Time)
  | Export (id : Nat) (reason : FlowEndReason) (when : Time)
  | Recycle (id : Nat)
  deriving DecidableEq, Repr

/-- Modelled from the spec: the typed flow pools behind `FlowTable.DataStore` (the type
`flowPool` is declared outside the sources): one free list of `TCPFlow` objects and one of
`UniFlow` objects. `Put` pushes an object, `Get` pops the object put last. -/
structure flowPool where
  tcp : List Nat
  uni : List Nat
  deriving DecidableEq, Repr

/-- Source `FlowTable`, with the memory of the flow objects it points to: `base p` is the
embedded `BaseFlow` of the object at `p`, `tcp a` the own fields of the `TCPFlow` at address
`a`, `tcpObjects` and `uniObjects` count the objects allocated so far, `created` counts the flow
instances and `calls` is the record of calls, oldest first. -/
structure FlowTable where
  flows : List (FlowKey × Ptr)
  activeTimeout : Time
  idleTimeout : Time
  now : Time
  DataStore : flowPool
  eof : Bool
  base : Ptr → BaseFlow
  tcp : Nat → TCPFlow
  tcpObjects : Nat
  uniObjects : Nat
  created : Nat
  calls : List Call

/-- Map lookup `m[k]`. -/
def mapGet : List (FlowKey × Ptr) → FlowKey → Option Ptr
  | [], _ => none
  | (k', v) :: rest, k => if k' = k then some v else mapGet rest k

/-- Map deletion `delete(m, k)`. -/
def mapDelete (m : List (FlowKey × Ptr)) (k : FlowKey) : List (FlowKey × Ptr) :=
  m.filter (fun e => decide (e.1 ≠ k))

/-- Map assignment `m[k] = v`. -/
def mapSet (m : List (FlowKey × Ptr)) (k : FlowKey) (v : Ptr) : List (FlowKey × Ptr) :=
  (k, v) :: mapDelete m k

/-- Source `NewFlowTable`: an empty map, the two timeouts, and no flow object yet. -/
def NewFlowTable (activeTimeout idleTimeout : Time) : FlowTable :=
  { flows := [], activeTimeout := activeTimeout, idleTimeout := idleTimeout, now := 0,
    DataStore := ⟨[], []⟩, eof := false,
    base := fun _ => ⟨[], 0, 0, 0, false, 0⟩, tcp := fun _ => ⟨false, false, false, false⟩,
    tcpObjects := 0, uniObjects := 0, created := 0, calls := [] }

/-- Append a call to the record. -/
def FlowTable.log (tab : FlowTable) (c : Call) : FlowTable :=
  { tab with calls := tab.calls ++ [c] }

/-- Source `TCPFlow.Recycle` and `UniFlow.Recycle`: put the object into the pool of its type. -/
def Flow.Recycle (tab : FlowTable) : Ptr → FlowTable
  | .tcp a => { tab with DataStore := { tab.DataStore with tcp := a :: tab.DataStore.tcp } }
  | .uni a => { tab with DataStore := { tab.DataStore with uni := a :: tab.DataStore.uni } }

/-- Source `FlowTable.Remove`. -/
def FlowTable.Remove (tab : FlowTable) (entry : Ptr) : FlowTable :=
  if !tab.eof then
    Flow.Recycle
      ({ tab with flows := mapDelete tab.flows (tab.base entry).key }.log
        (.Recycle (tab.base entry).id)) entry
  else tab

/-- Method `NextEvent` of a flow. -/
def FlowTable.NextEvent (tab : FlowTable) (flow : Ptr) : Time :=
  (tab.base flow).nextEvent

/-- Method `Active` of a flow. -/
def FlowTable.Active (tab : FlowTable) (flow : Ptr) : Bool :=
  (tab.base flow).active

/-- Modelled from the spec: `BaseFlow.Export` (flows/flow.go is not among the sources) emits
the record, after which the flow is no longer active, and then requests removal from the
table. -/
def BaseFlow.Export (tab : FlowTable) (flow : Ptr) (reason : FlowEndReason) (when : Time) :
    FlowTable :=
  let tab := tab.log (.Export (tab.base flow).id reason when)
  let tab := { tab with
    base := Function.update tab.base flow ({ (tab.base flow) with active := false }) }
  tab.Remove flow

/-- Modelled from the spec: `BaseFlow.Expire` (flows/flow.go is not among the sources) exports
the flow with reason `Idle` when the idle timeout since the last packet has been reached, and
with reason `Active` when the active timeout since the first packet has been reached. -/
def BaseFlow.Expire (tab : FlowTable) (flow : Ptr) (when : Time) : FlowTable :=
  if (tab.base flow).lastSeen + tab.idleTimeout ≤ when then
    BaseFlow.Export tab flow .Idle when
  else if (tab.base flow).firstSeen + tab.activeTimeout ≤ when then
    BaseFlow.Export tab flow .Active when
  else tab

/-- Modelled from the spec: `BaseFlow.Event` (flows/flow.go is not among the sources) updates
`last_seen = t` and advances `next_event = min(first_seen + active_timeout, t + idle_timeout)`;
the feature accumulators are outside the model. -/
def BaseFlow.Event (tab : FlowTable) (flow : Ptr) (when : Time) : FlowTable :=
  { tab with
    base := Function.update tab.base flow
      ({ (tab.base flow) with
        lastSeen := when
        nextEvent :=
          min ((tab.base flow).firstSeen + tab.activeTimeout) (when + tab.idleTimeout) }) }

/-- Modelled from the spec: `BaseFlow.EOF` (flows/flow.go is not among the sources) exports the
flow with reason `Eof`. -/
def BaseFlow.EOF (tab : FlowTable) (flow : Ptr) (now : Time) : FlowTable :=
  BaseFlow.Export tab flow .EOF now

/-- Modelled from the spec: `BaseFlow.Init` (flows/flow.go is not among the sources) sets the
initial state on the first packet: `first_seen = last_seen = now`,
`next_event = now + idle_timeout`, `active = true`. It touches no field of the enclosing
`TCPFlow`. -/
def BaseFlow.Init (tab : FlowTable) (flow : Ptr) (key : FlowKey) (time : Time) : FlowTable :=
  { tab with
    base := Function.update tab.base flow
      ({ key := key, firstSeen := time, lastSeen := time, nextEvent := time + tab.idleTimeout,
         active := true, id := tab.created })
    created := tab.created + 1 }

/-- Modelled from the spec: `Get` on the pool of `TCPFlow` objects (the pool is declared
outside the sources): the object recycled last, or a newly allocated zero object when the pool
is empty. -/
def flowPool.getTCP (tab : FlowTable) : Nat × FlowTable :=
  match tab.DataStore.tcp with
  | a :: rest => (a, { tab with DataStore := { tab.DataStore with tcp := rest } })
  | [] =>
    (tab.tcpObjects,
      { tab with
        tcpObjects := tab.tcpObjects + 1
        base := Function.update tab.base (.tcp tab.tcpObjects) ⟨[], 0, 0, 0, false, 0⟩
        tcp := Function.update tab.tcp tab.tcpObjects ⟨false, false, false, false⟩ })

/-- Modelled from the spec: `Get` on the pool of `UniFlow` objects (the pool is declared
outside the sources): the object recycled last, or a newly allocated zero object when the pool
is empty. -/
def flowPool.getUni (tab : FlowTable) : Nat × FlowTable :=
  match tab.DataStore.uni with
  | a :: rest => (a, { tab with DataStore := { tab.DataStore with uni := rest } })
  | [] =>
    (tab.uniObjects,
      { tab with
        uniObjects := tab.uniObjects + 1
        base := Function.update tab.base (.uni tab.uniObjects) ⟨[], 0, 0, 0, false, 0⟩ })

/-- Whether `tp != nil && tp.LayerType() == layers.LayerTypeTCP`. -/
def isTCP : Option TransportLayer → Bool
  | some tp => decide (tp.layerType = .TCP)
  | none => false

/-- Source `NewFlow`, the flow creator of the packet engine. -/
def NewFlow (event : packetBuffer) (table : FlowTable) (key : FlowKey) (time : Time) :
    Ptr × FlowTable :=
  if isTCP event.transport then
    let (ret, table) := flowPool.getTCP table
    (.tcp ret, BaseFlow.Init table (.tcp ret) key time)
  else
    let (ret, table) := flowPool.getUni table
    (.uni ret, BaseFlow.Init table (.uni ret) key time)

/-- Lines 140 to 154 of `TCPFlow.Event`: the update of the four flags by a packet without
RST. -/
def TCPFlow.update (flow : TCPFlow) (forward FIN ACK : Bool) : TCPFlow :=
  if forward then
    let flow := if FIN then { flow with srcFIN := true } else flow
    if flow.dstFIN && ACK then { flow with dstACK := true } else flow
  else
    let flow := if FIN then { flow with dstFIN := true } else flow
    if flow.srcFIN && ACK then { flow with srcACK := true } else flow

/-- Source `TCPFlow.Event`. The type assertion `buffer.TransportLayer().(*layers.TCP)` panics
on a packet whose transport layer is not TCP. -/
def TCPFlow.Event (tab : FlowTable) (flow : Nat) (event : packetBuffer) (when : Time) :
    Option FlowTable :=
  let tab := BaseFlow.Event tab (.tcp flow) when
  if !tab.Active (.tcp flow) then some tab
  else
    match event.transport with
    | none => none
    | some tcp =>
      if tcp.layerType ≠ .TCP then none
      else if tcp.RST then some (BaseFlow.Export tab (.tcp flow) .End when)
      else
        let f := TCPFlow.update (tab.tcp flow) event.forward tcp.FIN tcp.ACK
        let tab := { tab with tcp := Function.update tab.tcp flow f }
        if f.srcFIN && f.srcACK && f.dstFIN && f.dstACK then
          some (BaseFlow.Export tab (.tcp flow) .End when)
        else some tab

/-- Method `Event` of a flow: `TCPFlow.Event` for a `TCPFlow`, the promoted `BaseFlow.Event`
for a `UniFlow`. -/
def Flow.Event (tab : FlowTable) (flow : Ptr) (event : packetBuffer) (when : Time) :
    Option FlowTable :=
  match flow with
  | .tcp a => TCPFlow.Event tab a event when
  | .uni a => some (BaseFlow.Event tab (.uni a) when)

/-- Lines 54 to 60 of `FlowTable.Event`: look the key up and expire the flow found when its
next event has passed; the result is the flow to use, if any. -/
def FlowTable.Event.lookup (tab : FlowTable) (key : FlowKey) (when : Time) :
    Option Ptr × FlowTable :=
  match mapGet tab.flows key with
  | some elem =>
    if when > tab.NextEvent elem then
      let tab := BaseFlow.Expire (tab.log (.Expire (tab.base elem).id when)) elem when
      (if tab.Active elem then some elem else none, tab)
    else (some elem, tab)
  | none => (none, tab)

/-- Lines 61 to 64 of `FlowTable.Event`: without a usable flow, build one with the flow creator
and store it at the key. -/
def FlowTable.Event.create (tab : FlowTable) (found : Option Ptr) (event : packetBuffer)
    (key : FlowKey) (when : Time) : Ptr × FlowTable :=
  match found with
  | some elem => (elem, tab)
  | none =>
    let (elem, tab) := NewFlow event tab key when
    (elem, { tab with flows := mapSet tab.flows key elem }.log (.NewFlow (tab.base elem).id))

/-- Source `FlowTable.Event`. -/
def FlowTable.Event (tab : FlowTable) (event : packetBuffer) : Option FlowTable :=
  let when := event.time
  let key := event.key
  let tab := { tab with now := when }
  let (found, tab) := FlowTable.Event.lookup tab key when
  let (elem, tab) := FlowTable.Event.create tab found event key when
  Flow.Event (tab.log (.Event (tab.base elem).id event)) elem event when

/-- A Go `for _, v := range tab.flows` loop over the entries present at the start, in list
order; an entry deleted from the map before its turn is not visited. -/
def FlowTable.range (body : FlowTable → Ptr → FlowTable) :
    List (FlowKey × Ptr) → FlowTable → FlowTable
  | [], tab => tab
  | e :: rest, tab =>
    FlowTable.range body rest (if e ∈ tab.flows then body tab e.2 else tab)

/-- The body of the loop of `FlowTable.Expire`. -/
def FlowTable.Expire.visit (when : Time) (tab : FlowTable) (elem : Ptr) : FlowTable :=
  if when > tab.NextEvent elem then
    BaseFlow.Expire (tab.log (.Expire (tab.base elem).id when)) elem when
  else tab

/-- Source `FlowTable.Expire`. -/
def FlowTable.Expire (tab : FlowTable) : FlowTable :=
  let when := tab.now
  FlowTable.range (FlowTable.Expire.visit when) tab.flows tab

/-- The body of the loop of `FlowTable.EOF`. -/
def FlowTable.EOF.visit (now : Time) (tab : FlowTable) (v : Ptr) : FlowTable :=
  let tab :=
    if now > tab.NextEvent v then
      BaseFlow.Expire (tab.log (.Expire (tab.base v).id now)) v now
    else tab
  if tab.Active v then BaseFlow.EOF (tab.log (.EOF (tab.base v).id now)) v now else tab

/-- Source `FlowTable.EOF`. -/
def FlowTable.EOF (tab : FlowTable) (now : Time) : FlowTable :=
  let tab := { tab with eof := true }
  let tab := FlowTable.range (FlowTable.EOF.visit now) tab.flows tab
  { tab with flows := [], eof := false }

/-- The calls a caller can make on a flow table. -/
inductive Op where
  | Event (event : packetBuffer)
  | Expire
  deriving DecidableEq, Repr

/-- Run a sequence of calls; a panic ends the run. -/
def FlowTable.run : List Op → FlowTable → Option FlowTable
  | [], tab => some tab
  | .Event e :: rest, tab =>
    match tab.Event e with
    | some tab => FlowTable.run rest tab
    | none => none
  | .Expire :: rest, tab => FlowTable.run rest tab.Expire

/-- The objects in the pool of the type of `p`. -/
def FlowTable.poolOf (tab : FlowTable) : Ptr → List Ptr
  | .tcp _ => tab.DataStore.tcp.map Ptr.tcp
  | .uni _ => tab.DataStore.uni.map Ptr.uni

/-- The calls that `FlowTable.Event`, `FlowTable.Expire` and `FlowTable.EOF` make themselves,
as opposed to the calls that a flow makes while it handles one of them. -/
def Call.byTable : Call → Bool
  | .NewFlow _ => true
  | .Expire _ _ => true
  | .Event _ _ => true
  | .EOF _ _ => true
  | .Export _ _ _ => false
  | .Recycle _ => false

/-- The calls of one visit of the loop of `FlowTable.EOF` to a flow with state `b`: the
`Expire` call when the next event has passed, with the export it causes, and then the `EOF`
call with its export when the flow is still active. -/
def eofCalls (b : BaseFlow) (idleTimeout activeTimeout now : Time) : List Call :=
  (if now > b.nextEvent then
    Call.Expire b.id now ::
      (if b.lastSeen + idleTimeout ≤ now then [Call.Export b.id .Idle now]
       else if b.firstSeen + activeTimeout ≤ now then [Call.Export b.id .Active now]
       else [])
   else []) ++
  (if b.active && !(decide (now > b.nextEvent) &&
      (decide (b.lastSeen + idleTimeout ≤ now) || decide (b.firstSeen + activeTimeout ≤ now)))
   then [Call.EOF b.id now, Call.Export b.id .EOF now]
   else [])

/-- Whether a call ends the life of instance `i`: its export or its recycling. -/
def Call.ends (i : Nat) : Call → Bool
  | .Export j _ _ => decide (j = i)
  | .Recycle j => decide (j = i)
  | _ => false

/-- Instance `i` has been exported once, the export was followed at once by the recycling of
the instance, and there is no other export or recycling of it. -/
def Finished (calls : List Call) (i : Nat) : Prop :=
  ∃ l1 l2 r t, calls = l1 ++ Call.Export i r t :: Call.Recycle i :: l2 ∧
    (∀ c ∈ l1, c.ends i = false) ∧ (∀ c ∈ l2, c.ends i = false)

/-- The objects in the two pools. -/
def FlowTable.pooled (tab : FlowTable) : List Ptr :=
  tab.DataStore.tcp.map Ptr.tcp ++ tab.DataStore.uni.map Ptr.uni

/-- Whether the object at `p` has been allocated. -/
def FlowTable.allocated (tab : FlowTable) : Ptr → Prop
  | .tcp a => a < tab.tcpObjects
  | .uni a => a < tab.uniObjects

/-- The invariant of a flow table between two calls: the EOF flag is clear, the map has one
entry per key, its entries point to distinct allocated objects none of which is in a pool, each
entry holds an active flow with the key of the entry and an instance number of its own, no
instance in the map has been exported or recycled, every other instance started so far is
`Finished`, and the instances started so far are those the flow creator was called for. -/
structure FlowTable.Inv (tab : FlowTable) : Prop where
  eof : tab.eof = false
  keys : (tab.flows.map Prod.fst).Nodup
  ptrs : (tab.flows.map Prod.snd).Nodup
  pool : tab.pooled.Nodup
  disj : ∀ e ∈ tab.flows, e.2 ∉ tab.pooled
  alloc : ∀ p, (p ∈ tab.flows.map Prod.snd ∨ p ∈ tab.pooled) → tab.allocated p
  live : ∀ e ∈ tab.flows, (tab.base e.2).key = e.1 ∧ (tab.base e.2).active = true ∧
    (tab.base e.2).id < tab.created
  ids : (tab.flows.map (fun e => (tab.base e.2).id)).Nodup
  untouched : ∀ i, ((∃ e ∈ tab.flows, (tab.base e.2).id = i) ∨ tab.created ≤ i) →
    ∀ c ∈ tab.calls, c.ends i = false
  finished : ∀ i, i < tab.created → (∀ e ∈ tab.flows, (tab.base e.2).id ≠ i) →
    Finished tab.calls i
  news : ∀ i, Call.NewFlow i ∈ tab.calls ↔ i < tab.created

/-- Every flow in the map has the next-event time of the lifecycle:
`min(first_seen + active_timeout, last_seen + idle_timeout)`. -/
def FlowTable.Timed (tab : FlowTable) : Prop :=
  ∀ e ∈ tab.flows, (tab.base e.2).nextEvent
    = min ((tab.base e.2).firstSeen + tab.activeTimeout)
        ((tab.base e.2).lastSeen + tab.idleTimeout)

/-- Every flow in the map is a `UniFlow`. -/
def FlowTable.AllUni (tab : FlowTable) : Prop :=
  ∀ e ∈ tab.flows, ∃ a, e.2 = Ptr.uni a

/-- Whether a call is an export of instance `i`. -/
def Call.isExport (i : Nat) : Call → Bool
  | .Export j _ _ => decide (j = i)
  | _ => false

/-- The events of a sequence of calls, in order. -/
def Op.events : List Op → List packetBuffer
  | [] => []
  | .Event e :: rest => e :: Op.events rest
  | .Expire :: rest => Op.events rest

/-- One step of the reference lifecycle of key `k`, written from the specification: an event
for `k` at time `w` continues the flow first seen at `f` and last seen at `t` when
`w <= min(f + active_timeout, t + idle_timeout)`, and otherwise starts a flow first seen at
`w`. -/
def refStep (active idle : Time) (k : FlowKey) (s : Option (Time × Time)) (e : packetBuffer) :
    Option (Time × Time) :=
  if e.key = k then
    match s with
    | some (f, t) =>
      if e.time ≤ min (f + active) (t + idle) then some (f, e.time) else some (e.time, e.time)
    | none => some (e.time, e.time)
  else s

/-- The reference lifecycle: the first-seen time `f` of the flow of the most recent event for
`k` and the time `t` of that event. -/
def refFlow (active idle : Time) (k : FlowKey) (es : List packetBuffer) : Option (Time × Time) :=
  es.foldl (refStep active idle k) none

/-- The time of the most recent event for `k`. -/
def lastTime (k : FlowKey) (es : List packetBuffer) : Option Time :=
  es.foldl (fun s e => if e.key = k then some e.time else s) none

/-- The relation between a table and the time `L k` of the most recent event of each key: the
table satisfies its invariant, every flow has the next-event time of the lifecycle, and a key
in the table was last seen at `L k`. -/
structure Track (a i : Time) (t : FlowTable) (L : FlowKey → Option Time) : Prop where
  inv : t.Inv
  timed : t.Timed
  idle : t.idleTimeout = i
  active : t.activeTimeout = a
  last : ∀ k p, (k, p) ∈ t.flows → L k = some (t.base p).lastSeen

/-- The relation between a table of `UniFlow`s and the reference lifecycle `S k` of each key: a
key without reference flow is absent, and a key with reference flow `(f, l)` is in the table
with these times, or it is absent and `min(f + active, l + idle)` has passed. -/
structure TrackU (a i : Time) (t : FlowTable) (S : FlowKey → Option (Time × Time)) : Prop where
  uni : t.AllUni
  ref : ∀ k,
    (S k = none ∧ ∀ p, (k, p) ∉ t.flows) ∨
    (∃ f l, S k = some (f, l) ∧
      ((∃ p, (k, p) ∈ t.flows ∧ (t.base p).firstSeen = f ∧ (t.base p).lastSeen = l) ∨
       ((∀ p, (k, p) ∉ t.flows) ∧ min (f + a) (l + i) < t.now)))

/-! ## Packet buffers (`packet/buffer.go`) -/

/-- The two calls by which `Recycle` returns the slot of a packet buffer to its pool:
`atomic.StoreInt32(&pb.inUse, v)` and `pb.owner.free(n)` (the type of `owner`,
`multiPacketBuffer`, is declared outside the sources, so the call is only recorded). -/
inductive PoolCall where
  | StoreInUse (v : Int)
  | free (n : Int)
  deriving DecidableEq, Repr

/-- The fields of `packetBuffer` that `Copy`, `assign`, `canRecycle` and `Recycle` read or
write besides the packet data: `inUse`, `refcnt`, `hlen`, `time` and `packetnr`, with the record
`poolCalls` of the calls made to return the slot, oldest first. The layer handles, the byte
buffer, the capture info and the label, which `assign` also sets, are outside this record.
`refcnt` is a Go `int`; it stays far from the bounds of that type for any number of calls a
program can make, and is an integer here. -/
structure bufferSlot where
  inUse : Int
  refcnt : Int
  hlen : Int
  time : Time
  packetnr : Nat
  poolCalls : List PoolCall
  deriving DecidableEq, Repr

/-- Source `packetBuffer.Copy`: `pb.refcnt++`. -/
def packetBuffer.Copy (pb : bufferSlot) : bufferSlot :=
  { pb with refcnt := pb.refcnt + 1 }

/-- Source `packetBuffer.assign`, for the capture timestamp `timestamp` (in nanoseconds) and the
packet number `packetnr`: `pb.hlen = 0`, `pb.refcnt = 1`, `pb.time = ...`,
`pb.packetnr = packetnr`. -/
def packetBuffer.assign (pb : bufferSlot) (timestamp : Time) (packetnr : Nat) : bufferSlot :=
  { pb with hlen := 0, refcnt := 1, time := timestamp, packetnr := packetnr }

/-- Source `packetBuffer.canRecycle`: decrement `refcnt`; false when it is still positive. -/
def packetBuffer.canRecycle (pb : bufferSlot) : Bool × bufferSlot :=
  let pb := { pb with refcnt := pb.refcnt - 1 }
  if pb.refcnt > 0 then (false, pb) else (true, pb)

/-- Source `packetBuffer.Recycle`. -/
def packetBuffer.Recycle (pb : bufferSlot) : bufferSlot :=
  let (can, pb) := packetBuffer.canRecycle pb
  if !can then pb
  else { pb with inUse := 0, poolCalls := pb.poolCalls ++ [.StoreInUse 0, .free 1] }

/-- The two calls the holders of a packet buffer make on it. -/
inductive BufOp where
  | Copy
  | Recycle
  deriving DecidableEq, Repr

/-- Apply a sequence of `Copy` and `Recycle` calls to a packet buffer. -/
def bufferSlot.run : List BufOp → bufferSlot → bufferSlot
  | [], pb => pb
  | .Copy :: rest, pb => bufferSlot.run rest (packetBuffer.Copy pb)
  | .Recycle :: rest, pb => bufferSlot.run rest (packetBuffer.Recycle pb)

/-! ## Scenarios -/

/-- The packet of the IPv6 scenario: TCP from [2001::2]:1000 to [2001::1]:2000. -/
def ipv6Packet : packetBuffer :=
  { key := [], time := 0,
    network := some ⟨[32, 1, 0, 0, 0, 0, 0, 0, 0, 0, 0, 0, 0, 0, 0, 2],
      [32, 1, 0, 0, 0, 0, 0, 0, 0, 0, 0, 0, 0, 0, 0, 1]⟩,
    transport := some ⟨.TCP, [3, 232], [7, 208], false, false, false⟩,
    forward := false }

/-- Deliver a sequence of packets to the `TCPFlow` at address `flow`, one `TCPFlow.Event` call
after the other. -/
def TCPFlow.deliver (flow : Nat) : List (packetBuffer × Time) → FlowTable → Option FlowTable
  | [], tab => some tab
  | (e, t) :: rest, tab =>
    match TCPFlow.Event tab flow e t with
    | some tab => TCPFlow.deliver flow rest tab
    | none => none

/-- A TCP segment with the given direction and FIN and ACK bits, RST clear. -/
def tcpSegment (forward FIN ACK : Bool) : packetBuffer :=
  ⟨[], 0, none, some ⟨.TCP, [0, 1], [0, 2], false, FIN, ACK⟩, forward⟩

/-- The teardown scenario: SYN, data, FIN(src), ACK(dst), FIN(dst), ACK(src), delivered at the
times `t 0`, ..., `t 5`. -/
def teardown (t : Nat → Time) : List (packetBuffer × Time) :=
  [(tcpSegment true false false, t 0), (tcpSegment true false true, t 1),
   (tcpSegment true true false, t 2), (tcpSegment false false true, t 3),
   (tcpSegment false true false, t 4), (tcpSegment true false true, t 5)]

/-- The calls of the idle-timeout scenario: a UDP packet for key [1] at time 0, a UDP packet for
key [2] at time 11, and then an expiry scan. -/
def idleScenario : List Op :=
  [.Event ⟨[1], 0, none, some ⟨.UDP, [0, 1], [0, 2], false, false, false⟩, true⟩,
   .Event ⟨[2], 11, none, some ⟨.UDP, [0, 1], [0, 2], false, false, false⟩, true⟩,
   .Expire]

/-- The table after the idle-timeout scenario. -/
def idleResult : FlowTable :=
  (FlowTable.run idleScenario (NewFlowTable 300 10)).getD (NewFlowTable 300 10)

/-- A TCP segment of the connection with key `key`, captured at time `time`, with the given
direction and FIN and ACK bits, RST clear. -/
def tcpSegmentAt (key : FlowKey) (time : Time) (forward FIN ACK : Bool) : packetBuffer :=
  ⟨key, time, none, some ⟨.TCP, [0, 1], [0, 2], false, FIN, ACK⟩, forward⟩

/-- The reuse scenario: the teardown of the connection with key [1], SYN, data, FIN(src),
ACK(dst), FIN(dst), ACK(src), at the times 1 to 6. -/
def reuseScenario : List Op :=
  [.Event (tcpSegmentAt [1] 1 true false false), .Event (tcpSegmentAt [1] 2 true false true),
   .Event (tcpSegmentAt [1] 3 true true false), .Event (tcpSegmentAt [1] 4 false false true),
   .Event (tcpSegmentAt [1] 5 false true false), .Event (tcpSegmentAt [1] 6 true false true)]

/-- The first packet of the next connection in the reuse scenario: a SYN with key [2] at
time 7. -/
def reuseSyn : packetBuffer :=
  tcpSegmentAt [2] 7 true false false

/-- A table that holds one new `TCPFlow`, at address 0. -/
def tcpTable : FlowTable :=
  (NewFlow (tcpSegment true false false) (NewFlowTable 300 10) [] 0).2

/-! ## Theorems: keys and hashing -/

theorem bytesCompare_neg_iff_lt (a b : List Nat) : bytesCompare a b < 0 ↔ a < b := by
  induction a generalizing b with
  | nil =>
    cases b with
    | nil =>
      simp [bytesCompare]
    | cons y ys =>
      simp only [bytesCompare]
      exact ⟨fun _ => List.Lex.nil, fun _ => by omega⟩
  | cons x xs ih =>
    cases b with
    | nil =>
      simp only [bytesCompare]
      constructor
      · intro h; omega
      · intro h; cases h
    | cons y ys =>
      simp only [bytesCompare]
      by_cases hxy : x < y
      · simp only [hxy, if_true]
        exact ⟨fun _ => List.Lex.rel hxy, fun _ => by omega⟩
      · by_cases hyx : y < x
        · simp only [hxy, hyx, if_false, if_true]
          constructor
          · intro h; omega
          · intro h
            cases h with
            | cons h => exact absurd hyx (lt_irrefl _)
            | rel h => exact absurd h hxy
        · simp only [hxy, hyx, if_false]
          rw [ih ys]
          have hx : x = y := by omega
          subst hx
          constructor
          · intro h; exact List.Lex.cons h
          · intro h
            cases h with
            | cons h => exact h
            | rel h => exact absurd h hxy

theorem bytesCompare_swap (a b : List Nat) : bytesCompare b a = - bytesCompare a b := by
  induction a generalizing b with
  | nil => cases b <;> simp [bytesCompare]
  | cons x xs ih =>
    cases b with
    | nil => simp [bytesCompare]
    | cons y ys =>
      simp only [bytesCompare]
      by_cases hxy : x < y
      · have : ¬ y < x := by omega
        simp [hxy, this]
      · by_cases hyx : y < x
        · simp [hxy, hyx]
        · simp [hxy, hyx, ih ys]

theorem bytesCompare_eq_zero (a b : List Nat) : bytesCompare a b = 0 ↔ a = b := by
  induction a generalizing b with
  | nil => cases b <;> simp [bytesCompare]
  | cons x xs ih =>
    cases b with
    | nil => simp [bytesCompare]
    | cons y ys =>
      simp only [bytesCompare]
      by_cases hxy : x < y
      · simp [hxy]; omega
      · by_cases hyx : y < x
        · simp [hxy, hyx]; omega
        · have : x = y := by omega
          simp [hxy, hyx, ih ys, this]

theorem LessThan_iff_lt (a b : List Nat) : Endpoint.LessThan a b = true ↔ a < b := by
  simp [Endpoint.LessThan, bytesCompare_neg_iff_lt]

theorem LessThan_asymm (a b : List Nat) (h : Endpoint.LessThan a b = true) :
    Endpoint.LessThan b a = false := by
  simp only [Endpoint.LessThan, decide_eq_true_eq, decide_eq_false_iff_not] at *
  rw [bytesCompare_swap]; omega

theorem LessThan_total (a b : List Nat) (hne : a ≠ b) (h : Endpoint.LessThan a b = false) :
    Endpoint.LessThan b a = true := by
  simp only [Endpoint.LessThan, decide_eq_true_eq, decide_eq_false_iff_not] at *
  have h0 : bytesCompare a b ≠ 0 := fun h0 => hne ((bytesCompare_eq_zero a b).1 h0)
  rw [bytesCompare_swap]; omega

theorem LessThan_irrefl (a : List Nat) : Endpoint.LessThan a a = false := by
  simp [Endpoint.LessThan, (bytesCompare_eq_zero a a).2 rfl]

theorem copyInto_of_length (n : Nat) (s : List Nat) (h : s.length = n) : copyInto n s = s := by
  simp [copyInto, h]

theorem copyInto_length (n : Nat) (s : List Nat) : (copyInto n s).length = n := by
  simp [copyInto]; omega

/-- C1 counterexample: a TCP conversation between two ports of one address, 127.0.0.1:1000 and
127.0.0.1:2000. Both directions get `forward = true` and the two keys differ in their port
fields. -/
theorem fivetuple_same_address_keys_differ :
    fivetuple ⟨[], 0, some ⟨[127, 0, 0, 1], [127, 0, 0, 1]⟩,
        some ⟨.TCP, [3, 232], [7, 208], false, false, false⟩, false⟩
      = some ([127, 0, 0, 1, 127, 0, 0, 1, 6, 3, 232, 7, 208], true) ∧
    fivetuple ⟨[], 0, some ⟨[127, 0, 0, 1], [127, 0, 0, 1]⟩,
        some ⟨.TCP, [7, 208], [3, 232], false, false, false⟩, false⟩
      = some ([127, 0, 0, 1, 127, 0, 0, 1, 6, 7, 208, 3, 232], true) ∧
    ([127, 0, 0, 1, 127, 0, 0, 1, 6, 3, 232, 7, 208] : FlowKey)
      ≠ [127, 0, 0, 1, 127, 0, 0, 1, 6, 7, 208, 3, 232] := by
  decide

/-- C1 (amended): for TCP packets P1 = (src a, dst b, ports p, q) and P2 = (src b, dst a,
ports q, p) with a and b both 4 or both 16 bytes long and a ≠ b (or p = q), `fivetuple`
returns the same key for both, and opposite forward bits whenever a and b differ. -/
theorem fivetuple_tcp_both_directions (a b p q : List Nat) (k1 k2 : FlowKey) (t1 t2 : Time)
    (w1 w2 r1 f1 c1 r2 f2 c2 : Bool)
    (hlen : (a.length = 4 ∧ b.length = 4) ∨ (a.length = 16 ∧ b.length = 16))
    (hne : a ≠ b ∨ p = q) :
    ∃ key fwd1 fwd2,
      fivetuple ⟨k1, t1, some ⟨a, b⟩, some ⟨.TCP, p, q, r1, f1, c1⟩, w1⟩ = some (key, fwd1) ∧
      fivetuple ⟨k2, t2, some ⟨b, a⟩, some ⟨.TCP, q, p, r2, f2, c2⟩, w2⟩ = some (key, fwd2) ∧
      (a ≠ b → fwd1 = !fwd2) := by
  by_cases hab : a = b
  · subst hab
    have hpq : p = q := by
      rcases hne with h | h
      · exact absurd rfl h
      · exact h
    subst hpq
    rcases hlen with ⟨h, _⟩ | ⟨h, _⟩ <;>
      simp [fivetuple, LessThan_irrefl, LayerClassIPControl.Contains, h]
  · cases hba : Endpoint.LessThan b a with
    | true =>
      have h2 := LessThan_asymm b a hba
      rcases hlen with ⟨h, h'⟩ | ⟨h, h'⟩ <;>
        simp [fivetuple, hba, h2, LayerClassIPControl.Contains, h, h']
    | false =>
      have h2 := LessThan_total b a (Ne.symm hab) hba
      rcases hlen with ⟨h, h'⟩ | ⟨h, h'⟩ <;>
        simp [fivetuple, hba, h2, LayerClassIPControl.Contains, h, h']

/-- Witness for C1 (amended): 10.0.0.1:1000 and 10.0.0.2:2000. -/
theorem fivetuple_tcp_both_directions_witness :
    ∃ key fwd1 fwd2,
      fivetuple ⟨[], 0, some ⟨[10, 0, 0, 1], [10, 0, 0, 2]⟩,
        some ⟨.TCP, [3, 232], [7, 208], false, false, true⟩, false⟩ = some (key, fwd1) ∧
      fivetuple ⟨[], 5, some ⟨[10, 0, 0, 2], [10, 0, 0, 1]⟩,
        some ⟨.TCP, [7, 208], [3, 232], false, false, true⟩, false⟩ = some (key, fwd2) ∧
      (([10, 0, 0, 1] : List Nat) ≠ [10, 0, 0, 2] → fwd1 = !fwd2) :=
  fivetuple_tcp_both_directions [10, 0, 0, 1] [10, 0, 0, 2] [3, 232] [7, 208] [] [] 0 5
    false false false false true false false true (Or.inl ⟨rfl, rfl⟩) (Or.inl (by decide))

/-- C2: on every packet whose two addresses have one length and whose port endpoints are two
bytes each, `fivetuple` equals the reference definition `fivetupleRef` (no key without a
network or transport layer or for an address length other than 4 and 16; otherwise forward is
false exactly when dst < src, and the key is smaller IP, larger IP, protocol byte, then the
ports, swapped with the IPs unless the protocol is ICMP), and the key is 13 bytes long for
4-byte addresses and 37 bytes long for 16-byte addresses. -/
theorem fivetuple_eq_fivetupleRef (packet : packetBuffer)
    (hwf : ∀ n t, packet.network = some n → packet.transport = some t →
      n.srcIP.length = n.dstIP.length ∧ t.srcPort.length = 2 ∧ t.dstPort.length = 2) :
    fivetuple packet = fivetupleRef packet ∧
    ∀ n key fwd, packet.network = some n → fivetuple packet = some (key, fwd) →
      (n.srcIP.length = 4 ∧ key.length = 13) ∨ (n.srcIP.length = 16 ∧ key.length = 37) := by
  obtain ⟨k, τ, network, transport, w⟩ := packet
  cases network with
  | none => simp [fivetuple, fivetupleRef]
  | some n =>
    cases transport with
    | none => simp [fivetuple, fivetupleRef]
    | some t =>
      obtain ⟨hl, hp, hq⟩ := hwf n t rfl rfl
      obtain ⟨a, b⟩ := n
      obtain ⟨ty, p, q, r, f, c⟩ := t
      simp only at hl hp hq
      have hcp := copyInto_of_length 2 p hp
      have hcq := copyInto_of_length 2 q hq
      have hcl : ∀ m (x : List Nat), (copyInto m x).length = m := copyInto_length
      by_cases h4 : a.length = 4
      · have hb4 : b.length = 4 := by omega
        have ha := copyInto_of_length 4 a h4
        have hb := copyInto_of_length 4 b hb4
        cases hsw : Endpoint.LessThan b a with
        | true =>
          have hlt : b < a := (LessThan_iff_lt b a).1 hsw
          cases ty <;>
            simp [fivetuple, fivetupleRef, hsw, hlt, h4, hb4, ha, hb, hcp, hcq, hp, hq,
              LayerClassIPControl.Contains, protoByte]
        | false =>
          have hlt : ¬ b < a := fun h => by
            rw [(LessThan_iff_lt b a).2 h] at hsw; exact Bool.noConfusion hsw
          cases ty <;>
            simp [fivetuple, fivetupleRef, hsw, hlt, h4, hb4, ha, hb, hcp, hcq, hp, hq,
              LayerClassIPControl.Contains, protoByte]
      · by_cases h16 : a.length = 16
        · have hb16 : b.length = 16 := by omega
          have ha := copyInto_of_length 16 a h16
          have hb := copyInto_of_length 16 b hb16
          cases hsw : Endpoint.LessThan b a with
          | true =>
            have hlt : b < a := (LessThan_iff_lt b a).1 hsw
            cases ty <;>
              simp [fivetuple, fivetupleRef, hsw, hlt, h16, hb16, ha, hb, hcp, hcq, hp, hq,
                LayerClassIPControl.Contains, protoByte]
          | false =>
            have hlt : ¬ b < a := fun h => by
              rw [(LessThan_iff_lt b a).2 h] at hsw; exact Bool.noConfusion hsw
            cases ty <;>
              simp [fivetuple, fivetupleRef, hsw, hlt, h16, hb16, ha, hb, hcp, hcq, hp, hq,
                LayerClassIPControl.Contains, protoByte]
        · have hb4 : ¬ b.length = 4 := by omega
          have hb16 : ¬ b.length = 16 := by omega
          cases hsw : Endpoint.LessThan b a <;>
            simp [fivetuple, fivetupleRef, hsw, h4, h16, hb4, hb16]

/-- Witness for C2, the IPv6 scenario: for src = 2001::2 and dst = 2001::1 the key holds
2001::1 in bytes 0..15, 2001::2 in bytes 16..31, the protocol byte 6, the ports swapped, and
forward is false. -/
theorem fivetuple_eq_fivetupleRef_witness :
    fivetuple ipv6Packet = fivetupleRef ipv6Packet ∧
    fivetuple ipv6Packet =
      some ([32, 1, 0, 0, 0, 0, 0, 0, 0, 0, 0, 0, 0, 0, 0, 1,
             32, 1, 0, 0, 0, 0, 0, 0, 0, 0, 0, 0, 0, 0, 0, 2,
             6, 7, 208, 3, 232], false) :=
  ⟨(fivetuple_eq_fivetupleRef ipv6Packet (by
      intro n t hn ht
      simp only [ipv6Packet, Option.some.injEq] at hn ht
      subst hn; subst ht
      exact ⟨rfl, rfl, rfl⟩)).1, by decide⟩

/-- C3: for an ICMPv4 or ICMPv6 packet with 4-byte or 16-byte addresses a, b and two-byte
endpoint fields p, q, `fivetuple` returns the same key for (a, b, p, q) and (b, a, p, q), and
in both the key ends in the protocol byte followed by p and then q: the port bytes are not
swapped when the addresses are. -/
theorem fivetuple_icmp_ports_kept (ty : LayerType) (a b p q : List Nat) (k1 k2 : FlowKey)
    (t1 t2 : Time) (w1 w2 r1 f1 c1 r2 f2 c2 : Bool)
    (hty : ty = .ICMPv4 ∨ ty = .ICMPv6)
    (hlen : a.length = b.length ∧ (a.length = 4 ∨ a.length = 16))
    (hp : p.length = 2) (hq : q.length = 2) :
    ∃ ips fwd1 fwd2, ips.length = 2 * a.length ∧
      fivetuple ⟨k1, t1, some ⟨a, b⟩, some ⟨ty, p, q, r1, f1, c1⟩, w1⟩
        = some (ips ++ [protoByte ty] ++ p ++ q, fwd1) ∧
      fivetuple ⟨k2, t2, some ⟨b, a⟩, some ⟨ty, p, q, r2, f2, c2⟩, w2⟩
        = some (ips ++ [protoByte ty] ++ p ++ q, fwd2) := by
  have hcp := copyInto_of_length 2 p hp
  have hcq := copyInto_of_length 2 q hq
  have hctl : LayerClassIPControl.Contains ty = true := by
    rcases hty with h | h <;> subst h <;> rfl
  obtain ⟨hab, h416⟩ := hlen
  by_cases hne : a = b
  · subst hne
    refine ⟨a ++ a, true, true, by simp; omega, ?_, ?_⟩ <;>
      rcases h416 with h | h <;>
      simp [fivetuple, LessThan_irrefl, hctl, h, hcp, hcq, copyInto_of_length _ a h]
  · cases hba : Endpoint.LessThan b a with
    | true =>
      have h2 := LessThan_asymm b a hba
      refine ⟨b ++ a, false, true, by simp; omega, ?_, ?_⟩ <;>
        rcases h416 with h | h <;>
        simp [fivetuple, hba, h2, hctl, h, hab ▸ h, hcp, hcq, copyInto_of_length _ a h,
          copyInto_of_length _ b (hab ▸ h)]
    | false =>
      have h2 := LessThan_total b a (Ne.symm hne) hba
      refine ⟨a ++ b, true, false, by simp; omega, ?_, ?_⟩ <;>
        rcases h416 with h | h <;>
        simp [fivetuple, hba, h2, hctl, h, hab ▸ h, hcp, hcq, copyInto_of_length _ a h,
          copyInto_of_length _ b (hab ▸ h)]

/-- Witness for C3: an ICMPv4 echo between 10.0.0.2 and 10.0.0.1. -/
theorem fivetuple_icmp_ports_kept_witness :
    ∃ ips fwd1 fwd2, ips.length = 2 * ([10, 0, 0, 2] : List Nat).length ∧
      fivetuple ⟨[], 0, some ⟨[10, 0, 0, 2], [10, 0, 0, 1]⟩,
          some ⟨.ICMPv4, [0, 0], [8, 0], false, false, false⟩, false⟩
        = some (ips ++ [protoByte .ICMPv4] ++ [0, 0] ++ [8, 0], fwd1) ∧
      fivetuple ⟨[], 1, some ⟨[10, 0, 0, 1], [10, 0, 0, 2]⟩,
          some ⟨.ICMPv4, [0, 0], [8, 0], false, false, false⟩, false⟩
        = some (ips ++ [protoByte .ICMPv4] ++ [0, 0] ++ [8, 0], fwd2) :=
  fivetuple_icmp_ports_kept .ICMPv4 [10, 0, 0, 2] [10, 0, 0, 1] [0, 0] [8, 0] [] [] 0 1
    false false false false false false false false (Or.inl rfl) ⟨rfl, Or.inl rfl⟩ rfl rfl

theorem fnvHash_loop_eq_foldl (s : List Nat) (i h : Nat) :
    fnvHash.loop s i h
      = (s.drop i).foldl (fun h b => ((h ^^^ b) * 1099511628211) % 18446744073709551616) h := by
  generalize hn : s.length - i = n
  induction n generalizing i h with
  | zero =>
    rw [fnvHash.loop]
    have hi : ¬ i < s.length := by omega
    have hd : s.drop i = [] := List.drop_eq_nil_of_le (by omega)
    simp [hi, hd]
  | succ n ih =>
    rw [fnvHash.loop]
    have hi : i < s.length := by omega
    rw [if_pos hi, ih (i + 1) _ (by omega), List.drop_eq_getElem_cons hi, List.foldl_cons]
    have hg : s.getD i 0 = s[i] := by
      simp [List.getD, List.getElem?_eq_getElem hi]
    rw [hg]
    rfl

theorem fnvHash_eq_fnv1a (s : List Nat) : fnvHash s = fnv1a s := by
  simp [fnvHash, fnv1a, fnvHash_loop_eq_foldl, fnvBasis]

theorem route_spec (num : Nat) (hnum : 0 < num) (buffer : List packetBuffer)
    (tmp : List (List packetBuffer)) (hlen : tmp.length = num) :
    ∃ out, ParallelFlowTable.route num buffer tmp = some out ∧ out.length = num ∧
      ∀ i, i < num →
        out.getD i [] = tmp.getD i [] ++ buffer.filter (fun b => fnv1a b.key % num = i) := by
  induction buffer generalizing tmp with
  | nil => exact ⟨tmp, rfl, hlen, fun i _ => by simp⟩
  | cons b rest ih =>
    have hh : fnv1a b.key % num < num := Nat.mod_lt _ hnum
    obtain ⟨out, hout, hol, hsp⟩ :=
      ih (tmp.set (fnv1a b.key % num) (tmp.getD (fnv1a b.key % num) [] ++ [b]))
        (by simp [hlen])
    refine ⟨out, ?_, hol, ?_⟩
    · simp only [ParallelFlowTable.route, FlowKey.Hash, fnvHash_eq_fnv1a]
      rw [if_neg (by omega)]
      exact hout
    · intro i hi
      rw [hsp i hi]
      by_cases hib : fnv1a b.key % num = i
      · subst hib
        simp [List.getD, List.getElem?_set, hlen, hh, List.filter_cons]
      · have hne : ¬ (fnv1a b.key % num = i) := hib
        simp [List.getD, List.getElem?_set, hib, List.filter_cons]

/-- C4: for N ≥ 1 shards, `ParallelFlowTable.Event` returns N batches, and batch i holds, in
arrival order, exactly the packets whose key k has fnv1a(k) mod N = i, where fnv1a is the 64-bit
FNV-1a hash of all bytes of k (which `fnvHash` computes); that index is below N, and packets
with equal keys land in the same batch. -/
theorem parallel_event_routes_by_fnv1a (num : Nat) (hnum : 1 ≤ num) (buffer : List packetBuffer) :
    (∀ k : FlowKey, FlowKey.Hash k = fnv1a k ∧ fnv1a k % num < num) ∧
    ∃ out, ParallelFlowTable.Event num buffer = some out ∧ out.length = num ∧
      (∀ i, i < num → out.getD i [] = buffer.filter (fun b => fnv1a b.key % num = i)) ∧
      (∀ b, b ∈ buffer → ∀ i, i < num → (b ∈ out.getD i [] ↔ i = fnv1a b.key % num)) ∧
      (∀ b1 b2, b1 ∈ buffer → b2 ∈ buffer → b1.key = b2.key →
        ∀ i, i < num → (b1 ∈ out.getD i [] ↔ b2 ∈ out.getD i [])) := by
  refine ⟨fun k => ⟨fnvHash_eq_fnv1a k, Nat.mod_lt _ hnum⟩, ?_⟩
  obtain ⟨out, hout, hlen, hsp⟩ :=
    route_spec num hnum buffer (List.replicate num []) (by simp)
  have hsp2 : ∀ i, i < num → out.getD i [] = buffer.filter (fun b => fnv1a b.key % num = i) := by
    intro i hi
    rw [hsp i hi]
    simp [List.getD, List.getElem?_replicate, hi]
  refine ⟨out, hout, hlen, hsp2, ?_, ?_⟩
  · intro b hb i hi
    rw [hsp2 i hi, List.mem_filter]
    simp [hb, eq_comm]
  · intro b1 b2 hb1 hb2 hk i hi
    rw [hsp2 i hi, List.mem_filter, List.mem_filter]
    simp [hb1, hb2, hk]

/-- Witness for C4: three packets over two shards. -/
theorem parallel_event_routes_by_fnv1a_witness :
    (∀ k : FlowKey, FlowKey.Hash k = fnv1a k ∧ fnv1a k % 2 < 2) ∧
    ∃ out, ParallelFlowTable.Event 2
        [⟨[1], 0, none, none, true⟩, ⟨[2], 1, none, none, true⟩, ⟨[1], 2, none, none, false⟩]
        = some out ∧ out.length = 2 ∧
      (∀ i, i < 2 → out.getD i [] =
        ([⟨[1], 0, none, none, true⟩, ⟨[2], 1, none, none, true⟩, ⟨[1], 2, none, none, false⟩] :
          List packetBuffer).filter (fun b => fnv1a b.key % 2 = i)) ∧
      (∀ b, b ∈ ([⟨[1], 0, none, none, true⟩, ⟨[2], 1, none, none, true⟩,
          ⟨[1], 2, none, none, false⟩] : List packetBuffer) →
        ∀ i, i < 2 → (b ∈ out.getD i [] ↔ i = fnv1a b.key % 2)) ∧
      (∀ b1 b2, b1 ∈ ([⟨[1], 0, none, none, true⟩, ⟨[2], 1, none, none, true⟩,
          ⟨[1], 2, none, none, false⟩] : List packetBuffer) →
        b2 ∈ ([⟨[1], 0, none, none, true⟩, ⟨[2], 1, none, none, true⟩,
          ⟨[1], 2, none, none, false⟩] : List packetBuffer) → b1.key = b2.key →
        ∀ i, i < 2 → (b1 ∈ out.getD i [] ↔ b2 ∈ out.getD i [])) :=
  parallel_event_routes_by_fnv1a 2 (by decide) _

/-! ## Theorems: the flow table -/

theorem mapGet_mapDelete_self (m : List (FlowKey × Ptr)) (k : FlowKey) :
    mapGet (mapDelete m k) k = none := by
  induction m with
  | nil => rfl
  | cons e rest ih =>
    obtain ⟨k', v⟩ := e
    by_cases h : k' = k
    · simpa [mapDelete, List.filter_cons, h] using ih
    · simpa [mapDelete, List.filter_cons, h, mapGet] using ih

theorem mapGet_mapDelete_ne (m : List (FlowKey × Ptr)) (k k' : FlowKey) (h : k' ≠ k) :
    mapGet (mapDelete m k) k' = mapGet m k' := by
  induction m with
  | nil => rfl
  | cons e rest ih =>
    obtain ⟨k'', v⟩ := e
    by_cases h2 : k'' = k
    · have h3 : ¬ k'' = k' := fun h3 => h (h3 ▸ h2)
      simpa [mapDelete, List.filter_cons, h2, mapGet, h3, h2 ▸ h3] using ih
    · by_cases h3 : k'' = k'
      · subst h3
        simp [mapDelete, List.filter_cons, h2, mapGet]
      · simpa [mapDelete, List.filter_cons, h2, mapGet, h3] using ih

/-- C9: `FlowTable.Remove` with the EOF flag clear deletes the entry at the flow's key, leaves
the entry of every other key as it was, and recycles the flow exactly once (one `Recycle` call,
the flow pushed once onto its pool, the other pool untouched); with the EOF flag set it changes
nothing: the map is unchanged and the flow is not recycled. -/
theorem remove_frame (tab : FlowTable) (entry : Ptr) :
    (tab.eof = false →
      (tab.Remove entry).flows = tab.flows.filter (fun e => decide (e.1 ≠ (tab.base entry).key)) ∧
      mapGet (tab.Remove entry).flows (tab.base entry).key = none ∧
      (∀ k, k ≠ (tab.base entry).key → mapGet (tab.Remove entry).flows k = mapGet tab.flows k) ∧
      (tab.Remove entry).calls = tab.calls ++ [Call.Recycle (tab.base entry).id] ∧
      (tab.Remove entry).poolOf entry = entry :: tab.poolOf entry ∧
      (∀ q, (∀ a b, ¬ (entry = .tcp a ∧ q = .tcp b)) → (∀ a b, ¬ (entry = .uni a ∧ q = .uni b)) →
        (tab.Remove entry).poolOf q = tab.poolOf q)) ∧
    (tab.eof = true → tab.Remove entry = tab) := by
  constructor
  · intro h
    refine ⟨?_, ?_, ?_, ?_, ?_, ?_⟩
    · cases entry <;> simp [FlowTable.Remove, h, Flow.Recycle, FlowTable.log, mapDelete]
    · cases entry <;>
        simp [FlowTable.Remove, h, Flow.Recycle, FlowTable.log, mapGet_mapDelete_self]
    · intro k hk
      cases entry <;>
        simp [FlowTable.Remove, h, Flow.Recycle, FlowTable.log, mapGet_mapDelete_ne _ _ _ hk]
    · cases entry <;> simp [FlowTable.Remove, h, Flow.Recycle, FlowTable.log]
    · cases entry <;> simp [FlowTable.Remove, h, Flow.Recycle, FlowTable.log, FlowTable.poolOf]
    · intro q h1 h2
      cases entry <;> cases q <;>
        simp_all [FlowTable.Remove, Flow.Recycle, FlowTable.log, FlowTable.poolOf]
  · intro h
    simp [FlowTable.Remove, h]

/-- Witness for C9: removing the flow of key [2] from the table of the idle-timeout
scenario. -/
theorem remove_frame_witness :
    mapGet (idleResult.Remove (.uni 1)).flows (idleResult.base (.uni 1)).key = none ∧
    (idleResult.Remove (.uni 1)).calls
      = idleResult.calls ++ [Call.Recycle (idleResult.base (.uni 1)).id] :=
  ⟨((remove_frame idleResult (.uni 1)).1 (by decide)).2.1,
    ((remove_frame idleResult (.uni 1)).1 (by decide)).2.2.2.1⟩

theorem tcp_update_eq (f : TCPFlow) (forward FIN ACK : Bool) :
    TCPFlow.update f forward FIN ACK =
      { srcFIN := f.srcFIN || (forward && FIN)
        dstACK := f.dstACK || (forward && f.dstFIN && ACK)
        dstFIN := f.dstFIN || (!forward && FIN)
        srcACK := f.srcACK || (!forward && f.srcFIN && ACK) } := by
  obtain ⟨a, b, c, d⟩ := f
  cases forward <;> cases FIN <;> cases ACK <;> cases a <;> cases b <;> cases c <;> cases d <;>
    rfl

theorem tcp_event_result (tab : FlowTable) (flow : Nat) (event : packetBuffer)
    (tcp : TransportLayer) (when : Time) (hact : tab.Active (.tcp flow) = true)
    (htp : event.transport = some tcp) (hty : tcp.layerType = .TCP) :
    ∃ r, TCPFlow.Event tab flow event when = some r ∧
      r.Active (.tcp flow) = !(tcp.RST || ((r.tcp flow).srcFIN && (r.tcp flow).srcACK &&
        (r.tcp flow).dstFIN && (r.tcp flow).dstACK)) ∧
      r.eof = tab.eof ∧ (r.base (.tcp flow)).id = (tab.base (.tcp flow)).id ∧
      r.tcp flow =
        (if tcp.RST then tab.tcp flow
         else TCPFlow.update (tab.tcp flow) event.forward tcp.FIN tcp.ACK) ∧
      r.calls = tab.calls ++
        (if tcp.RST || ((r.tcp flow).srcFIN && (r.tcp flow).srcACK && (r.tcp flow).dstFIN &&
            (r.tcp flow).dstACK) then
          Call.Export (tab.base (.tcp flow)).id .End when ::
            (if tab.eof then [] else [Call.Recycle (tab.base (.tcp flow)).id])
         else []) := by
  have hact2 : (tab.base (.tcp flow)).active = true := hact
  cases hrst : tcp.RST with
  | true =>
    cases heof : tab.eof <;>
      simp [TCPFlow.Event, BaseFlow.Event, FlowTable.Active, BaseFlow.Export, FlowTable.Remove,
        FlowTable.log, Flow.Recycle, hact2, htp, hty, hrst, heof]
  | false =>
    rcases hf : TCPFlow.update (tab.tcp flow) event.forward tcp.FIN tcp.ACK with ⟨a, b, c, d⟩
    cases heof : tab.eof <;> cases a <;> cases b <;> cases c <;> cases d <;>
      simp [TCPFlow.Event, BaseFlow.Event, FlowTable.Active, BaseFlow.Export, FlowTable.Remove,
        FlowTable.log, Flow.Recycle, hact2, htp, hty, hrst, heof, hf]

theorem tcp_segment_step (tab : FlowTable) (flow : Nat) (forward FIN ACK : Bool) (when : Time)
    (f : TCPFlow) (hact : tab.Active (.tcp flow) = true) (hf : tab.tcp flow = f) :
    ∃ r, TCPFlow.Event tab flow (tcpSegment forward FIN ACK) when = some r ∧
      r.tcp flow = TCPFlow.update f forward FIN ACK ∧
      r.Active (.tcp flow) = !((TCPFlow.update f forward FIN ACK).srcFIN &&
        (TCPFlow.update f forward FIN ACK).srcACK && (TCPFlow.update f forward FIN ACK).dstFIN &&
        (TCPFlow.update f forward FIN ACK).dstACK) ∧
      r.eof = tab.eof ∧ (r.base (.tcp flow)).id = (tab.base (.tcp flow)).id ∧
      r.calls = tab.calls ++
        (if ((TCPFlow.update f forward FIN ACK).srcFIN &&
            (TCPFlow.update f forward FIN ACK).srcACK &&
            (TCPFlow.update f forward FIN ACK).dstFIN &&
            (TCPFlow.update f forward FIN ACK).dstACK) then
          Call.Export (tab.base (.tcp flow)).id .End when ::
            (if tab.eof then [] else [Call.Recycle (tab.base (.tcp flow)).id])
         else []) := by
  obtain ⟨r, hr, h1, h2, h3, h4, h5⟩ :=
    tcp_event_result tab flow (tcpSegment forward FIN ACK) _ when hact rfl rfl
  have h4' : r.tcp flow = TCPFlow.update f forward FIN ACK := by
    rw [h4, hf]; rfl
  rw [h4'] at h1 h5
  exact ⟨r, hr, h4', by simpa using h1, h2, h3, by simpa using h5⟩

/-- C6: for an active TCP flow and a TCP packet, `TCPFlow.Event` with RST set exports with
reason End and leaves the four flags as they were; without RST a forward packet sets srcFIN if
FIN, and dstACK if dstFIN was already set and ACK is present, a reverse packet sets dstFIN if
FIN, and srcACK if srcFIN was already set and ACK is present, no flag is cleared, and the flow
exports with reason End exactly when all four flags are true after the update (otherwise no
call is made). Starting from all flags false, the sequence SYN, data, FIN(src), ACK(dst),
FIN(dst), ACK(src) makes no call during its first five packets and exports with reason End on
the final ACK. -/
theorem tcp_event_teardown (tab : FlowTable) (flow : Nat)
    (hact : tab.Active (.tcp flow) = true) :
    (∀ (event : packetBuffer) (tcp : TransportLayer) (when : Time),
      event.transport = some tcp → tcp.layerType = .TCP →
      ∃ r, TCPFlow.Event tab flow event when = some r ∧
        (tcp.RST = true →
          r.tcp flow = tab.tcp flow ∧
          r.calls = tab.calls ++ Call.Export (tab.base (.tcp flow)).id .End when ::
            (if tab.eof then [] else [Call.Recycle (tab.base (.tcp flow)).id])) ∧
        (tcp.RST = false →
          (r.tcp flow).srcFIN = ((tab.tcp flow).srcFIN || (event.forward && tcp.FIN)) ∧
          (r.tcp flow).dstACK =
            ((tab.tcp flow).dstACK || (event.forward && (tab.tcp flow).dstFIN && tcp.ACK)) ∧
          (r.tcp flow).dstFIN = ((tab.tcp flow).dstFIN || (!event.forward && tcp.FIN)) ∧
          (r.tcp flow).srcACK =
            ((tab.tcp flow).srcACK || (!event.forward && (tab.tcp flow).srcFIN && tcp.ACK)) ∧
          r.calls = tab.calls ++
            (if (r.tcp flow).srcFIN && (r.tcp flow).srcACK && (r.tcp flow).dstFIN &&
                (r.tcp flow).dstACK then
              Call.Export (tab.base (.tcp flow)).id .End when ::
                (if tab.eof then [] else [Call.Recycle (tab.base (.tcp flow)).id])
             else []))) ∧
    (tab.tcp flow = ⟨false, false, false, false⟩ → ∀ t : Nat → Time,
      (∀ n, n < 6 → ∃ s, TCPFlow.deliver flow ((teardown t).take n) tab = some s ∧
        s.calls = tab.calls) ∧
      ∃ s, TCPFlow.deliver flow (teardown t) tab = some s ∧
        s.calls = tab.calls ++ Call.Export (tab.base (.tcp flow)).id .End (t 5) ::
          (if tab.eof then [] else [Call.Recycle (tab.base (.tcp flow)).id])) := by
  constructor
  · intro event tcp when htp hty
    obtain ⟨r, hr, _, _, _, h4, h5⟩ := tcp_event_result tab flow event tcp when hact htp hty
    refine ⟨r, hr, ?_, ?_⟩
    · intro hrst
      rw [hrst] at h4 h5
      exact ⟨by simpa using h4, by simpa using h5⟩
    · intro hrst
      rw [hrst] at h4 h5
      simp only [Bool.false_eq_true, if_false, Bool.false_or] at h4 h5
      rw [tcp_update_eq] at h4
      refine ⟨by rw [h4], by rw [h4], by rw [h4], by rw [h4], h5⟩
  · intro hf t
    obtain ⟨s1, e1, f1, a1, o1, i1, c1⟩ := tcp_segment_step tab flow true false false (t 0) _ hact hf
    obtain ⟨s2, e2, f2, a2, o2, i2, c2⟩ :=
      tcp_segment_step s1 flow true false true (t 1) _ (by rw [a1]; rfl) f1
    obtain ⟨s3, e3, f3, a3, o3, i3, c3⟩ :=
      tcp_segment_step s2 flow true true false (t 2) _ (by rw [a2]; rfl) f2
    obtain ⟨s4, e4, f4, a4, o4, i4, c4⟩ :=
      tcp_segment_step s3 flow false false true (t 3) _ (by rw [a3]; rfl) f3
    obtain ⟨s5, e5, f5, a5, o5, i5, c5⟩ :=
      tcp_segment_step s4 flow false true false (t 4) _ (by rw [a4]; rfl) f4
    obtain ⟨s6, e6, f6, a6, o6, i6, c6⟩ :=
      tcp_segment_step s5 flow true false true (t 5) _ (by rw [a5]; rfl) f5
    have d1 : s1.calls = tab.calls := by rw [c1]; simp [TCPFlow.update]
    have d2 : s2.calls = tab.calls := by rw [c2, d1]; simp [TCPFlow.update]
    have d3 : s3.calls = tab.calls := by rw [c3, d2]; simp [TCPFlow.update]
    have d4 : s4.calls = tab.calls := by rw [c4, d3]; simp [TCPFlow.update]
    have d5 : s5.calls = tab.calls := by rw [c5, d4]; simp [TCPFlow.update]
    have d6 : s6.calls = tab.calls ++ Call.Export (tab.base (.tcp flow)).id .End (t 5) ::
        (if tab.eof then [] else [Call.Recycle (tab.base (.tcp flow)).id]) := by
      rw [c6, d5, i5, i4, i3, i2, i1, o5, o4, o3, o2, o1]
      simp [TCPFlow.update]
    constructor
    · intro n hn
      interval_cases n
      · exact ⟨tab, rfl, rfl⟩
      · exact ⟨s1, by simp [teardown, TCPFlow.deliver, e1], d1⟩
      · exact ⟨s2, by simp [teardown, TCPFlow.deliver, e1, e2], d2⟩
      · exact ⟨s3, by simp [teardown, TCPFlow.deliver, e1, e2, e3], d3⟩
      · exact ⟨s4, by simp [teardown, TCPFlow.deliver, e1, e2, e3, e4], d4⟩
      · exact ⟨s5, by simp [teardown, TCPFlow.deliver, e1, e2, e3, e4, e5], d5⟩
    · exact ⟨s6, by simp [teardown, TCPFlow.deliver, e1, e2, e3, e4, e5, e6], d6⟩

/-- Witness for C6: the teardown scenario on a new TCP flow, the packets arriving at the times
1 to 6. -/
theorem tcp_event_teardown_witness :
    tcpTable.Active (.tcp 0) = true ∧
    ∃ s, TCPFlow.deliver 0 (teardown (fun n => n + 1)) tcpTable = some s ∧
      s.calls = tcpTable.calls ++ Call.Export (tcpTable.base (.tcp 0)).id .End 6 ::
        (if tcpTable.eof then [] else [Call.Recycle (tcpTable.base (.tcp 0)).id]) :=
  ⟨by decide,
    ((tcp_event_teardown tcpTable 0 (by decide)).2 (by decide) (fun n => n + 1)).2⟩

theorem export_calls (tab : FlowTable) (p : Ptr) (r : FlowEndReason) (t : Time) :
    (BaseFlow.Export tab p r t).calls = tab.calls ++ Call.Export (tab.base p).id r t ::
      (if tab.eof then [] else [Call.Recycle (tab.base p).id]) := by
  cases h : tab.eof <;> cases p <;>
    simp [BaseFlow.Export, FlowTable.Remove, FlowTable.log, Flow.Recycle, h]

theorem export_now (tab : FlowTable) (p : Ptr) (r : FlowEndReason) (t : Time) :
    (BaseFlow.Export tab p r t).now = tab.now := by
  cases h : tab.eof <;> cases p <;>
    simp [BaseFlow.Export, FlowTable.Remove, FlowTable.log, Flow.Recycle, h]

theorem expire_calls (tab : FlowTable) (p : Ptr) (t : Time) :
    (BaseFlow.Expire tab p t).now = tab.now ∧
    ∃ l, (BaseFlow.Expire tab p t).calls = tab.calls ++ l ∧ l.filter Call.byTable = [] := by
  unfold BaseFlow.Expire
  split_ifs
  · exact ⟨export_now _ _ _ _, _, export_calls _ _ _ _, by cases tab.eof <;> simp [Call.byTable]⟩
  · exact ⟨export_now _ _ _ _, _, export_calls _ _ _ _, by cases tab.eof <;> simp [Call.byTable]⟩
  · exact ⟨rfl, [], by simp, rfl⟩

theorem flow_event_calls (tab r : FlowTable) (p : Ptr) (e : packetBuffer) (t : Time)
    (h : Flow.Event tab p e t = some r) :
    r.now = tab.now ∧ ∃ l, r.calls = tab.calls ++ l ∧ l.filter Call.byTable = [] := by
  cases p with
  | uni a =>
    simp only [Flow.Event, Option.some.injEq] at h
    subst h
    exact ⟨rfl, [], by simp [BaseFlow.Event], rfl⟩
  | tcp a =>
    simp only [Flow.Event, TCPFlow.Event] at h
    split_ifs at h with h1
    · simp only [Option.some.injEq] at h
      subst h
      exact ⟨rfl, [], by simp [BaseFlow.Event], rfl⟩
    · split at h
      · exact absurd h (by simp)
      · split_ifs at h with h2 h3 h4
        · simp only [Option.some.injEq] at h
          subst h
          refine ⟨by rw [export_now]; rfl, _, export_calls _ _ _ _, ?_⟩
          cases tab.eof <;> simp [Call.byTable, BaseFlow.Event]
        · simp only [Option.some.injEq] at h
          subst h
          refine ⟨by rw [export_now]; rfl, _, export_calls _ _ _ _, ?_⟩
          cases tab.eof <;> simp [Call.byTable, BaseFlow.Event]
        · simp only [Option.some.injEq] at h
          subst h
          exact ⟨rfl, [], by simp [BaseFlow.Event], rfl⟩

theorem newflow_calls (e : packetBuffer) (tab : FlowTable) (k : FlowKey) (t : Time) :
    (NewFlow e tab k t).2.calls = tab.calls ∧ (NewFlow e tab k t).2.now = tab.now ∧
    ((NewFlow e tab k t).2.base (NewFlow e tab k t).1).id = tab.created := by
  unfold NewFlow
  split_ifs
  · cases h : tab.DataStore.tcp <;> simp [flowPool.getTCP, BaseFlow.Init, h]
  · cases h : tab.DataStore.uni <;> simp [flowPool.getUni, BaseFlow.Init, h]

/-- C5: `FlowTable.Event(e)` sets `now` to the timestamp of `e` and delivers `e` to exactly one
flow `elem`, from the state `mid` reached before the delivery. Either (A) a flow is stored at
e's key and now <= its next_event: it is that flow, and the table has called neither the flow
creator nor Expire; or (B) a flow is stored at e's key, now > its next_event, the flow was
expired at now and is still active: it is that flow, and the flow creator was not called; or
(C) no flow is stored at e's key, or the stored flow was expired at now (now > its next_event)
and is no longer active: `elem` is the flow built by the flow creator, stored at e's key
before the delivery. The table calls Expire on the stored flow only in (B) and (C), where
now > next_event. -/
theorem table_event_delivers_once (tab : FlowTable) (event : packetBuffer) :
    ∃ elem mid,
      FlowTable.Event tab event
        = Flow.Event (mid.log (.Event (mid.base elem).id event)) elem event event.time ∧
      mid.now = event.time ∧
      (∀ r, FlowTable.Event tab event = some r →
        r.now = event.time ∧
        r.calls.filter Call.byTable
          = mid.calls.filter Call.byTable ++ [.Event (mid.base elem).id event]) ∧
      ((∃ p, mapGet tab.flows event.key = some p ∧ event.time ≤ tab.NextEvent p ∧ elem = p ∧
          mid = { tab with now := event.time }) ∨
       (∃ p, mapGet tab.flows event.key = some p ∧ tab.NextEvent p < event.time ∧ elem = p ∧
          mid = BaseFlow.Expire
            ({ tab with now := event.time }.log (.Expire (tab.base p).id event.time))
            p event.time ∧
          mid.Active p = true ∧
          mid.calls.filter Call.byTable
            = tab.calls.filter Call.byTable ++ [.Expire (tab.base p).id event.time]) ∨
       (∃ x,
          ((mapGet tab.flows event.key = none ∧ x = { tab with now := event.time }) ∨
           (∃ p, mapGet tab.flows event.key = some p ∧ tab.NextEvent p < event.time ∧
              x = BaseFlow.Expire
                ({ tab with now := event.time }.log (.Expire (tab.base p).id event.time))
                p event.time ∧
              x.Active p = false)) ∧
          elem = (NewFlow event x event.key event.time).1 ∧
          mid.flows = mapSet (NewFlow event x event.key event.time).2.flows event.key elem ∧
          mapGet mid.flows event.key = some elem ∧
          (mid.base elem).id = x.created ∧
          mid.calls = x.calls ++ [.NewFlow x.created])) := by
  have hdeliver : ∀ (elem : Ptr) (mid : FlowTable), mid.now = event.time →
      ∀ r, Flow.Event (mid.log (.Event (mid.base elem).id event)) elem event event.time = some r →
        r.now = event.time ∧
        r.calls.filter Call.byTable
          = mid.calls.filter Call.byTable ++ [.Event (mid.base elem).id event] := by
    intro elem mid hnow r hr
    obtain ⟨h1, l, h2, h3⟩ := flow_event_calls _ _ _ _ _ hr
    refine ⟨by rw [h1]; exact hnow, ?_⟩
    rw [h2]
    simp [FlowTable.log, List.filter_append, h3, Call.byTable]
  cases hget : mapGet tab.flows event.key with
  | none =>
    have hn := newflow_calls event { tab with now := event.time } event.key event.time
    refine ⟨(NewFlow event { tab with now := event.time } event.key event.time).1,
      { (NewFlow event { tab with now := event.time } event.key event.time).2 with
        flows := mapSet (NewFlow event { tab with now := event.time } event.key event.time).2.flows
          event.key (NewFlow event { tab with now := event.time } event.key event.time).1 }.log
        (.NewFlow ((NewFlow event { tab with now := event.time } event.key event.time).2.base
          (NewFlow event { tab with now := event.time } event.key event.time).1).id),
      ?_, ?_, ?_, ?_⟩
    · simp [FlowTable.Event, FlowTable.Event.lookup, FlowTable.Event.create, hget]
    · simpa [FlowTable.log] using hn.2.1
    · intro r hr
      refine hdeliver _ _ (by simpa [FlowTable.log] using hn.2.1) r ?_
      simpa [FlowTable.Event, FlowTable.Event.lookup, FlowTable.Event.create, hget] using hr
    · refine Or.inr (Or.inr ⟨{ tab with now := event.time }, Or.inl ⟨rfl, rfl⟩, rfl, ?_, ?_, ?_, ?_⟩)
      · simp [FlowTable.log]
      · simp [FlowTable.log, mapSet, mapGet]
      · simpa [FlowTable.log] using hn.2.2
      · simp [FlowTable.log, hn.1, hn.2.2]
  | some p =>
    by_cases hle : event.time ≤ tab.NextEvent p
    · have hng : ¬ (event.time > ({ tab with now := event.time } : FlowTable).NextEvent p) := by
        simpa [FlowTable.NextEvent] using hle
      refine ⟨p, { tab with now := event.time }, ?_, rfl, ?_, Or.inl ⟨p, rfl, hle, rfl, rfl⟩⟩
      · simp [FlowTable.Event, FlowTable.Event.lookup, FlowTable.Event.create, hget, hng]
      · intro r hr
        refine hdeliver _ _ rfl r ?_
        simpa [FlowTable.Event, FlowTable.Event.lookup, FlowTable.Event.create, hget, hng]
          using hr
    · have hgt : event.time > ({ tab with now := event.time } : FlowTable).NextEvent p := by
        simpa [FlowTable.NextEvent] using hle
      have hlt : tab.NextEvent p < event.time := Nat.lt_of_not_le hle
      obtain ⟨hxnow, l, hxl, hxf⟩ := expire_calls
        ({ tab with now := event.time }.log (.Expire (tab.base p).id event.time)) p event.time
      cases hact : (BaseFlow.Expire
          ({ tab with now := event.time }.log (.Expire (tab.base p).id event.time))
          p event.time).Active p with
      | true =>
        refine ⟨p, _, ?_, hxnow, ?_, Or.inr (Or.inl ⟨p, rfl, hlt, rfl, rfl, hact, ?_⟩)⟩
        · simp [FlowTable.Event, FlowTable.Event.lookup, FlowTable.Event.create, hget, hgt, hact]
        · intro r hr
          refine hdeliver _ _ hxnow r ?_
          simpa [FlowTable.Event, FlowTable.Event.lookup, FlowTable.Event.create, hget, hgt,
            hact] using hr
        · rw [hxl]
          simp [FlowTable.log, List.filter_append, hxf, Call.byTable]
      | false =>
        have hn := newflow_calls event (BaseFlow.Expire
          ({ tab with now := event.time }.log (.Expire (tab.base p).id event.time))
          p event.time) event.key event.time
        refine ⟨(NewFlow event (BaseFlow.Expire
            ({ tab with now := event.time }.log (.Expire (tab.base p).id event.time))
            p event.time) event.key event.time).1,
          { (NewFlow event (BaseFlow.Expire
            ({ tab with now := event.time }.log (.Expire (tab.base p).id event.time))
            p event.time) event.key event.time).2 with
            flows := mapSet (NewFlow event (BaseFlow.Expire
              ({ tab with now := event.time }.log (.Expire (tab.base p).id event.time))
              p event.time) event.key event.time).2.flows event.key (NewFlow event (BaseFlow.Expire
              ({ tab with now := event.time }.log (.Expire (tab.base p).id event.time))
              p event.time) event.key event.time).1 }.log
            (.NewFlow ((NewFlow event (BaseFlow.Expire
              ({ tab with now := event.time }.log (.Expire (tab.base p).id event.time))
              p event.time) event.key event.time).2.base (NewFlow event (BaseFlow.Expire
              ({ tab with now := event.time }.log (.Expire (tab.base p).id event.time))
              p event.time) event.key event.time).1).id), ?_, ?_, ?_, ?_⟩
        · simp [FlowTable.Event, FlowTable.Event.lookup, FlowTable.Event.create, hget, hgt, hact]
        · exact hn.2.1.trans hxnow
        · intro r hr
          refine hdeliver _ _ (by exact hn.2.1.trans hxnow) r ?_
          simpa [FlowTable.Event, FlowTable.Event.lookup, FlowTable.Event.create, hget, hgt,
            hact] using hr
        · refine Or.inr (Or.inr ⟨_, Or.inr ⟨p, rfl, hlt, rfl, hact⟩, rfl, ?_, ?_, ?_, ?_⟩)
          · simp [FlowTable.log]
          · simp [FlowTable.log, mapSet, mapGet]
          · simpa [FlowTable.log] using hn.2.2
          · show (NewFlow event _ event.key event.time).2.calls ++ [_] = _
            rw [hn.1, hn.2.2]

/-- Witness for C5: a UDP packet for key [2] at time 12 on the table of the idle-timeout
scenario. -/
theorem table_event_delivers_once_witness :
    ∃ (elem : Ptr) (mid : FlowTable),
      FlowTable.Event idleResult
          ⟨[2], 12, none, some ⟨.UDP, [0, 1], [0, 2], false, false, false⟩, true⟩
        = Flow.Event
            (mid.log (.Event (mid.base elem).id
              ⟨[2], 12, none, some ⟨.UDP, [0, 1], [0, 2], false, false, false⟩, true⟩))
            elem ⟨[2], 12, none, some ⟨.UDP, [0, 1], [0, 2], false, false, false⟩, true⟩ 12 ∧
      mid.now = 12 := by
  obtain ⟨elem, mid, h1, h2, _⟩ := table_event_delivers_once idleResult
    ⟨[2], 12, none, some ⟨.UDP, [0, 1], [0, 2], false, false, false⟩, true⟩
  exact ⟨elem, mid, h1, h2⟩

theorem eof_visit_eq (now : Time) (tab : FlowTable) (v : Ptr) (heof : tab.eof = true) :
    FlowTable.EOF.visit now tab v =
      { tab with
        base := Function.update tab.base v
          (if (tab.base v).active ||
              (decide (now > (tab.base v).nextEvent) &&
                (decide ((tab.base v).lastSeen + tab.idleTimeout ≤ now) ||
                  decide ((tab.base v).firstSeen + tab.activeTimeout ≤ now)))
           then { (tab.base v) with active := false } else tab.base v)
        calls := tab.calls ++ eofCalls (tab.base v) tab.idleTimeout tab.activeTimeout now } := by
  obtain ⟨fl, ato, it, nw, ds, ef, bs, tc, tco, uo, cr, cl⟩ := tab
  simp only at heof
  subst heof
  simp only
  by_cases h1 : now > (bs v).nextEvent <;>
    by_cases h2 : (bs v).lastSeen + it ≤ now <;>
    by_cases h3 : (bs v).firstSeen + ato ≤ now <;>
    cases h4 : (bs v).active <;>
    simp [FlowTable.EOF.visit, BaseFlow.Expire, BaseFlow.EOF, BaseFlow.Export, FlowTable.Remove,
      FlowTable.log, FlowTable.Active, FlowTable.NextEvent, eofCalls, h1, h2, h3, h4]

theorem range_eof (now : Time) (L F : List (FlowKey × Ptr)) (t : FlowTable)
    (heof : t.eof = true) (hF : t.flows = F) (hsub : ∀ e ∈ L, e ∈ F)
    (hnd : (L.map Prod.snd).Nodup) :
    ∃ bs, FlowTable.range (FlowTable.EOF.visit now) L t =
        { t with
          base := bs
          calls := t.calls ++
            L.flatMap (fun e => eofCalls (t.base e.2) t.idleTimeout t.activeTimeout now) } ∧
      (∀ q, q ∉ L.map Prod.snd → bs q = t.base q) ∧
      (∀ q, (bs q).id = (t.base q).id) := by
  induction L generalizing t with
  | nil => exact ⟨t.base, by simp [FlowTable.range], fun _ _ => rfl, fun _ => rfl⟩
  | cons e rest ih =>
    have hmem : e ∈ t.flows := hF ▸ hsub e (List.mem_cons_self _ _)
    simp only [List.map_cons, List.nodup_cons] at hnd
    obtain ⟨bs, hbs, hframe, hid⟩ := ih (FlowTable.EOF.visit now t e.2)
      (by rw [eof_visit_eq now t e.2 heof]; exact heof)
      (by rw [eof_visit_eq now t e.2 heof]; exact hF)
      (fun x hx => hsub x (List.mem_cons_of_mem _ hx)) hnd.2
    refine ⟨bs, ?_, ?_, ?_⟩
    · simp only [FlowTable.range, hmem, if_true]
      rw [hbs, eof_visit_eq now t e.2 heof]
      simp only [List.flatMap_cons, List.append_assoc]
      have hrest : ∀ x ∈ rest,
          eofCalls (Function.update t.base e.2
            (if (t.base e.2).active ||
                (decide (now > (t.base e.2).nextEvent) &&
                  (decide ((t.base e.2).lastSeen + t.idleTimeout ≤ now) ||
                    decide ((t.base e.2).firstSeen + t.activeTimeout ≤ now)))
             then { (t.base e.2) with active := false } else t.base e.2) x.2)
            t.idleTimeout t.activeTimeout now
          = eofCalls (t.base x.2) t.idleTimeout t.activeTimeout now := by
        intro x hx
        have hne : x.2 ≠ e.2 := fun h => hnd.1 (h ▸ List.mem_map_of_mem Prod.snd hx)
        rw [Function.update_noteq hne]
      rw [List.flatMap_congr hrest]
    · intro q hq
      simp only [List.map_cons, List.mem_cons, not_or] at hq
      rw [hframe q hq.2, eof_visit_eq now t e.2 heof]
      simp [Function.update_noteq hq.1]
    · intro q
      rw [hid q, eof_visit_eq now t e.2 heof]
      by_cases hq : q = e.2
      · subst hq
        simp only [Function.update_same]
        split_ifs <;> rfl
      · simp [Function.update_noteq hq]

theorem eofCalls_byTable (b : BaseFlow) (i a now : Time) :
    (eofCalls b i a now).filter Call.byTable =
      (if now > b.nextEvent then [Call.Expire b.id now] else []) ++
      (if b.active && !(decide (now > b.nextEvent) &&
          (decide (b.lastSeen + i ≤ now) || decide (b.firstSeen + a ≤ now)))
       then [Call.EOF b.id now] else []) := by
  by_cases h1 : now > b.nextEvent <;> by_cases h2 : b.lastSeen + i ≤ now <;>
    by_cases h3 : b.firstSeen + a ≤ now <;> cases h4 : b.active <;>
    simp [eofCalls, List.filter_cons, Call.byTable, h1, h2, h3, h4]

theorem active_after_expire (tab : FlowTable) (p : Ptr) (now : Time) :
    (if now > tab.NextEvent p then BaseFlow.Expire { tab with eof := true } p now
      else tab).Active p =
    ((tab.base p).active && !(decide (now > (tab.base p).nextEvent) &&
      (decide ((tab.base p).lastSeen + tab.idleTimeout ≤ now) ||
        decide ((tab.base p).firstSeen + tab.activeTimeout ≤ now)))) := by
  by_cases h1 : now > (tab.base p).nextEvent <;>
    by_cases h2 : (tab.base p).lastSeen + tab.idleTimeout ≤ now <;>
    by_cases h3 : (tab.base p).firstSeen + tab.activeTimeout ≤ now <;>
    cases h4 : (tab.base p).active <;>
    simp [BaseFlow.Expire, BaseFlow.Export, FlowTable.Remove, FlowTable.log, FlowTable.Active,
      FlowTable.NextEvent, h1, h2, h3, h4]

/-- C10: after `FlowTable.EOF(now)` on a table whose entries point to distinct flows, the map
is empty and the EOF flag is false, and the calls the table made are, for each flow that was
in the table, in turn: `Expire(now)` if and only if now > its next_event, and then `EOF(now)`
if and only if the flow is still active after that. -/
theorem eof_visits_each_flow_once (tab : FlowTable) (now : Time)
    (hnd : (tab.flows.map Prod.snd).Nodup) :
    (tab.EOF now).flows = [] ∧ (tab.EOF now).eof = false ∧
    (tab.EOF now).calls.filter Call.byTable = tab.calls.filter Call.byTable ++
      tab.flows.flatMap (fun e =>
        (if now > tab.NextEvent e.2 then [Call.Expire (tab.base e.2).id now] else []) ++
        (if (if now > tab.NextEvent e.2 then BaseFlow.Expire { tab with eof := true } e.2 now
              else tab).Active e.2
         then [Call.EOF (tab.base e.2).id now] else [])) := by
  refine ⟨rfl, rfl, ?_⟩
  obtain ⟨bs, hbs, _, _⟩ := range_eof now tab.flows tab.flows { tab with eof := true } rfl rfl
    (fun _ h => h) hnd
  simp only [FlowTable.EOF, hbs, List.filter_append, List.filter_flatMap]
  congr 1
  apply List.flatMap_congr
  intro e _
  rw [eofCalls_byTable, active_after_expire]
  rfl

/-- Witness for C10: EOF at time 20 on the table of the idle-timeout scenario. -/
theorem eof_visits_each_flow_once_witness :
    (idleResult.EOF 20).flows = [] ∧ (idleResult.EOF 20).eof = false ∧
    (idleResult.EOF 20).calls.filter Call.byTable = idleResult.calls.filter Call.byTable ++
      idleResult.flows.flatMap (fun e =>
        (if 20 > idleResult.NextEvent e.2 then [Call.Expire (idleResult.base e.2).id 20]
          else []) ++
        (if (if 20 > idleResult.NextEvent e.2 then
                BaseFlow.Expire { idleResult with eof := true } e.2 20
              else idleResult).Active e.2
         then [Call.EOF (idleResult.base e.2).id 20] else [])) :=
  eof_visits_each_flow_once idleResult 20 (by decide)

/-! ## Theorems: the invariant of the flow table -/

theorem Finished.append {calls : List Call} {i : Nat} (h : Finished calls i) (l : List Call)
    (hl : ∀ c ∈ l, c.ends i = false) : Finished (calls ++ l) i := by
  obtain ⟨l1, l2, r, t, hc, h1, h2⟩ := h
  refine ⟨l1, l2 ++ l, r, t, by rw [hc]; simp, h1, ?_⟩
  intro c hc'
  rcases List.mem_append.1 hc' with h | h
  · exact h2 c h
  · exact hl c h

theorem FlowTable.Inv.init (a i : Time) : (NewFlowTable a i).Inv where
  eof := rfl
  keys := List.nodup_nil
  ptrs := List.nodup_nil
  pool := List.nodup_nil
  disj := fun _ h => by cases h
  alloc := fun p h => by
    rcases h with h | h <;> simp [NewFlowTable, FlowTable.pooled] at h
  live := fun _ h => by cases h
  ids := List.nodup_nil
  untouched := fun _ _ _ h => by cases h
  finished := fun i h _ => by simp [NewFlowTable] at h
  news := fun i => by simp [NewFlowTable]

/-- A change that keeps the map, the pools, the counters and the key, active bit and instance
number of every object, and that adds only calls that end no instance, keeps the invariant. -/
theorem FlowTable.Inv.mono {t r : FlowTable} (h : t.Inv) (l : List Call)
    (hflows : r.flows = t.flows) (hpool : r.DataStore = t.DataStore) (heof : r.eof = t.eof)
    (htcp : r.tcpObjects = t.tcpObjects) (huni : r.uniObjects = t.uniObjects)
    (hcr : r.created = t.created)
    (hbase : ∀ x, (r.base x).key = (t.base x).key ∧ (r.base x).active = (t.base x).active ∧
      (r.base x).id = (t.base x).id)
    (hcalls : r.calls = t.calls ++ l) (hl : ∀ c ∈ l, ∀ i, c.ends i = false)
    (hn : ∀ c ∈ l, ∀ i, c ≠ Call.NewFlow i) : r.Inv where
  eof := heof.trans h.eof
  keys := hflows ▸ h.keys
  ptrs := hflows ▸ h.ptrs
  pool := by
    have : r.pooled = t.pooled := by simp [FlowTable.pooled, hpool]
    exact this ▸ h.pool
  disj := by
    have : r.pooled = t.pooled := by simp [FlowTable.pooled, hpool]
    rw [hflows, this]; exact h.disj
  alloc := by
    intro p hp
    have hpooled : r.pooled = t.pooled := by simp [FlowTable.pooled, hpool]
    rw [hflows, hpooled] at hp
    have := h.alloc p hp
    cases p <;> simpa [FlowTable.allocated, htcp, huni] using this
  live := by
    intro e he
    rw [hflows] at he
    obtain ⟨h1, h2, h3⟩ := h.live e he
    obtain ⟨k1, k2, k3⟩ := hbase e.2
    exact ⟨k1.trans h1, k2.trans h2, by rw [k3, hcr]; exact h3⟩
  ids := by
    have : r.flows.map (fun e => (r.base e.2).id) = t.flows.map (fun e => (t.base e.2).id) := by
      rw [hflows]
      exact List.map_congr_left (fun e _ => (hbase e.2).2.2)
    exact this ▸ h.ids
  untouched := by
    intro i hi c hc
    rw [hcalls] at hc
    rcases List.mem_append.1 hc with hc | hc
    · refine h.untouched i ?_ c hc
      rcases hi with ⟨e, he, hid⟩ | hi
      · exact Or.inl ⟨e, hflows ▸ he, (hbase e.2).2.2 ▸ hid⟩
      · exact Or.inr (hcr ▸ hi)
    · exact hl c hc i
  finished := by
    intro i hi hne
    rw [hcalls]
    refine (h.finished i (hcr ▸ hi) ?_).append l (fun c hc => hl c hc i)
    intro e he
    have := hne e (hflows ▸ he)
    rwa [(hbase e.2).2.2] at this
  news := by
    intro i
    rw [hcalls, hcr, List.mem_append, h.news i]
    exact ⟨fun hm => hm.elim id (fun hm => absurd rfl (hn _ hm i)), Or.inl⟩

theorem export_fields (t : FlowTable) (p : Ptr) (reason : FlowEndReason) (w : Time)
    (heof : t.eof = false) :
    (BaseFlow.Export t p reason w).flows = mapDelete t.flows (t.base p).key ∧
    (BaseFlow.Export t p reason w).base
      = Function.update t.base p ({ (t.base p) with active := false }) ∧
    (BaseFlow.Export t p reason w).calls
      = t.calls ++ [Call.Export (t.base p).id reason w, Call.Recycle (t.base p).id] ∧
    (BaseFlow.Export t p reason w).created = t.created ∧
    (BaseFlow.Export t p reason w).eof = false ∧
    (BaseFlow.Export t p reason w).tcpObjects = t.tcpObjects ∧
    (BaseFlow.Export t p reason w).uniObjects = t.uniObjects ∧
    (BaseFlow.Export t p reason w).idleTimeout = t.idleTimeout ∧
    (BaseFlow.Export t p reason w).activeTimeout = t.activeTimeout ∧
    (BaseFlow.Export t p reason w).now = t.now ∧
    (BaseFlow.Export t p reason w).tcp = t.tcp ∧
    (∀ x, x ∈ (BaseFlow.Export t p reason w).pooled ↔ x = p ∨ x ∈ t.pooled) ∧
    ((BaseFlow.Export t p reason w).pooled.Nodup ↔ p ∉ t.pooled ∧ t.pooled.Nodup) := by
  cases p with
  | tcp a =>
    refine ⟨?_, ?_, ?_, ?_, ?_, ?_, ?_, ?_, ?_, ?_, ?_, ?_, ?_⟩ <;>
      simp [BaseFlow.Export, FlowTable.Remove, FlowTable.log, Flow.Recycle, heof,
        FlowTable.pooled]
  | uni a =>
    have hp : (BaseFlow.Export t (.uni a) reason w).pooled
        = t.DataStore.tcp.map Ptr.tcp ++ Ptr.uni a :: t.DataStore.uni.map Ptr.uni := by
      simp [BaseFlow.Export, FlowTable.Remove, FlowTable.log, Flow.Recycle, heof,
        FlowTable.pooled]
    refine ⟨?_, ?_, ?_, ?_, ?_, ?_, ?_, ?_, ?_, ?_, ?_, ?_, ?_⟩
    iterate 11
      simp [BaseFlow.Export, FlowTable.Remove, FlowTable.log, Flow.Recycle, heof]
    · intro x
      rw [hp]
      simp only [FlowTable.pooled, List.mem_append, List.mem_cons]
      tauto
    · rw [hp, List.nodup_middle, List.nodup_cons]
      rfl

theorem mem_flows_unique {t : FlowTable} (h : t.Inv) {e e' : FlowKey × Ptr} (he : e ∈ t.flows)
    (he' : e' ∈ t.flows) (hp : e.2 = e'.2) : e = e' :=
  List.inj_on_of_nodup_map h.ptrs he he' hp

theorem mem_flows_unique_key {t : FlowTable} (h : t.Inv) {e e' : FlowKey × Ptr}
    (he : e ∈ t.flows) (he' : e' ∈ t.flows) (hk : e.1 = e'.1) : e = e' :=
  List.inj_on_of_nodup_map h.keys he he' hk

theorem mem_flows_unique_id {t : FlowTable} (h : t.Inv) {e e' : FlowKey × Ptr}
    (he : e ∈ t.flows) (he' : e' ∈ t.flows) (hi : (t.base e.2).id = (t.base e'.2).id) : e = e' :=
  List.inj_on_of_nodup_map h.ids he he' hi

theorem mem_mapDelete {m : List (FlowKey × Ptr)} {k : FlowKey} {e : FlowKey × Ptr} :
    e ∈ mapDelete m k ↔ e ∈ m ∧ e.1 ≠ k := by
  simp [mapDelete, List.mem_filter]

theorem FlowTable.Inv.afterExport {t : FlowTable} (h : t.Inv) (k : FlowKey) (p : Ptr) (hmem : (k, p) ∈ t.flows)
    (reason : FlowEndReason) (w : Time) : (BaseFlow.Export t p reason w).Inv := by
  obtain ⟨hfl, hbase, hcalls, hcr, heof, htcp, huni, _, _, _, _, hpm, hpn⟩ :=
    export_fields t p reason w h.eof
  have hkey : (t.base p).key = k := (h.live _ hmem).1
  rw [hkey] at hfl
  have hsub : ∀ e ∈ (BaseFlow.Export t p reason w).flows, e ∈ t.flows ∧ e.2 ≠ p := by
    intro e he
    rw [hfl] at he
    obtain ⟨he1, he2⟩ := mem_mapDelete.1 he
    refine ⟨he1, fun hp => he2 ?_⟩
    have := mem_flows_unique h he1 hmem hp
    rw [this]
  have hsame : ∀ e ∈ (BaseFlow.Export t p reason w).flows,
      (BaseFlow.Export t p reason w).base e.2 = t.base e.2 := by
    intro e he
    rw [hbase, Function.update_noteq (hsub e he).2]
  have hids : (BaseFlow.Export t p reason w).flows.map
        (fun e => ((BaseFlow.Export t p reason w).base e.2).id)
      = (mapDelete t.flows k).map (fun e => (t.base e.2).id) := by
    rw [← hfl]
    exact List.map_congr_left (fun e he => by rw [hsame e he])
  have hnotlive : ∀ e ∈ (BaseFlow.Export t p reason w).flows,
      ((BaseFlow.Export t p reason w).base e.2).id ≠ (t.base p).id := by
    intro e he hid
    rw [hsame e he] at hid
    have := mem_flows_unique_id h (hsub e he).1 hmem hid
    exact (hsub e he).2 (by rw [this])
  refine ⟨heof, ?_, ?_, ?_, ?_, ?_, ?_, ?_, ?_, ?_, ?_⟩
  · rw [hfl]
    exact h.keys.sublist (List.Sublist.map _ (List.filter_sublist _))
  · rw [hfl]
    exact h.ptrs.sublist (List.Sublist.map _ (List.filter_sublist _))
  · exact hpn.2 ⟨h.disj _ hmem, h.pool⟩
  · intro e he hp
    rcases (hpm e.2).1 hp with hp | hp
    · exact (hsub e he).2 hp
    · exact h.disj e (hsub e he).1 hp
  · intro x hx
    have hx' : x ∈ t.flows.map Prod.snd ∨ x ∈ t.pooled := by
      rcases hx with hx | hx
      · obtain ⟨e, he, rfl⟩ := List.mem_map.1 hx
        exact Or.inl (List.mem_map_of_mem _ (hsub e he).1)
      · rcases (hpm x).1 hx with hx | hx
        · exact Or.inl (hx ▸ List.mem_map_of_mem Prod.snd hmem)
        · exact Or.inr hx
    have := h.alloc x hx'
    cases x <;> simpa [FlowTable.allocated, htcp, huni] using this
  · intro e he
    rw [hsame e he, hcr]
    exact h.live e (hsub e he).1
  · rw [hids]
    exact h.ids.sublist (List.Sublist.map _ (List.filter_sublist _))
  · intro i hi c hc
    rw [hcalls] at hc
    have hne : (t.base p).id ≠ i := by
      rcases hi with ⟨e, he, hid⟩ | hi
      · exact fun h' => hnotlive e he (hid.trans h'.symm)
      · have : (t.base p).id < t.created := (h.live _ hmem).2.2
        rw [hcr] at hi
        omega
    rcases List.mem_append.1 hc with hc | hc
    · refine h.untouched i ?_ c hc
      rcases hi with ⟨e, he, hid⟩ | hi
      · exact Or.inl ⟨e, (hsub e he).1, by rw [← hsame e he]; exact hid⟩
      · exact Or.inr (hcr ▸ hi)
    · simp only [List.mem_cons, List.mem_singleton, List.not_mem_nil, or_false] at hc
      rcases hc with rfl | rfl <;> simp [Call.ends, hne]
  · intro i hi hne
    rw [hcalls]
    by_cases hip : i = (t.base p).id
    · subst hip
      exact ⟨t.calls, [], reason, w, rfl,
        h.untouched _ (Or.inl ⟨_, hmem, rfl⟩), fun _ hc => by cases hc⟩
    · refine (h.finished i (hcr ▸ hi) ?_).append _ ?_
      · intro e he hid
        by_cases hep : e.2 = p
        · exact hip (by rw [← hid, hep])
        · have he' : e ∈ (BaseFlow.Export t p reason w).flows := by
            rw [hfl]
            refine mem_mapDelete.2 ⟨he, fun hk => hep ?_⟩
            have := mem_flows_unique_key h he hmem hk
            rw [this]
          exact hne e he' (by rw [hsame e he']; exact hid)
      · intro c hc
        simp only [List.mem_cons, List.mem_singleton, List.not_mem_nil, or_false] at hc
        rcases hc with rfl | rfl <;> simp [Call.ends, Ne.symm hip]
  · intro i
    rw [hcalls, hcr, ← h.news i]
    simp

theorem newflow_fields {t : FlowTable} (h : t.Inv) (e : packetBuffer) (k : FlowKey) (w : Time) :
    (NewFlow e t k w).2.flows = t.flows ∧ (NewFlow e t k w).2.eof = t.eof ∧
    (NewFlow e t k w).2.calls = t.calls ∧ (NewFlow e t k w).2.created = t.created + 1 ∧
    (NewFlow e t k w).2.idleTimeout = t.idleTimeout ∧
    (NewFlow e t k w).2.activeTimeout = t.activeTimeout ∧
    (NewFlow e t k w).2.now = t.now ∧
    (NewFlow e t k w).2.base (NewFlow e t k w).1
      = ⟨k, w, w, w + t.idleTimeout, true, t.created⟩ ∧
    (∀ x, x ≠ (NewFlow e t k w).1 → (NewFlow e t k w).2.base x = t.base x) ∧
    (NewFlow e t k w).1 ∉ t.flows.map Prod.snd ∧
    (∀ x, x ∈ (NewFlow e t k w).2.pooled → x ∈ t.pooled ∧ x ≠ (NewFlow e t k w).1) ∧
    (NewFlow e t k w).2.pooled.Nodup ∧
    (NewFlow e t k w).2.allocated (NewFlow e t k w).1 ∧
    (∀ x, t.allocated x → (NewFlow e t k w).2.allocated x) := by
  have hnotptr : ∀ q, q ∈ t.pooled → q ∉ t.flows.map Prod.snd := by
    intro q hq hq'
    obtain ⟨e', he', rfl⟩ := List.mem_map.1 hq'
    exact h.disj e' he' hq
  have hpool := h.pool
  by_cases htcp : isTCP e.transport = true
  · cases hds : t.DataStore.tcp with
    | nil =>
      have hfresh : ¬ t.allocated (.tcp t.tcpObjects) := by simp [FlowTable.allocated]
      have hq : (NewFlow e t k w).1 = .tcp t.tcpObjects := by
        simp [NewFlow, htcp, flowPool.getTCP, hds]
      have hpl : (NewFlow e t k w).2.pooled = t.pooled := by
        simp [NewFlow, htcp, flowPool.getTCP, hds, BaseFlow.Init, FlowTable.pooled]
      rw [hq, hpl]
      refine ⟨?_, ?_, ?_, ?_, ?_, ?_, ?_, ?_, ?_, ?_, ?_, ?_, ?_, ?_⟩
      iterate 8 simp [NewFlow, htcp, flowPool.getTCP, hds, BaseFlow.Init]
      · intro x hx
        simp [NewFlow, htcp, flowPool.getTCP, hds, BaseFlow.Init, Function.update_noteq hx]
      · exact fun hm => hfresh (h.alloc _ (Or.inl hm))
      · exact fun x hx => ⟨hx, fun hxq => hfresh (h.alloc _ (Or.inr (hxq ▸ hx)))⟩
      · exact hpool
      · simp [NewFlow, htcp, flowPool.getTCP, hds, BaseFlow.Init, FlowTable.allocated]
      · intro x hx
        cases x <;>
          simp [NewFlow, htcp, flowPool.getTCP, hds, BaseFlow.Init, FlowTable.allocated] at hx ⊢
        · omega
        · exact hx
    | cons a rest =>
      have hq : (NewFlow e t k w).1 = .tcp a := by
        simp [NewFlow, htcp, flowPool.getTCP, hds]
      have hpl0 : t.pooled = .tcp a :: (NewFlow e t k w).2.pooled := by
        simp [NewFlow, htcp, flowPool.getTCP, hds, BaseFlow.Init, FlowTable.pooled]
      rw [hpl0, List.nodup_cons] at hpool
      have hmemq : Ptr.tcp a ∈ t.pooled := by rw [hpl0]; exact List.mem_cons_self _ _
      rw [hq]
      refine ⟨?_, ?_, ?_, ?_, ?_, ?_, ?_, ?_, ?_, ?_, ?_, ?_, ?_, ?_⟩
      iterate 8 simp [NewFlow, htcp, flowPool.getTCP, hds, BaseFlow.Init]
      · intro x hx
        simp [NewFlow, htcp, flowPool.getTCP, hds, BaseFlow.Init, Function.update_noteq hx]
      · exact hnotptr _ hmemq
      · intro x hx
        exact ⟨by rw [hpl0]; exact List.mem_cons_of_mem _ hx, fun hxq => hpool.1 (hxq ▸ hx)⟩
      · exact hpool.2
      · have := h.alloc _ (Or.inr hmemq)
        simpa [NewFlow, htcp, flowPool.getTCP, hds, BaseFlow.Init, FlowTable.allocated] using this
      · intro x hx
        cases x <;>
          simpa [NewFlow, htcp, flowPool.getTCP, hds, BaseFlow.Init, FlowTable.allocated]
            using hx
  · cases hds : t.DataStore.uni with
    | nil =>
      have hfresh : ¬ t.allocated (.uni t.uniObjects) := by simp [FlowTable.allocated]
      have hq : (NewFlow e t k w).1 = .uni t.uniObjects := by
        simp [NewFlow, htcp, flowPool.getUni, hds]
      have hpl : (NewFlow e t k w).2.pooled = t.pooled := by
        simp [NewFlow, htcp, flowPool.getUni, hds, BaseFlow.Init, FlowTable.pooled]
      rw [hq, hpl]
      refine ⟨?_, ?_, ?_, ?_, ?_, ?_, ?_, ?_, ?_, ?_, ?_, ?_, ?_, ?_⟩
      iterate 8 simp [NewFlow, htcp, flowPool.getUni, hds, BaseFlow.Init]
      · intro x hx
        simp [NewFlow, htcp, flowPool.getUni, hds, BaseFlow.Init, Function.update_noteq hx]
      · exact fun hm => hfresh (h.alloc _ (Or.inl hm))
      · exact fun x hx => ⟨hx, fun hxq => hfresh (h.alloc _ (Or.inr (hxq ▸ hx)))⟩
      · exact hpool
      · simp [NewFlow, htcp, flowPool.getUni, hds, BaseFlow.Init, FlowTable.allocated]
      · intro x hx
        cases x <;>
          simp [NewFlow, htcp, flowPool.getUni, hds, BaseFlow.Init, FlowTable.allocated] at hx ⊢
        · exact hx
        · omega
    | cons a rest =>
      have hq : (NewFlow e t k w).1 = .uni a := by
        simp [NewFlow, htcp, flowPool.getUni, hds]
      have hpl0 : t.pooled = t.DataStore.tcp.map Ptr.tcp ++ .uni a :: rest.map Ptr.uni := by
        simp [hds, FlowTable.pooled]
      have hpl1 : (NewFlow e t k w).2.pooled = t.DataStore.tcp.map Ptr.tcp ++ rest.map Ptr.uni := by
        simp [NewFlow, htcp, flowPool.getUni, hds, BaseFlow.Init, FlowTable.pooled]
      rw [hpl0, List.nodup_middle, List.nodup_cons, ← hpl1] at hpool
      have hmemq : Ptr.uni a ∈ t.pooled := by rw [hpl0]; simp
      rw [hq]
      refine ⟨?_, ?_, ?_, ?_, ?_, ?_, ?_, ?_, ?_, ?_, ?_, ?_, ?_, ?_⟩
      iterate 8 simp [NewFlow, htcp, flowPool.getUni, hds, BaseFlow.Init]
      · intro x hx
        simp [NewFlow, htcp, flowPool.getUni, hds, BaseFlow.Init, Function.update_noteq hx]
      · exact hnotptr _ hmemq
      · intro x hx
        refine ⟨?_, fun hxq => hpool.1 (hxq ▸ hx)⟩
        rw [hpl1] at hx
        rw [hpl0]
        simp only [List.mem_append, List.mem_cons] at hx ⊢
        tauto
      · exact hpool.2
      · have := h.alloc _ (Or.inr hmemq)
        simpa [NewFlow, htcp, flowPool.getUni, hds, BaseFlow.Init, FlowTable.allocated] using this
      · intro x hx
        cases x <;>
          simpa [NewFlow, htcp, flowPool.getUni, hds, BaseFlow.Init, FlowTable.allocated]
            using hx

theorem mapDelete_eq_self {m : List (FlowKey × Ptr)} {k : FlowKey}
    (h : ∀ e ∈ m, e.1 ≠ k) : mapDelete m k = m := by
  unfold mapDelete
  rw [List.filter_eq_self]
  intro e he
  simpa using h e he

theorem mapGet_eq_none {m : List (FlowKey × Ptr)} {k : FlowKey} :
    mapGet m k = none ↔ ∀ e ∈ m, e.1 ≠ k := by
  induction m with
  | nil => simp [mapGet]
  | cons e rest ih =>
    obtain ⟨k', v⟩ := e
    by_cases hk : k' = k
    · simp [mapGet, hk]
    · simp [mapGet, hk, ih]

theorem mapGet_mem {m : List (FlowKey × Ptr)} {k : FlowKey} {p : Ptr}
    (h : mapGet m k = some p) : (k, p) ∈ m := by
  induction m with
  | nil => simp [mapGet] at h
  | cons e rest ih =>
    obtain ⟨k', v⟩ := e
    by_cases hk : k' = k
    · simp only [mapGet, hk, if_true, Option.some.injEq] at h
      subst hk; subst h
      exact List.mem_cons_self _ _
    · simp only [mapGet, hk, if_false] at h
      exact List.mem_cons_of_mem _ (ih h)

theorem mapGet_of_mem {m : List (FlowKey × Ptr)} (hnd : (m.map Prod.fst).Nodup) {k : FlowKey}
    {p : Ptr} (h : (k, p) ∈ m) : mapGet m k = some p := by
  induction m with
  | nil => cases h
  | cons e rest ih =>
    obtain ⟨k', v⟩ := e
    simp only [List.map_cons, List.nodup_cons] at hnd
    rcases List.mem_cons.1 h with h | h
    · cases h
      simp [mapGet]
    · have hk : k' ≠ k := fun hk => hnd.1 (hk ▸ List.mem_map_of_mem Prod.fst h)
      simp only [mapGet, hk, if_false]
      exact ih hnd.2 h

theorem FlowTable.Inv.afterCreate {t : FlowTable} (h : t.Inv) (e : packetBuffer) (k : FlowKey) (w : Time)
    (hk : ∀ e' ∈ t.flows, e'.1 ≠ k) :
    (FlowTable.Event.create t none e k w).2.Inv ∧
    (FlowTable.Event.create t none e k w).1 = (NewFlow e t k w).1 ∧
    (FlowTable.Event.create t none e k w).2.flows = (k, (NewFlow e t k w).1) :: t.flows ∧
    (FlowTable.Event.create t none e k w).2.base = (NewFlow e t k w).2.base ∧
    (FlowTable.Event.create t none e k w).2.created = t.created + 1 ∧
    (FlowTable.Event.create t none e k w).2.idleTimeout = t.idleTimeout ∧
    (FlowTable.Event.create t none e k w).2.activeTimeout = t.activeTimeout ∧
    (FlowTable.Event.create t none e k w).2.now = t.now ∧
    (FlowTable.Event.create t none e k w).2.calls = t.calls ++ [Call.NewFlow t.created] := by
  obtain ⟨hfl, heof, hcalls, hcr, hidle, hact, hnow, hbq, hbx, hqn, hpl, hpn, haq, hax⟩ :=
    newflow_fields h e k w
  have hflows : (FlowTable.Event.create t none e k w).2.flows
      = (k, (NewFlow e t k w).1) :: t.flows := by
    simp [FlowTable.Event.create, FlowTable.log, mapSet, hfl, mapDelete_eq_self hk]
  have hbase : (FlowTable.Event.create t none e k w).2.base = (NewFlow e t k w).2.base := by
    simp [FlowTable.Event.create, FlowTable.log]
  have hpooled : (FlowTable.Event.create t none e k w).2.pooled = (NewFlow e t k w).2.pooled := by
    simp [FlowTable.Event.create, FlowTable.log, FlowTable.pooled]
  have hcreated : (FlowTable.Event.create t none e k w).2.created = t.created + 1 := by
    simp [FlowTable.Event.create, FlowTable.log, hcr]
  have hcalls' : (FlowTable.Event.create t none e k w).2.calls
      = t.calls ++ [Call.NewFlow t.created] := by
    simp [FlowTable.Event.create, FlowTable.log, hcalls, hbq]
  have hold : ∀ e' ∈ t.flows, (NewFlow e t k w).2.base e'.2 = t.base e'.2 := by
    intro e' he'
    exact hbx _ (fun hq => hqn (hq ▸ List.mem_map_of_mem Prod.snd he'))
  refine ⟨⟨?_, ?_, ?_, ?_, ?_, ?_, ?_, ?_, ?_, ?_, ?_⟩, ?_, hflows, hbase, hcreated, ?_, ?_, ?_,
    hcalls'⟩
  · simp [FlowTable.Event.create, FlowTable.log, heof, h.eof]
  · rw [hflows, List.map_cons, List.nodup_cons]
    refine ⟨?_, h.keys⟩
    intro hm
    obtain ⟨e', he', hk'⟩ := List.mem_map.1 hm
    exact hk e' he' hk'
  · rw [hflows, List.map_cons, List.nodup_cons]
    exact ⟨hqn, h.ptrs⟩
  · rw [hpooled]; exact hpn
  · intro e' he' hp
    rw [hpooled] at hp
    rw [hflows] at he'
    rcases List.mem_cons.1 he' with rfl | he'
    · exact (hpl _ hp).2 rfl
    · exact h.disj e' he' (hpl _ hp).1
  · intro p hp
    have key : (NewFlow e t k w).2.allocated p := by
      rw [hflows, hpooled] at hp
      rcases hp with hp | hp
      · rw [List.map_cons] at hp
        rcases List.mem_cons.1 hp with rfl | hp
        · exact haq
        · exact hax _ (h.alloc _ (Or.inl hp))
      · exact hax _ (h.alloc _ (Or.inr (hpl _ hp).1))
    cases p <;>
      simpa [FlowTable.Event.create, FlowTable.log, FlowTable.allocated] using key
  · intro e' he'
    rw [hflows] at he'
    rw [hbase, hcreated]
    rcases List.mem_cons.1 he' with rfl | he'
    · rw [hbq]; exact ⟨rfl, rfl, Nat.lt_succ_self _⟩
    · rw [hold e' he']
      obtain ⟨h1, h2, h3⟩ := h.live e' he'
      exact ⟨h1, h2, Nat.lt_succ_of_lt h3⟩
  · rw [hflows, hbase, List.map_cons, List.nodup_cons, hbq]
    have hmap : t.flows.map (fun e' => ((NewFlow e t k w).2.base e'.2).id)
        = t.flows.map (fun e' => (t.base e'.2).id) :=
      List.map_congr_left (fun e' he' => by rw [hold e' he'])
    rw [hmap]
    refine ⟨?_, h.ids⟩
    intro hm
    obtain ⟨e', he', hid⟩ := List.mem_map.1 hm
    have := (h.live e' he').2.2
    simp only at hid
    omega
  · intro i hi c hc
    rw [hcalls'] at hc
    rcases List.mem_append.1 hc with hc | hc
    · refine h.untouched i ?_ c hc
      rcases hi with ⟨e', he', hid⟩ | hi
      · rw [hflows] at he'
        rw [hbase] at hid
        rcases List.mem_cons.1 he' with rfl | he'
        · rw [hbq] at hid
          exact Or.inr (by simp only at hid; omega)
        · exact Or.inl ⟨e', he', by rw [← hold e' he']; exact hid⟩
      · rw [hcreated] at hi
        exact Or.inr (by omega)
    · simp only [List.mem_singleton] at hc
      subst hc
      rfl
  · intro i hi hne
    rw [hcalls']
    rw [hcreated] at hi
    have hi' : i ≠ t.created := by
      intro hic
      refine hne (k, (NewFlow e t k w).1) (by rw [hflows]; exact List.mem_cons_self _ _) ?_
      rw [hbase, hbq, hic]
    refine (h.finished i (by omega) ?_).append _ ?_
    · intro e' he' hid
      refine hne e' (by rw [hflows]; exact List.mem_cons_of_mem _ he') ?_
      rw [hbase, hold e' he']
      exact hid
    · intro c hc
      simp only [List.mem_singleton] at hc
      subst hc
      rfl
  · intro i
    rw [hcalls', hcreated, List.mem_append, h.news i]
    simp only [List.mem_singleton, Call.NewFlow.injEq]
    omega
  · simp [FlowTable.Event.create]
  · simp [FlowTable.Event.create, FlowTable.log, hidle]
  · simp [FlowTable.Event.create, FlowTable.log, hact]
  · simp [FlowTable.Event.create, FlowTable.log, hnow]

/-- What the delivery of an event does to a flow stored in the map, and that it keeps the
invariant. -/
theorem FlowTable.Inv.afterDeliver {t r : FlowTable} (h : t.Inv) (k : FlowKey) (elem : Ptr)
    (hmem : (k, elem) ∈ t.flows) (e : packetBuffer) (w : Time)
    (hr : Flow.Event t elem e w = some r) :
    r.Inv ∧ r.created = t.created ∧ r.idleTimeout = t.idleTimeout ∧
    r.activeTimeout = t.activeTimeout ∧ r.now = t.now ∧
    (∀ x, x ≠ elem → r.base x = t.base x) ∧
    (r.base elem).firstSeen = (t.base elem).firstSeen ∧
    (r.base elem).lastSeen = w ∧
    (r.base elem).nextEvent = min ((t.base elem).firstSeen + t.activeTimeout) (w + t.idleTimeout) ∧
    (r.base elem).id = (t.base elem).id ∧
    ((r.flows = t.flows ∧ r.calls = t.calls) ∨
     (r.flows = mapDelete t.flows k ∧ (∃ a, elem = .tcp a) ∧
      r.calls = t.calls ++ [Call.Export (t.base elem).id .End w, Call.Recycle (t.base elem).id])) := by
  have h1 : (BaseFlow.Event t elem w).Inv := by
    refine h.mono [] rfl rfl rfl rfl rfl rfl ?_ (by simp [BaseFlow.Event]) (by simp) (by simp)
    intro x
    by_cases hx : x = elem
    · subst hx; simp [BaseFlow.Event]
    · simp [BaseFlow.Event, Function.update_noteq hx]
  have hmem1 : (k, elem) ∈ (BaseFlow.Event t elem w).flows := hmem
  have hbx : ∀ x, x ≠ elem → (BaseFlow.Event t elem w).base x = t.base x := by
    intro x hx
    simp [BaseFlow.Event, Function.update_noteq hx]
  have hstay : ∀ {s : FlowTable}, s = BaseFlow.Event t elem w ∨
      (∃ a f, elem = .tcp a ∧ s = { BaseFlow.Event t elem w with
        tcp := Function.update (BaseFlow.Event t elem w).tcp a f }) →
      s.created = t.created ∧ s.idleTimeout = t.idleTimeout ∧
      s.activeTimeout = t.activeTimeout ∧ s.now = t.now ∧
      (∀ x, x ≠ elem → s.base x = t.base x) ∧
      (s.base elem).firstSeen = (t.base elem).firstSeen ∧
      (s.base elem).lastSeen = w ∧
      (s.base elem).nextEvent
        = min ((t.base elem).firstSeen + t.activeTimeout) (w + t.idleTimeout) ∧
      (s.base elem).id = (t.base elem).id ∧ (s.base elem).key = (t.base elem).key ∧
      s.flows = t.flows ∧ s.calls = t.calls ∧ s.Inv := by
    intro s hs
    rcases hs with rfl | ⟨a, f, _, rfl⟩
    · refine ⟨rfl, rfl, rfl, rfl, hbx, ?_, ?_, ?_, ?_, ?_, rfl, rfl, h1⟩ <;>
        simp [BaseFlow.Event]
    · refine ⟨rfl, rfl, rfl, rfl, hbx, ?_, ?_, ?_, ?_, ?_, rfl, rfl, ?_⟩
      iterate 5 simp [BaseFlow.Event]
      exact h1.mono [] rfl rfl rfl rfl rfl rfl (fun _ => ⟨rfl, rfl, rfl⟩) (by simp) (by simp)
        (by simp)
  have hexp : ∀ {s : FlowTable}, s = BaseFlow.Event t elem w ∨
      (∃ a f, elem = .tcp a ∧ s = { BaseFlow.Event t elem w with
        tcp := Function.update (BaseFlow.Event t elem w).tcp a f }) →
      (∃ a, elem = .tcp a) → r = BaseFlow.Export s elem .End w →
      r.Inv ∧ r.created = t.created ∧ r.idleTimeout = t.idleTimeout ∧
      r.activeTimeout = t.activeTimeout ∧ r.now = t.now ∧
      (∀ x, x ≠ elem → r.base x = t.base x) ∧
      (r.base elem).firstSeen = (t.base elem).firstSeen ∧
      (r.base elem).lastSeen = w ∧
      (r.base elem).nextEvent
        = min ((t.base elem).firstSeen + t.activeTimeout) (w + t.idleTimeout) ∧
      (r.base elem).id = (t.base elem).id ∧
      ((r.flows = t.flows ∧ r.calls = t.calls) ∨
       (r.flows = mapDelete t.flows k ∧ (∃ a, elem = .tcp a) ∧
        r.calls = t.calls ++
          [Call.Export (t.base elem).id .End w, Call.Recycle (t.base elem).id])) := by
    intro s hs htcp hrs
    obtain ⟨c1, c2, c3, c4, c5, c6, c7, c8, c9, c10, c11, c12, c13⟩ := hstay hs
    have hms : (k, elem) ∈ s.flows := c11 ▸ hmem
    obtain ⟨e1, e2, e3, e4, _, _, _, e8, e9, e10, _, _, _⟩ :=
      export_fields s elem .End w c13.eof
    have hkey : (s.base elem).key = k := (c13.live _ hms).1
    subst hrs
    refine ⟨c13.afterExport k elem hms .End w, e4.trans c1, e8.trans c2, e9.trans c3, e10.trans c4,
      ?_, ?_, ?_, ?_, ?_, Or.inr ⟨?_, htcp, ?_⟩⟩
    · intro x hx
      rw [e2, Function.update_noteq hx]
      exact c5 x hx
    · rw [e2]; simpa using c6
    · rw [e2]; simpa using c7
    · rw [e2]; simpa using c8
    · rw [e2]; simpa using c9
    · rw [e1, hkey, c11]
    · rw [e3, c12, c9]
  cases elem with
  | uni a =>
    simp only [Flow.Event, Option.some.injEq] at hr
    obtain ⟨c1, c2, c3, c4, c5, c6, c7, c8, c9, _, c11, c12, c13⟩ :=
      hstay (s := r) (Or.inl hr.symm)
    exact ⟨c13, c1, c2, c3, c4, c5, c6, c7, c8, c9, Or.inl ⟨c11, c12⟩⟩
  | tcp a =>
    simp only [Flow.Event, TCPFlow.Event] at hr
    split_ifs at hr with hact
    · simp only [Option.some.injEq] at hr
      obtain ⟨c1, c2, c3, c4, c5, c6, c7, c8, c9, _, c11, c12, c13⟩ :=
        hstay (s := r) (Or.inl hr.symm)
      exact ⟨c13, c1, c2, c3, c4, c5, c6, c7, c8, c9, Or.inl ⟨c11, c12⟩⟩
    · split at hr
      · exact absurd hr (by simp)
      · split_ifs at hr with h2 h3 h4
        · simp only [Option.some.injEq] at hr
          exact hexp (Or.inl rfl) ⟨a, rfl⟩ hr.symm
        · simp only [Option.some.injEq] at hr
          exact hexp (Or.inr ⟨a, _, rfl, rfl⟩) ⟨a, rfl⟩ hr.symm
        · simp only [Option.some.injEq] at hr
          obtain ⟨c1, c2, c3, c4, c5, c6, c7, c8, c9, _, c11, c12, c13⟩ :=
            hstay (s := r) (Or.inr ⟨a, _, rfl, hr.symm⟩)
          exact ⟨c13, c1, c2, c3, c4, c5, c6, c7, c8, c9, Or.inl ⟨c11, c12⟩⟩

theorem FlowTable.Inv.afterExpire {t : FlowTable} (h : t.Inv) (k : FlowKey) (p : Ptr)
    (hmem : (k, p) ∈ t.flows) (w : Time) :
    (BaseFlow.Expire t p w).Inv ∧ (BaseFlow.Expire t p w).created = t.created ∧
    (BaseFlow.Expire t p w).idleTimeout = t.idleTimeout ∧
    (BaseFlow.Expire t p w).activeTimeout = t.activeTimeout ∧
    (BaseFlow.Expire t p w).now = t.now ∧
    (∀ x, x ≠ p → (BaseFlow.Expire t p w).base x = t.base x) ∧
    ((((t.base p).lastSeen + t.idleTimeout ≤ w ∨ (t.base p).firstSeen + t.activeTimeout ≤ w) ∧
        (BaseFlow.Expire t p w).flows = mapDelete t.flows k ∧
        (BaseFlow.Expire t p w).Active p = false ∧
        ∃ reason, (BaseFlow.Expire t p w).calls = t.calls ++
          [Call.Export (t.base p).id reason w, Call.Recycle (t.base p).id]) ∨
     (¬ ((t.base p).lastSeen + t.idleTimeout ≤ w ∨ (t.base p).firstSeen + t.activeTimeout ≤ w) ∧
        BaseFlow.Expire t p w = t)) := by
  have hkey : (t.base p).key = k := (h.live _ hmem).1
  have hexp : ∀ reason,
      (BaseFlow.Export t p reason w).Inv ∧ (BaseFlow.Export t p reason w).created = t.created ∧
      (BaseFlow.Export t p reason w).idleTimeout = t.idleTimeout ∧
      (BaseFlow.Export t p reason w).activeTimeout = t.activeTimeout ∧
      (BaseFlow.Export t p reason w).now = t.now ∧
      (∀ x, x ≠ p → (BaseFlow.Export t p reason w).base x = t.base x) ∧
      (BaseFlow.Export t p reason w).flows = mapDelete t.flows k ∧
      (BaseFlow.Export t p reason w).Active p = false ∧
      (BaseFlow.Export t p reason w).calls = t.calls ++
          [Call.Export (t.base p).id reason w, Call.Recycle (t.base p).id] := by
    intro reason
    obtain ⟨e1, e2, e3, e4, _, _, _, e8, e9, e10, _, _, _⟩ := export_fields t p reason w h.eof
    refine ⟨h.afterExport k p hmem reason w, e4, e8, e9, e10, ?_, by rw [e1, hkey], ?_, e3⟩
    · intro x hx
      rw [e2, Function.update_noteq hx]
    · simp [FlowTable.Active, e2]
  unfold BaseFlow.Expire
  split_ifs with h1 h2
  · obtain ⟨a1, a2, a3, a4, a5, a6, a7, a8, a9⟩ := hexp .Idle
    exact ⟨a1, a2, a3, a4, a5, a6, Or.inl ⟨Or.inl h1, a7, a8, _, a9⟩⟩
  · obtain ⟨a1, a2, a3, a4, a5, a6, a7, a8, a9⟩ := hexp .Active
    exact ⟨a1, a2, a3, a4, a5, a6, Or.inl ⟨Or.inr h2, a7, a8, _, a9⟩⟩
  · exact ⟨h, rfl, rfl, rfl, rfl, fun _ _ => rfl, Or.inr ⟨by tauto, rfl⟩⟩

theorem FlowTable.Inv.afterLog {t : FlowTable} (h : t.Inv) (c : Call)
    (hc : c.byTable = true) (hn : ∀ i, c ≠ Call.NewFlow i) : (t.log c).Inv := by
  refine h.mono [c] rfl rfl rfl rfl rfl rfl (fun _ => ⟨rfl, rfl, rfl⟩) rfl ?_ ?_
  · intro c' hc' i
    simp only [List.mem_singleton] at hc'
    subst hc'
    cases c' <;> simp_all [Call.byTable, Call.ends]
  · intro c' hc' i
    simp only [List.mem_singleton] at hc'
    subst hc'
    exact hn i

theorem FlowTable.Inv.setNow {t : FlowTable} (h : t.Inv) (w : Time) :
    ({ t with now := w } : FlowTable).Inv :=
  h.mono [] rfl rfl rfl rfl rfl rfl (fun _ => ⟨rfl, rfl, rfl⟩) (by simp) (by simp) (by simp)

theorem event_unfold (t : FlowTable) (e : packetBuffer) :
    (mapGet t.flows e.key = none →
      FlowTable.Event t e =
        Flow.Event
          ((FlowTable.Event.create { t with now := e.time } none e e.key e.time).2.log
            (.Event ((FlowTable.Event.create { t with now := e.time } none e e.key e.time).2.base
              (FlowTable.Event.create { t with now := e.time } none e e.key e.time).1).id e))
          (FlowTable.Event.create { t with now := e.time } none e e.key e.time).1 e e.time) ∧
    (∀ p, mapGet t.flows e.key = some p → e.time ≤ (t.base p).nextEvent →
      FlowTable.Event t e =
        Flow.Event (({ t with now := e.time } : FlowTable).log (.Event (t.base p).id e))
          p e e.time) ∧
    (∀ p, mapGet t.flows e.key = some p → (t.base p).nextEvent < e.time →
      ((BaseFlow.Expire (({ t with now := e.time } : FlowTable).log
          (.Expire (t.base p).id e.time)) p e.time).Active p = true →
        FlowTable.Event t e =
          Flow.Event
            ((BaseFlow.Expire (({ t with now := e.time } : FlowTable).log
              (.Expire (t.base p).id e.time)) p e.time).log
              (.Event ((BaseFlow.Expire (({ t with now := e.time } : FlowTable).log
                (.Expire (t.base p).id e.time)) p e.time).base p).id e))
            p e e.time) ∧
      ((BaseFlow.Expire (({ t with now := e.time } : FlowTable).log
          (.Expire (t.base p).id e.time)) p e.time).Active p = false →
        FlowTable.Event t e =
          Flow.Event
            ((FlowTable.Event.create (BaseFlow.Expire (({ t with now := e.time } : FlowTable).log
              (.Expire (t.base p).id e.time)) p e.time) none e e.key e.time).2.log
              (.Event ((FlowTable.Event.create (BaseFlow.Expire
                (({ t with now := e.time } : FlowTable).log
                  (.Expire (t.base p).id e.time)) p e.time) none e e.key e.time).2.base
                (FlowTable.Event.create (BaseFlow.Expire
                  (({ t with now := e.time } : FlowTable).log
                    (.Expire (t.base p).id e.time)) p e.time) none e e.key e.time).1).id e))
            (FlowTable.Event.create (BaseFlow.Expire (({ t with now := e.time } : FlowTable).log
              (.Expire (t.base p).id e.time)) p e.time) none e e.key e.time).1 e e.time)) := by
  refine ⟨?_, ?_, ?_⟩
  · intro hget
    simp [FlowTable.Event, FlowTable.Event.lookup, hget]
  · intro p hget hle
    have hng : ¬ (e.time > ({ t with now := e.time } : FlowTable).NextEvent p) := by
      simpa [FlowTable.NextEvent] using hle
    simp [FlowTable.Event, FlowTable.Event.lookup, FlowTable.Event.create, hget, hng]
  · intro p hget hlt
    have hgt : e.time > ({ t with now := e.time } : FlowTable).NextEvent p := by
      simpa [FlowTable.NextEvent] using hlt
    constructor
    · intro hact
      simp [FlowTable.Event, FlowTable.Event.lookup, FlowTable.Event.create, hget, hgt, hact]
    · intro hact
      simp [FlowTable.Event, FlowTable.Event.lookup, hget, hgt, hact]

theorem newflow_uni (e : packetBuffer) (t : FlowTable) (k : FlowKey) (w : Time)
    (h : isTCP e.transport = false) : ∃ a, (NewFlow e t k w).1 = Ptr.uni a := by
  cases hds : t.DataStore.uni <;> simp [NewFlow, h, flowPool.getUni, hds]

/-- The delivery of an event at time `w` to the flow `p` stored at key `k`. -/
theorem tail_existing {s r : FlowTable} (h : s.Inv) (k : FlowKey) (p : Ptr)
    (hmem : (k, p) ∈ s.flows) (e : packetBuffer) (w : Time)
    (hr : Flow.Event (s.log (.Event (s.base p).id e)) p e w = some r) :
    r.Inv ∧ r.now = s.now ∧ r.idleTimeout = s.idleTimeout ∧
    r.activeTimeout = s.activeTimeout ∧ r.created = s.created ∧
    (∀ x : FlowKey × Ptr, x.1 ≠ k → (x ∈ r.flows ↔ x ∈ s.flows)) ∧
    (∀ x ∈ s.flows, x.1 ≠ k → r.base x.2 = s.base x.2) ∧
    (∀ q, (k, q) ∈ r.flows → q = p ∧ (r.base q).lastSeen = w ∧
      (r.base q).firstSeen = (s.base q).firstSeen ∧
      (r.base q).nextEvent = min ((s.base q).firstSeen + s.activeTimeout) (w + s.idleTimeout)) ∧
    ((∃ a, p = Ptr.uni a) → r.flows = s.flows) := by
  have hlog : (s.log (.Event (s.base p).id e)).Inv := h.afterLog _ rfl (fun _ => by simp)
  obtain ⟨d1, d2, d3, d4, d5, d6, d7, d8, d9, _, d11⟩ :=
    hlog.afterDeliver k p hmem e w hr
  have hflows : ∀ x : FlowKey × Ptr, x.1 ≠ k → (x ∈ r.flows ↔ x ∈ s.flows) := by
    intro x hx
    rcases d11 with ⟨f, _⟩ | ⟨f, _, _⟩
    · rw [f]; rfl
    · rw [f, mem_mapDelete]
      exact ⟨fun hm => hm.1, fun hm => ⟨hm, hx⟩⟩
  refine ⟨d1, d5, d3, d4, d2, hflows, ?_, ?_, ?_⟩
  · intro x hx hxk
    refine d6 x.2 (fun hp => hxk ?_)
    have := mem_flows_unique h hx hmem hp
    rw [this]
  · intro q hq
    have hqs : (k, q) ∈ s.flows := by
      rcases d11 with ⟨f, _⟩ | ⟨f, _, _⟩
      · rw [f] at hq; exact hq
      · rw [f, mem_mapDelete] at hq
        exact absurd rfl hq.2
    have hqp : q = p := by
      have := mem_flows_unique_key h hqs hmem rfl
      exact congrArg Prod.snd this
    subst hqp
    exact ⟨rfl, d8, d7, d9⟩
  · rintro ⟨a, rfl⟩
    rcases d11 with ⟨f, _⟩ | ⟨_, ⟨b, hb⟩, _⟩
    · exact f
    · cases hb

/-- The creation of a flow for key `k`, absent from the map, and the delivery of the event at
time `w` to it. -/
theorem tail_new {s r : FlowTable} (h : s.Inv) (e : packetBuffer) (k : FlowKey) (w : Time)
    (hk : ∀ x ∈ s.flows, x.1 ≠ k)
    (hr : Flow.Event
      ((FlowTable.Event.create s none e k w).2.log
        (.Event ((FlowTable.Event.create s none e k w).2.base
          (FlowTable.Event.create s none e k w).1).id e))
      (FlowTable.Event.create s none e k w).1 e w = some r) :
    r.Inv ∧ r.now = s.now ∧ r.idleTimeout = s.idleTimeout ∧
    r.activeTimeout = s.activeTimeout ∧ r.created = s.created + 1 ∧
    (∀ x : FlowKey × Ptr, x.1 ≠ k → (x ∈ r.flows ↔ x ∈ s.flows)) ∧
    (∀ x ∈ s.flows, r.base x.2 = s.base x.2) ∧
    (∀ q, (k, q) ∈ r.flows → (r.base q).lastSeen = w ∧ (r.base q).firstSeen = w ∧
      (r.base q).nextEvent = min (w + s.activeTimeout) (w + s.idleTimeout) ∧
      q = (NewFlow e s k w).1) ∧
    (isTCP e.transport = false →
      ∃ a, r.flows = (k, Ptr.uni a) :: s.flows) := by
  obtain ⟨c1, c2, c3, c4, c5, c6, c7, c8, _⟩ := h.afterCreate e k w hk
  obtain ⟨_, _, _, _, _, _, _, n8, n9, n10, _⟩ := newflow_fields h e k w
  rw [c2] at hr
  have hmem : (k, (NewFlow e s k w).1) ∈ (FlowTable.Event.create s none e k w).2.flows := by
    rw [c3]; exact List.mem_cons_self _ _
  obtain ⟨t1, t2, t3, t4, t5, t6, t7, t8, t9⟩ := tail_existing c1 k _ hmem e w hr
  have hold : ∀ x ∈ s.flows, x.2 ≠ (NewFlow e s k w).1 :=
    fun x hx hq => n10 (hq ▸ List.mem_map_of_mem Prod.snd hx)
  refine ⟨t1, t2.trans c8, t3.trans c6, t4.trans c7, t5.trans c5, ?_, ?_, ?_, ?_⟩
  · intro x hx
    rw [t6 x hx, c3, List.mem_cons]
    constructor
    · rintro (rfl | hm)
      · exact absurd rfl hx
      · exact hm
    · exact Or.inr
  · intro x hx
    rw [t7 x (by rw [c3]; exact List.mem_cons_of_mem _ hx) (hk x hx), c4]
    exact n9 _ (hold x hx)
  · intro q hq
    obtain ⟨rfl, u1, u2, u3⟩ := t8 q hq
    rw [c4, n8] at u2 u3
    rw [c6, c7] at u3
    exact ⟨u1, u2, u3, rfl⟩
  · intro htcp
    obtain ⟨a, ha⟩ := newflow_uni e s k w htcp
    exact ⟨a, by rw [t9 ⟨a, ha⟩, c3, ha]⟩

/-- What `FlowTable.Event` does to a table that satisfies the invariant. -/
theorem event_effect {t r : FlowTable} (h : t.Inv) (ht : t.Timed) (e : packetBuffer)
    (hr : FlowTable.Event t e = some r) :
    r.Inv ∧ r.Timed ∧ r.now = e.time ∧ r.idleTimeout = t.idleTimeout ∧
    r.activeTimeout = t.activeTimeout ∧
    (∀ x : FlowKey × Ptr, x.1 ≠ e.key → (x ∈ r.flows ↔ x ∈ t.flows)) ∧
    (∀ x ∈ t.flows, x.1 ≠ e.key → r.base x.2 = t.base x.2) ∧
    (∀ q, (e.key, q) ∈ r.flows → (r.base q).lastSeen = e.time ∧
      (((e.key, q) ∈ t.flows ∧ e.time ≤ (t.base q).nextEvent ∧
          (r.base q).firstSeen = (t.base q).firstSeen) ∨
       ((∀ y, (e.key, y) ∈ t.flows → (t.base y).nextEvent < e.time) ∧
          (r.base q).firstSeen = e.time))) ∧
    (t.AllUni → isTCP e.transport = false → r.AllUni ∧ ∃ q, (e.key, q) ∈ r.flows) ∧
    (∀ q a, (e.key, q) ∈ r.flows → q = Ptr.tcp a →
      (e.key, q) ∈ t.flows ∨ isTCP e.transport = true) := by
  have h0 : ({ t with now := e.time } : FlowTable).Inv := h.setNow e.time
  have hkind : ∀ (s : FlowTable) (q : Ptr) (a : Nat), q = (NewFlow e s e.key e.time).1 →
      q = Ptr.tcp a → isTCP e.transport = true := by
    intro s q a hq ha
    cases htcp : isTCP e.transport with
    | true => rfl
    | false =>
      obtain ⟨b, hb⟩ := newflow_uni e s e.key e.time htcp
      rw [hq, hb] at ha
      cases ha
  obtain ⟨u1, u2, u3⟩ := event_unfold t e
  have timed_of : (∀ x ∈ t.flows, x.1 ≠ e.key → r.base x.2 = t.base x.2) →
      (∀ x : FlowKey × Ptr, x.1 ≠ e.key → (x ∈ r.flows ↔ x ∈ t.flows)) →
      r.idleTimeout = t.idleTimeout → r.activeTimeout = t.activeTimeout →
      (∀ q, (e.key, q) ∈ r.flows → (r.base q).nextEvent
        = min ((r.base q).firstSeen + r.activeTimeout) ((r.base q).lastSeen + r.idleTimeout)) →
      r.Timed := by
    intro hb hf hi ha hq x hx
    by_cases hxk : x.1 = e.key
    · have : x = (e.key, x.2) := by rw [← hxk]
      rw [this] at hx
      exact hq x.2 hx
    · have hxt := (hf x hxk).1 hx
      rw [hb x hxt hxk, hi, ha]
      exact ht x hxt
  cases hget : mapGet t.flows e.key with
  | none =>
    have hk : ∀ x ∈ ({ t with now := e.time } : FlowTable).flows, x.1 ≠ e.key :=
      mapGet_eq_none.1 hget
    rw [u1 hget] at hr
    obtain ⟨t1, t2, t3, t4, _, t6, t7, t8, t9⟩ := tail_new h0 e e.key e.time hk hr
    have hbase : ∀ x ∈ t.flows, x.1 ≠ e.key → r.base x.2 = t.base x.2 :=
      fun x hx _ => t7 x hx
    refine ⟨t1, ?_, t2, t3, t4, t6, hbase, ?_, ?_, ?_⟩
    · refine timed_of hbase t6 t3 t4 ?_
      intro q hq
      obtain ⟨a1, a2, a3, _⟩ := t8 q hq
      rw [a1, a2, a3, t3, t4]
    · intro q hq
      obtain ⟨a1, a2, _⟩ := t8 q hq
      exact ⟨a1, Or.inr ⟨fun y hy => absurd rfl (hk _ hy), a2⟩⟩
    · intro hu htcp
      obtain ⟨a, ha⟩ := t9 htcp
      refine ⟨?_, Ptr.uni a, by rw [ha]; exact List.mem_cons_self _ _⟩
      intro x hx
      rw [ha] at hx
      rcases List.mem_cons.1 hx with rfl | hx
      · exact ⟨a, rfl⟩
      · exact hu x hx
    · intro q a hq ha
      exact Or.inr (hkind _ q a (t8 q hq).2.2.2 ha)
  | some p =>
    have hmem : (e.key, p) ∈ t.flows := mapGet_mem hget
    by_cases hle : e.time ≤ (t.base p).nextEvent
    · rw [u2 p hget hle] at hr
      obtain ⟨t1, t2, t3, t4, _, t6, t7, t8, t9⟩ :=
        tail_existing h0 e.key p hmem e e.time hr
      refine ⟨t1, ?_, t2, t3, t4, t6, t7, ?_, ?_, ?_⟩
      · refine timed_of t7 t6 t3 t4 ?_
        intro q hq
        obtain ⟨_, a1, a2, a3⟩ := t8 q hq
        rw [a1, a2, a3, t3, t4]
      · intro q hq
        obtain ⟨rfl, a1, a2, _⟩ := t8 q hq
        exact ⟨a1, Or.inl ⟨hmem, hle, a2⟩⟩
      · intro hu _
        obtain ⟨a, ha⟩ := hu _ hmem
        have hf : r.flows = t.flows := t9 ⟨a, ha⟩
        exact ⟨fun x hx => hu x (hf ▸ hx), p, hf ▸ hmem⟩
      · intro q a hq _
        obtain ⟨rfl, _⟩ := t8 q hq
        exact Or.inl hmem
    · have hlt : (t.base p).nextEvent < e.time := Nat.lt_of_not_le hle
      have h1 : (({ t with now := e.time } : FlowTable).log
          (.Expire (t.base p).id e.time)).Inv := h0.afterLog _ rfl (fun _ => by simp)
      obtain ⟨x1, _, x3, x4, x5, x6, x7⟩ := h1.afterExpire e.key p hmem e.time
      have hdead : (t.base p).lastSeen + t.idleTimeout ≤ e.time ∨
          (t.base p).firstSeen + t.activeTimeout ≤ e.time := by
        have := ht _ hmem
        simp only at this
        rw [this] at hlt
        rcases Nat.lt_or_ge ((t.base p).lastSeen + t.idleTimeout) ((t.base p).firstSeen + t.activeTimeout)
          with hc | hc
        · left
          rw [Nat.min_eq_right (Nat.le_of_lt hc)] at hlt
          exact Nat.le_of_lt hlt
        · right
          rw [Nat.min_eq_left hc] at hlt
          exact Nat.le_of_lt hlt
      rcases x7 with ⟨_, y1, y2, _⟩ | ⟨hno, _⟩
      · rw [(u3 p hget hlt).2 y2] at hr
        have hk : ∀ x ∈ (BaseFlow.Expire (({ t with now := e.time } : FlowTable).log
            (.Expire (t.base p).id e.time)) p e.time).flows, x.1 ≠ e.key := by
          intro x hx
          rw [y1] at hx
          exact (mem_mapDelete.1 hx).2
        obtain ⟨t1, t2, t3, t4, _, t6, t7, t8, t9⟩ := tail_new x1 e e.key e.time hk hr
        have hflows : ∀ x : FlowKey × Ptr, x.1 ≠ e.key → (x ∈ r.flows ↔ x ∈ t.flows) := by
          intro x hx
          rw [t6 x hx, y1, mem_mapDelete]
          exact ⟨fun hm => hm.1, fun hm => ⟨hm, hx⟩⟩
        have hbase : ∀ x ∈ t.flows, x.1 ≠ e.key → r.base x.2 = t.base x.2 := by
          intro x hx hxk
          have hx' : x ∈ (BaseFlow.Expire (({ t with now := e.time } : FlowTable).log
              (.Expire (t.base p).id e.time)) p e.time).flows := by
            rw [y1, mem_mapDelete]; exact ⟨hx, hxk⟩
          rw [t7 x hx']
          refine x6 x.2 (fun hp => hxk ?_)
          have := mem_flows_unique h hx hmem hp
          rw [this]
        refine ⟨t1, ?_, t2.trans x5, t3.trans x3, t4.trans x4, hflows, hbase, ?_, ?_, ?_⟩
        rotate_left 3
        · intro q a hq ha
          exact Or.inr (hkind _ q a (t8 q hq).2.2.2 ha)
        · refine timed_of hbase hflows (t3.trans x3) (t4.trans x4) ?_
          intro q hq
          obtain ⟨a1, a2, a3, _⟩ := t8 q hq
          rw [a1, a2, a3, t3, t4]
        · intro q hq
          obtain ⟨a1, a2, _⟩ := t8 q hq
          refine ⟨a1, Or.inr ⟨?_, a2⟩⟩
          intro y hy
          have hyp : y = p := congrArg Prod.snd (mem_flows_unique_key h hy hmem rfl)
          rw [hyp]
          exact hlt
        · intro hu htcp
          obtain ⟨a, ha⟩ := t9 htcp
          refine ⟨?_, Ptr.uni a, by rw [ha]; exact List.mem_cons_self _ _⟩
          intro x hx
          rw [ha] at hx
          rcases List.mem_cons.1 hx with rfl | hx
          · exact ⟨a, rfl⟩
          · rw [y1] at hx
            exact hu x (mem_mapDelete.1 hx).1
      · exact absurd hdead hno

theorem range_expire (w : Time) (L : List (FlowKey × Ptr)) {s : FlowTable} (h : s.Inv)
    (ht : s.Timed) :
    (FlowTable.range (FlowTable.Expire.visit w) L s).Inv ∧
    (FlowTable.range (FlowTable.Expire.visit w) L s).Timed ∧
    (FlowTable.range (FlowTable.Expire.visit w) L s).now = s.now ∧
    (FlowTable.range (FlowTable.Expire.visit w) L s).idleTimeout = s.idleTimeout ∧
    (FlowTable.range (FlowTable.Expire.visit w) L s).activeTimeout = s.activeTimeout ∧
    (∀ x, x ∈ (FlowTable.range (FlowTable.Expire.visit w) L s).flows ↔
      x ∈ s.flows ∧ ¬ (x ∈ L ∧ (s.base x.2).nextEvent < w)) ∧
    (∀ x ∈ (FlowTable.range (FlowTable.Expire.visit w) L s).flows,
      (FlowTable.range (FlowTable.Expire.visit w) L s).base x.2 = s.base x.2) := by
  induction L generalizing s with
  | nil =>
    refine ⟨h, ht, rfl, rfl, rfl, ?_, fun _ _ => rfl⟩
    intro x
    simp [FlowTable.range]
  | cons e rest ih =>
    by_cases hmem : e ∈ s.flows
    · by_cases hgt : w > (s.base e.2).nextEvent
      · have hlog : (s.log (.Expire (s.base e.2).id w)).Inv :=
          h.afterLog _ rfl (fun _ => by simp)
        obtain ⟨x1, _, x3, x4, x5, x6, x7⟩ := hlog.afterExpire e.1 e.2 hmem w
        have hdead : (s.base e.2).lastSeen + s.idleTimeout ≤ w ∨
            (s.base e.2).firstSeen + s.activeTimeout ≤ w := by
          have := ht e hmem
          rw [this] at hgt
          rcases Nat.lt_or_ge ((s.base e.2).lastSeen + s.idleTimeout)
            ((s.base e.2).firstSeen + s.activeTimeout) with hc | hc
          · left
            rw [Nat.min_eq_right (Nat.le_of_lt hc)] at hgt
            exact Nat.le_of_lt hgt
          · right
            rw [Nat.min_eq_left hc] at hgt
            exact Nat.le_of_lt hgt
        rcases x7 with ⟨_, y1, _, _⟩ | ⟨hno, _⟩
        · have hstep : FlowTable.range (FlowTable.Expire.visit w) (e :: rest) s
              = FlowTable.range (FlowTable.Expire.visit w) rest
                  (BaseFlow.Expire (s.log (.Expire (s.base e.2).id w)) e.2 w) := by
            simp [FlowTable.range, hmem, FlowTable.Expire.visit, FlowTable.NextEvent, hgt]
          have hfl : ∀ x, x ∈ (BaseFlow.Expire (s.log (.Expire (s.base e.2).id w)) e.2 w).flows ↔
              x ∈ s.flows ∧ x ≠ e := by
            intro x
            rw [y1, mem_mapDelete]
            constructor
            · rintro ⟨hx, hk⟩
              exact ⟨hx, fun hxe => hk (by rw [hxe])⟩
            · rintro ⟨hx, hne⟩
              exact ⟨hx, fun hk => hne (mem_flows_unique_key h hx hmem hk)⟩
          have hbs : ∀ x ∈ (BaseFlow.Expire (s.log (.Expire (s.base e.2).id w)) e.2 w).flows,
              (BaseFlow.Expire (s.log (.Expire (s.base e.2).id w)) e.2 w).base x.2
                = s.base x.2 := by
            intro x hx
            obtain ⟨hx1, hx2⟩ := (hfl x).1 hx
            exact x6 x.2 (fun hp => hx2 (mem_flows_unique h hx1 hmem hp))
          have ht1 : (BaseFlow.Expire (s.log (.Expire (s.base e.2).id w)) e.2 w).Timed := by
            intro x hx
            rw [hbs x hx, x3, x4]
            exact ht x ((hfl x).1 hx).1
          obtain ⟨i1, i2, i3, i4, i5, i6, i7⟩ := ih x1 ht1
          rw [hstep]
          refine ⟨i1, i2, i3.trans x5, i4.trans x3, i5.trans x4, ?_, ?_⟩
          · intro x
            rw [i6 x, hfl x]
            constructor
            · rintro ⟨⟨hx, hne⟩, hnot⟩
              refine ⟨hx, fun hc => ?_⟩
              rcases List.mem_cons.1 hc.1 with hxe | hxr
              · exact hne hxe
              · exact hnot ⟨hxr, by rw [hbs x ((hfl x).2 ⟨hx, hne⟩)]; exact hc.2⟩
            · rintro ⟨hx, hnot⟩
              have hne : x ≠ e := by
                intro hxe
                exact hnot ⟨hxe ▸ List.mem_cons_self _ _, hxe ▸ hgt⟩
              refine ⟨⟨hx, hne⟩, fun hc => hnot ⟨List.mem_cons_of_mem _ hc.1, ?_⟩⟩
              rw [← hbs x ((hfl x).2 ⟨hx, hne⟩)]
              exact hc.2
          · intro x hx
            rw [i7 x hx]
            exact hbs x ((i6 x).1 hx).1
        · exact absurd hdead hno
      · have hstep : FlowTable.range (FlowTable.Expire.visit w) (e :: rest) s
            = FlowTable.range (FlowTable.Expire.visit w) rest s := by
          simp [FlowTable.range, hmem, FlowTable.Expire.visit, FlowTable.NextEvent, hgt]
        obtain ⟨i1, i2, i3, i4, i5, i6, i7⟩ := ih h ht
        rw [hstep]
        refine ⟨i1, i2, i3, i4, i5, ?_, i7⟩
        intro x
        rw [i6 x]
        constructor
        · rintro ⟨hx, hnot⟩
          refine ⟨hx, fun hc => ?_⟩
          rcases List.mem_cons.1 hc.1 with hxe | hxr
          · exact hgt (hxe ▸ hc.2)
          · exact hnot ⟨hxr, hc.2⟩
        · rintro ⟨hx, hnot⟩
          exact ⟨hx, fun hc => hnot ⟨List.mem_cons_of_mem _ hc.1, hc.2⟩⟩
    · have hstep : FlowTable.range (FlowTable.Expire.visit w) (e :: rest) s
          = FlowTable.range (FlowTable.Expire.visit w) rest s := by
        simp [FlowTable.range, hmem]
      obtain ⟨i1, i2, i3, i4, i5, i6, i7⟩ := ih h ht
      rw [hstep]
      refine ⟨i1, i2, i3, i4, i5, ?_, i7⟩
      intro x
      rw [i6 x]
      constructor
      · rintro ⟨hx, hnot⟩
        refine ⟨hx, fun hc => ?_⟩
        rcases List.mem_cons.1 hc.1 with hxe | hxr
        · exact hmem (hxe ▸ hx)
        · exact hnot ⟨hxr, hc.2⟩
      · rintro ⟨hx, hnot⟩
        exact ⟨hx, fun hc => hnot ⟨List.mem_cons_of_mem _ hc.1, hc.2⟩⟩

/-- What `FlowTable.Expire` does to a table that satisfies the invariant: it removes exactly
the flows whose next event has passed and leaves the others as they are. -/
theorem expire_effect {t : FlowTable} (h : t.Inv) (ht : t.Timed) :
    t.Expire.Inv ∧ t.Expire.Timed ∧ t.Expire.now = t.now ∧
    t.Expire.idleTimeout = t.idleTimeout ∧ t.Expire.activeTimeout = t.activeTimeout ∧
    (∀ x, x ∈ t.Expire.flows ↔ x ∈ t.flows ∧ t.now ≤ (t.base x.2).nextEvent) ∧
    (∀ x ∈ t.Expire.flows, t.Expire.base x.2 = t.base x.2) := by
  obtain ⟨i1, i2, i3, i4, i5, i6, i7⟩ := range_expire t.now t.flows h ht
  refine ⟨i1, i2, i3, i4, i5, ?_, i7⟩
  intro x
  rw [show t.Expire.flows = (FlowTable.range (FlowTable.Expire.visit t.now) t.flows t).flows
    from rfl, i6 x]
  constructor
  · rintro ⟨hx, hnot⟩
    exact ⟨hx, Nat.le_of_not_lt (fun hlt => hnot ⟨hx, hlt⟩)⟩
  · rintro ⟨hx, hle⟩
    exact ⟨hx, fun hc => absurd hc.2 (Nat.not_lt.2 hle)⟩

theorem timed_init (a i : Time) : (NewFlowTable a i).Timed := fun _ h => by cases h

theorem run_inv (ops : List Op) {t r : FlowTable} (h : t.Inv) (ht : t.Timed)
    (hr : FlowTable.run ops t = some r) :
    r.Inv ∧ r.Timed ∧ r.idleTimeout = t.idleTimeout ∧ r.activeTimeout = t.activeTimeout := by
  induction ops generalizing t with
  | nil =>
    simp only [FlowTable.run, Option.some.injEq] at hr
    subst hr
    exact ⟨h, ht, rfl, rfl⟩
  | cons op rest ih =>
    cases op with
    | Event e =>
      simp only [FlowTable.run] at hr
      cases hev : t.Event e with
      | none => rw [hev] at hr; exact absurd hr (by simp)
      | some t' =>
        rw [hev] at hr
        obtain ⟨e1, e2, _, e4, e5, _⟩ := event_effect h ht e hev
        obtain ⟨r1, r2, r3, r4⟩ := ih e1 e2 hr
        exact ⟨r1, r2, r3.trans e4, r4.trans e5⟩
    | Expire =>
      simp only [FlowTable.run] at hr
      obtain ⟨e1, e2, _, e4, e5, _⟩ := expire_effect h ht
      obtain ⟨r1, r2, r3, r4⟩ := ih e1 e2 hr
      exact ⟨r1, r2, r3.trans e4, r4.trans e5⟩

theorem eofCalls_other (b : BaseFlow) (i a now : Time) (id : Nat) (hid : id ≠ b.id) :
    ∀ c ∈ eofCalls b i a now, c.ends id = false ∧ c.isExport id = false := by
  intro c hc
  have hne : ¬ b.id = id := fun h => hid h.symm
  unfold eofCalls at hc
  rcases List.mem_append.1 hc with hc | hc
  · split_ifs at hc <;>
      simp only [List.mem_cons, List.mem_singleton, List.not_mem_nil, or_false] at hc
    all_goals (rcases hc with rfl | rfl <;> simp [Call.ends, Call.isExport, hne])
  · split_ifs at hc
    · simp only [List.mem_cons, List.mem_singleton, List.not_mem_nil, or_false] at hc
      rcases hc with rfl | rfl <;> simp [Call.ends, Call.isExport, hne]
    · cases hc

theorem eofCalls_plain (b : BaseFlow) (i a now : Time) :
    ∀ c ∈ eofCalls b i a now, ∀ id, c ≠ Call.Recycle id ∧ c ≠ Call.NewFlow id := by
  intro c hc id
  unfold eofCalls at hc
  rcases List.mem_append.1 hc with hc | hc
  · split_ifs at hc <;>
      simp only [List.mem_cons, List.mem_singleton, List.not_mem_nil, or_false] at hc
    all_goals (rcases hc with rfl | rfl <;> simp)
  · split_ifs at hc
    · simp only [List.mem_cons, List.mem_singleton, List.not_mem_nil, or_false] at hc
      rcases hc with rfl | rfl <;> simp
    · cases hc

theorem eofCalls_live (b : BaseFlow) (i a now : Time) (hact : b.active = true) :
    (eofCalls b i a now).countP (Call.isExport b.id) = 1 := by
  by_cases h1 : now > b.nextEvent <;> by_cases h2 : b.lastSeen + i ≤ now <;>
    by_cases h3 : b.firstSeen + a ≤ now <;>
    simp [eofCalls, List.countP_cons, Call.isExport, h1, h2, h3, hact]

theorem eof_calls_eq {t : FlowTable} (h : t.Inv) (now : Time) :
    (t.EOF now).calls = t.calls ++
      t.flows.flatMap (fun e => eofCalls (t.base e.2) t.idleTimeout t.activeTimeout now) ∧
    (t.EOF now).created = t.created := by
  obtain ⟨bs, hbs, _, _⟩ := range_eof now t.flows t.flows { t with eof := true } rfl rfl
    (fun _ hx => hx) h.ptrs
  have hc := congrArg FlowTable.calls hbs
  have hcr := congrArg FlowTable.created hbs
  exact ⟨hc, hcr⟩

theorem Finished.countP_isExport {calls : List Call} {id : Nat} (h : Finished calls id) :
    calls.countP (Call.isExport id) = 1 := by
  obtain ⟨l1, l2, r, t, hc, h1, h2⟩ := h
  have z1 : l1.countP (Call.isExport id) = 0 := by
    rw [List.countP_eq_zero]
    intro c hc' hex
    have := h1 c hc'
    cases c <;> simp_all [Call.ends, Call.isExport]
  have z2 : l2.countP (Call.isExport id) = 0 := by
    rw [List.countP_eq_zero]
    intro c hc' hex
    have := h2 c hc'
    cases c <;> simp_all [Call.ends, Call.isExport]
  rw [hc, List.countP_append, List.countP_cons, List.countP_cons, z1, z2]
  simp [Call.isExport]

/-- C7 counterexample: one UDP packet and then EOF. The flow instance 0 is exported once, with
reason EOF, and no Recycle follows: during EOF `FlowTable.Remove` does nothing. -/
theorem eof_export_without_recycle :
    (FlowTable.run [.Event ⟨[1], 0, none, some ⟨.UDP, [0, 1], [0, 2], false, false, false⟩, true⟩]
        (NewFlowTable 300 10)).map (fun t => (t.EOF 5).calls)
      = some [.NewFlow 0,
          .Event 0 ⟨[1], 0, none, some ⟨.UDP, [0, 1], [0, 2], false, false, false⟩, true⟩,
          .EOF 0 5, .Export 0 .EOF 5] := by
  decide

/-- C7 (amended): after any sequence of Event and Expire calls on a new flow table followed by
one EOF call, every flow instance that the flow creator built has been exported exactly once.
If the export happened before the EOF call, it is followed at once by the one Recycle of that
instance; an instance exported during EOF is not recycled. -/
theorem export_once_and_recycle_before_eof (a i : Time) (ops : List Op) (now : Time)
    (t : FlowTable) (hrun : FlowTable.run ops (NewFlowTable a i) = some t) (id : Nat)
    (hid : Call.NewFlow id ∈ (t.EOF now).calls) :
    (t.EOF now).calls.countP (Call.isExport id) = 1 ∧
    ((∃ c ∈ t.calls, c.isExport id = true) → Finished (t.EOF now).calls id) ∧
    ((∀ c ∈ t.calls, c.isExport id = false) → Call.Recycle id ∉ (t.EOF now).calls) := by
  obtain ⟨h, _, _, _⟩ := run_inv ops (FlowTable.Inv.init a i) (timed_init a i) hrun
  obtain ⟨hcalls, _⟩ := eof_calls_eq h now
  have hlt : id < t.created := by
    rw [hcalls, List.mem_append] at hid
    rcases hid with hid | hid
    · exact (h.news id).1 hid
    · obtain ⟨e, _, he⟩ := List.mem_flatMap.1 hid
      exact absurd rfl ((eofCalls_plain _ _ _ _ _ he id).2)
  by_cases hlive : ∃ e ∈ t.flows, (t.base e.2).id = id
  · obtain ⟨e0, he0, hid0⟩ := hlive
    have hunt := h.untouched id (Or.inl ⟨e0, he0, hid0⟩)
    have hnoexp : ∀ c ∈ t.calls, c.isExport id = false := by
      intro c hc
      have := hunt c hc
      cases c <;> simp_all [Call.ends, Call.isExport]
    obtain ⟨l1, l2, hsplit⟩ := List.append_of_mem he0
    have hother : ∀ e ∈ l1 ++ l2, (t.base e.2).id ≠ id := by
      intro e he hide
      have hids := h.ids
      rw [hsplit, List.map_append, List.map_cons] at hids
      have hnd := (List.nodup_middle.1 hids)
      rw [List.nodup_cons, ← List.map_append] at hnd
      exact hnd.1 (List.mem_map.2 ⟨e, he, hide.trans hid0.symm⟩)
    have hzero : ∀ l : List (FlowKey × Ptr), (∀ e ∈ l, (t.base e.2).id ≠ id) →
        (l.flatMap (fun e => eofCalls (t.base e.2) t.idleTimeout t.activeTimeout now)).countP
          (Call.isExport id) = 0 := by
      intro l hl
      rw [List.countP_eq_zero]
      intro c hc
      obtain ⟨e, he, hce⟩ := List.mem_flatMap.1 hc
      rw [(eofCalls_other _ _ _ _ id (Ne.symm (hl e he)) c hce).2]
      simp
    refine ⟨?_, ?_, ?_⟩
    · rw [hcalls, List.countP_append, hsplit, List.flatMap_append, List.flatMap_cons,
        List.countP_append, List.countP_append,
        hzero l1 (fun e he => hother e (List.mem_append_left _ he)),
        hzero l2 (fun e he => hother e (List.mem_append_right _ he)),
        ← hid0, eofCalls_live _ _ _ _ (h.live e0 he0).2.1]
      have : t.calls.countP (Call.isExport (t.base e0.2).id) = 0 := by
        rw [List.countP_eq_zero]
        intro c hc
        rw [hid0, hnoexp c hc]
        simp
      rw [this]
    · rintro ⟨c, hc, hex⟩
      rw [hnoexp c hc] at hex
      exact absurd hex (by simp)
    · intro _ hrec
      rw [hcalls, List.mem_append] at hrec
      rcases hrec with hrec | hrec
      · have := hunt _ hrec
        simp [Call.ends] at this
      · obtain ⟨e, _, he⟩ := List.mem_flatMap.1 hrec
        exact absurd rfl ((eofCalls_plain _ _ _ _ _ he id).1)
  · have hne : ∀ e ∈ t.flows, (t.base e.2).id ≠ id :=
      fun e he hide => hlive ⟨e, he, hide⟩
    have hfin : Finished (t.EOF now).calls id := by
      rw [hcalls]
      refine (h.finished id hlt hne).append _ ?_
      intro c hc
      obtain ⟨e, he, hce⟩ := List.mem_flatMap.1 hc
      exact (eofCalls_other _ _ _ _ id (Ne.symm (hne e he)) c hce).1
    refine ⟨hfin.countP_isExport, fun _ => hfin, ?_⟩
    intro hno
    obtain ⟨l1, l2, r, w, hc, _, _⟩ := h.finished id hlt hne
    have := hno (Call.Export id r w) (by rw [hc]; simp)
    simp [Call.isExport] at this

theorem idle_run : FlowTable.run idleScenario (NewFlowTable 300 10) = some idleResult := by
  rfl

/-- Witness for C7 (amended): the idle-timeout scenario followed by EOF at time 20, for the
instance 0, which the expiry scan exported and recycled. -/
theorem export_once_and_recycle_before_eof_witness :
    (idleResult.EOF 20).calls.countP (Call.isExport 0) = 1 ∧
    ((∃ c ∈ idleResult.calls, c.isExport 0 = true) → Finished (idleResult.EOF 20).calls 0) ∧
    ((∀ c ∈ idleResult.calls, c.isExport 0 = false) →
      Call.Recycle 0 ∉ (idleResult.EOF 20).calls) :=
  export_once_and_recycle_before_eof 300 10 idleScenario 20 idleResult idle_run 0 (by decide)

theorem track_init (a i : Time) : Track a i (NewFlowTable a i) (fun _ => none) where
  inv := FlowTable.Inv.init a i
  timed := timed_init a i
  idle := rfl
  active := rfl
  last := fun _ _ h => by cases h

theorem trackU_init (a i : Time) : TrackU a i (NewFlowTable a i) (fun _ => none) where
  uni := fun _ h => by cases h
  ref := fun _ => Or.inl ⟨rfl, fun _ h => by cases h⟩

theorem track_event {a i : Time} {t r : FlowTable} {L : FlowKey → Option Time}
    (h : Track a i t L) (e : packetBuffer) (hr : FlowTable.Event t e = some r) :
    Track a i r (fun k => if e.key = k then some e.time else L k) := by
  obtain ⟨e1, e2, _, e4, e5, e6, e7, e8, _, _⟩ := event_effect h.inv h.timed e hr
  refine ⟨e1, e2, e4.trans h.idle, e5.trans h.active, ?_⟩
  intro k p hp
  by_cases hk : e.key = k
  · subst hk
    simp only [if_true]
    rw [(e8 p hp).1]
  · simp only [hk, if_false]
    have hp' : (k, p) ∈ t.flows := (e6 (k, p) (Ne.symm hk)).1 hp
    rw [e7 (k, p) hp' (Ne.symm hk)]
    exact h.last k p hp'

theorem track_expire {a i : Time} {t : FlowTable} {L : FlowKey → Option Time}
    (h : Track a i t L) : Track a i t.Expire L := by
  obtain ⟨e1, e2, _, e4, e5, e6, e7⟩ := expire_effect h.inv h.timed
  refine ⟨e1, e2, e4.trans h.idle, e5.trans h.active, ?_⟩
  intro k p hp
  rw [e7 (k, p) hp]
  exact h.last k p ((e6 (k, p)).1 hp).1

theorem trackU_event {a i : Time} {t r : FlowTable} {L : FlowKey → Option Time}
    {S : FlowKey → Option (Time × Time)} (h : Track a i t L) (hu : TrackU a i t S)
    (e : packetBuffer) (hr : FlowTable.Event t e = some r) (hnt : isTCP e.transport = false)
    (hnow : t.now ≤ e.time) : TrackU a i r (fun k => refStep a i k (S k) e) := by
  obtain ⟨_, _, e3, _, _, e6, e7, e8, e9, _⟩ := event_effect h.inv h.timed e hr
  obtain ⟨u1, q, hq⟩ := e9 hu.uni hnt
  refine ⟨u1, ?_⟩
  intro k
  by_cases hk : e.key = k
  · subst hk
    obtain ⟨q1, q2⟩ := e8 q hq
    right
    rcases hu.ref e.key with ⟨s0, hno⟩ | ⟨f, l, s0, hin | ⟨hno, hpast⟩⟩
    · rcases q2 with ⟨hqt, _, _⟩ | ⟨_, hf⟩
      · exact absurd hqt (hno q)
      · exact ⟨e.time, e.time, by simp [refStep, s0], Or.inl ⟨q, hq, hf, q1⟩⟩
    · obtain ⟨p, hp, hpf, hpl⟩ := hin
      have hnext : (t.base p).nextEvent = min (f + a) (l + i) := by
        have := h.timed (e.key, p) hp
        simp only at this
        rw [this, hpf, hpl, h.idle, h.active]
      rcases q2 with ⟨hqt, hle, hf⟩ | ⟨hall, hf⟩
      · have hqp : q = p := congrArg Prod.snd (mem_flows_unique_key h.inv hqt hp rfl)
        subst hqp
        rw [hnext] at hle
        exact ⟨f, e.time, by simp [refStep, s0, hle], Or.inl ⟨q, hq, hf.trans hpf, q1⟩⟩
      · have hlt := hall p hp
        rw [hnext] at hlt
        have hnle : ¬ e.time ≤ min (f + a) (l + i) := Nat.not_le.2 hlt
        exact ⟨e.time, e.time, by simp [refStep, s0, hnle], Or.inl ⟨q, hq, hf, q1⟩⟩
    · rcases q2 with ⟨hqt, _, _⟩ | ⟨_, hf⟩
      · exact absurd hqt (hno q)
      · have hnle : ¬ e.time ≤ min (f + a) (l + i) :=
          Nat.not_le.2 (Nat.lt_of_lt_of_le hpast hnow)
        exact ⟨e.time, e.time, by simp [refStep, s0, hnle], Or.inl ⟨q, hq, hf, q1⟩⟩
  · have hk' : k ≠ e.key := Ne.symm hk
    have hsame : refStep a i k (S k) e = S k := by simp [refStep, hk]
    simp only [hsame]
    rcases hu.ref k with ⟨s0, hno⟩ | ⟨f, l, s0, hin | ⟨hno, hpast⟩⟩
    · exact Or.inl ⟨s0, fun p hp => hno p ((e6 (k, p) hk').1 hp)⟩
    · obtain ⟨p, hp, hpf, hpl⟩ := hin
      refine Or.inr ⟨f, l, s0, Or.inl ⟨p, (e6 (k, p) hk').2 hp, ?_, ?_⟩⟩
      · rw [e7 (k, p) hp hk']; exact hpf
      · rw [e7 (k, p) hp hk']; exact hpl
    · refine Or.inr ⟨f, l, s0, Or.inr ⟨fun p hp => hno p ((e6 (k, p) hk').1 hp), ?_⟩⟩
      rw [e3]
      exact Nat.lt_of_lt_of_le hpast hnow

theorem trackU_expire {a i : Time} {t : FlowTable} {L : FlowKey → Option Time}
    {S : FlowKey → Option (Time × Time)} (h : Track a i t L) (hu : TrackU a i t S) :
    TrackU a i t.Expire S := by
  obtain ⟨_, _, e3, _, _, e6, e7⟩ := expire_effect h.inv h.timed
  refine ⟨fun x hx => hu.uni x ((e6 x).1 hx).1, ?_⟩
  intro k
  rcases hu.ref k with ⟨s0, hno⟩ | ⟨f, l, s0, hin | ⟨hno, hpast⟩⟩
  · exact Or.inl ⟨s0, fun p hp => hno p ((e6 (k, p)).1 hp).1⟩
  · obtain ⟨p, hp, hpf, hpl⟩ := hin
    have hnext : (t.base p).nextEvent = min (f + a) (l + i) := by
      have := h.timed (k, p) hp
      simp only at this
      rw [this, hpf, hpl, h.idle, h.active]
    by_cases hle : t.now ≤ (t.base p).nextEvent
    · have hp' : (k, p) ∈ t.Expire.flows := (e6 (k, p)).2 ⟨hp, hle⟩
      refine Or.inr ⟨f, l, s0, Or.inl ⟨p, hp', ?_, ?_⟩⟩
      · rw [e7 (k, p) hp']; exact hpf
      · rw [e7 (k, p) hp']; exact hpl
    · refine Or.inr ⟨f, l, s0, Or.inr ⟨?_, ?_⟩⟩
      · intro p' hp'
        obtain ⟨hp1, hp2⟩ := (e6 (k, p')).1 hp'
        have hpp : p' = p := congrArg Prod.snd (mem_flows_unique_key h.inv hp1 hp rfl)
        subst hpp
        exact hle hp2
      · rw [e3, ← hnext]
        exact Nat.lt_of_not_le hle
  · exact Or.inr ⟨f, l, s0, Or.inr ⟨fun p hp => hno p ((e6 (k, p)).1 hp).1, by rw [e3]; exact hpast⟩⟩

theorem run_append (l1 l2 : List Op) (t : FlowTable) :
    FlowTable.run (l1 ++ l2) t = (FlowTable.run l1 t).bind (FlowTable.run l2) := by
  induction l1 generalizing t with
  | nil => rfl
  | cons op rest ih =>
    cases op with
    | Event e =>
      simp only [List.cons_append, FlowTable.run]
      cases t.Event e with
      | none => rfl
      | some t' => exact ih t'
    | Expire =>
      simp only [List.cons_append, FlowTable.run]
      exact ih _

theorem events_append (l1 l2 : List Op) : Op.events (l1 ++ l2) = Op.events l1 ++ Op.events l2 := by
  induction l1 with
  | nil => rfl
  | cons op rest ih => cases op <;> simp [Op.events, ih]

theorem track_run {a i : Time} (ops : List Op) {t r : FlowTable} {L : FlowKey → Option Time}
    (h : Track a i t L) (hr : FlowTable.run ops t = some r) :
    Track a i r (fun k =>
      (Op.events ops).foldl (fun s e => if e.key = k then some e.time else s) (L k)) := by
  induction ops generalizing t L with
  | nil =>
    simp only [FlowTable.run, Option.some.injEq] at hr
    subst hr
    exact h
  | cons op rest ih =>
    cases op with
    | Event e =>
      simp only [FlowTable.run] at hr
      cases hev : t.Event e with
      | none => rw [hev] at hr; exact absurd hr (by simp)
      | some t' =>
        rw [hev] at hr
        exact ih (track_event h e hev) hr
    | Expire =>
      simp only [FlowTable.run] at hr
      exact ih (track_expire h) hr

theorem trackU_run {a i : Time} (ops : List Op) {t r : FlowTable} {L : FlowKey → Option Time}
    {S : FlowKey → Option (Time × Time)} (h : Track a i t L) (hu : TrackU a i t S)
    (hnt : ∀ e ∈ Op.events ops, isTCP e.transport = false)
    (hmono : List.Chain (· ≤ ·) t.now ((Op.events ops).map (fun e => e.time)))
    (hr : FlowTable.run ops t = some r) :
    TrackU a i r (fun k => (Op.events ops).foldl (refStep a i k) (S k)) := by
  induction ops generalizing t L S with
  | nil =>
    simp only [FlowTable.run, Option.some.injEq] at hr
    subst hr
    exact hu
  | cons op rest ih =>
    cases op with
    | Event e =>
      simp only [FlowTable.run] at hr
      simp only [Op.events, List.map_cons, List.chain_cons] at hmono
      cases hev : t.Event e with
      | none => rw [hev] at hr; exact absurd hr (by simp)
      | some t' =>
        rw [hev] at hr
        have hnow : t'.now = e.time := (event_effect h.inv h.timed e hev).2.2.1
        exact ih (track_event h e hev)
          (trackU_event h hu e hev (hnt e (by simp [Op.events])) hmono.1)
          (fun e' he' => hnt e' (by simp [Op.events, he']))
          (by rw [hnow]; exact hmono.2) hr
    | Expire =>
      simp only [FlowTable.run] at hr
      have hnow : t.Expire.now = t.now := (expire_effect h.inv h.timed).2.2.1
      exact ih (track_expire h) (trackU_expire h hu) hnt (by rw [hnow]; exact hmono) hr

/-- C8 counterexample: with active timeout 300 and idle timeout 10, a UDP packet for key [1]
at time 0 and a UDP packet for key [2] at time 100. After the second event now = 100, key [1]
is still in the table, and its flow, first seen and last seen at 0, has
min(0 + 300, 0 + 10) = 10 < 100. -/
theorem stale_key_stays_in_table :
    (FlowTable.run
        [.Event ⟨[1], 0, none, some ⟨.UDP, [0, 1], [0, 2], false, false, false⟩, true⟩,
         .Event ⟨[2], 100, none, some ⟨.UDP, [0, 1], [0, 2], false, false, false⟩, true⟩]
        (NewFlowTable 300 10)).map
      (fun t => (t.now, (mapGet t.flows [1]).map
        (fun p => ((t.base p).firstSeen, (t.base p).lastSeen))))
      = some (100, some (0, 0)) ∧
    ¬ (100 ≤ min (0 + 300) (0 + 10)) := by
  decide

theorem run_snoc {ops : List Op} {op : Op} {t r : FlowTable}
    (h : FlowTable.run (ops ++ [op]) t = some r) :
    ∃ t', FlowTable.run ops t = some t' ∧ FlowTable.run [op] t' = some r := by
  rw [run_append] at h
  cases h1 : FlowTable.run ops t with
  | none => rw [h1] at h; exact absurd h (by simp)
  | some t' => rw [h1] at h; exact ⟨t', rfl, h⟩

/-- C8 (amended): for every sequence of Event and Expire calls on a new flow table, every key
in the table has a flow last seen at the time of the most recent event for the key, with
next_event = min(first_seen + active_timeout, last_seen + idle_timeout); the key of the event
just handled, if it is in the table, has now <= next_event, and right after `FlowTable.Expire`
every key in the table has now <= next_event. For events without TCP packets and with
non-decreasing timestamps, a key in the table has the first-seen and last-seen times (f, t) of
the reference lifecycle, every key with now <= min(f + active_timeout, t + idle_timeout) is in
the table, and right after `FlowTable.Expire` the table contains exactly these keys. (After an
event alone a key that has timed out can still be in the table.) -/
theorem table_keys_after_expire (a i : Time) (ops : List Op) (r : FlowTable)
    (hrun : FlowTable.run ops (NewFlowTable a i) = some r) :
    (∀ k p, (k, p) ∈ r.flows →
      lastTime k (Op.events ops) = some (r.base p).lastSeen ∧
      (r.base p).nextEvent = min ((r.base p).firstSeen + a) ((r.base p).lastSeen + i)) ∧
    (∀ ops' e, ops = ops' ++ [Op.Event e] →
      ∀ p, (e.key, p) ∈ r.flows → r.now ≤ (r.base p).nextEvent) ∧
    (∀ ops', ops = ops' ++ [Op.Expire] →
      ∀ k p, (k, p) ∈ r.flows → r.now ≤ (r.base p).nextEvent) ∧
    ((∀ e ∈ Op.events ops, isTCP e.transport = false) →
      List.Chain' (· ≤ ·) ((Op.events ops).map (fun e => e.time)) →
      (∀ k p, (k, p) ∈ r.flows →
        refFlow a i k (Op.events ops) = some ((r.base p).firstSeen, (r.base p).lastSeen)) ∧
      (∀ k f t, refFlow a i k (Op.events ops) = some (f, t) → r.now ≤ min (f + a) (t + i) →
        ∃ p, (k, p) ∈ r.flows) ∧
      (∀ ops', ops = ops' ++ [Op.Expire] → ∀ k,
        ((∃ p, (k, p) ∈ r.flows) ↔
          ∃ f t, refFlow a i k (Op.events ops) = some (f, t) ∧ r.now ≤ min (f + a) (t + i)))) := by
  have htr := track_run ops (track_init a i) hrun
  have hnext : ∀ k p, (k, p) ∈ r.flows →
      (r.base p).nextEvent = min ((r.base p).firstSeen + a) ((r.base p).lastSeen + i) := by
    intro k p hp
    have := htr.timed (k, p) hp
    simp only at this
    rw [this, htr.idle, htr.active]
  have hexp : ∀ ops', ops = ops' ++ [Op.Expire] →
      ∀ k p, (k, p) ∈ r.flows → r.now ≤ (r.base p).nextEvent := by
    intro ops' hops k p hp
    subst hops
    obtain ⟨t', h1, h2⟩ := run_snoc hrun
    simp only [FlowTable.run, Option.some.injEq] at h2
    subst h2
    obtain ⟨g1, g2, _, _⟩ := run_inv ops' (FlowTable.Inv.init a i) (timed_init a i) h1
    obtain ⟨_, _, e3, _, _, e6, e7⟩ := expire_effect g1 g2
    rw [e3, e7 (k, p) hp]
    exact ((e6 (k, p)).1 hp).2
  refine ⟨fun k p hp => ⟨htr.last k p hp, hnext k p hp⟩, ?_, hexp, ?_⟩
  · intro ops' e hops p hp
    have hn := hnext e.key p hp
    subst hops
    obtain ⟨t', h1, h2⟩ := run_snoc hrun
    simp only [FlowTable.run] at h2
    cases hev : t'.Event e with
    | none => rw [hev] at h2; exact absurd h2 (by simp)
    | some r' =>
      rw [hev] at h2
      simp only [Option.some.injEq] at h2
      subst h2
      obtain ⟨g1, g2, g3, g4⟩ := run_inv ops' (FlowTable.Inv.init a i) (timed_init a i) h1
      obtain ⟨_, _, e3, _, _, _, _, e8, _, _⟩ := event_effect g1 g2 e hev
      obtain ⟨q1, q2⟩ := e8 p hp
      rw [hn, e3, q1]
      refine Nat.le_min.2 ⟨?_, Nat.le_add_right _ _⟩
      rcases q2 with ⟨hpt, hle, hf⟩ | ⟨_, hf⟩
      · have := g2 (e.key, p) hpt
        simp only at this
        rw [this, g4] at hle
        rw [hf]
        exact Nat.le_trans hle (Nat.min_le_left _ _)
      · rw [hf]; exact Nat.le_add_right _ _
  · intro hnt hmono
    have hchain : List.Chain (· ≤ ·) (NewFlowTable a i).now
        ((Op.events ops).map (fun e => e.time)) := by
      cases hl : (Op.events ops).map (fun e => e.time) with
      | nil => exact List.Chain.nil
      | cons x xs =>
        rw [hl] at hmono
        exact List.Chain.cons (Nat.zero_le _) hmono
    have hu := trackU_run ops (track_init a i) (trackU_init a i) hnt hchain hrun
    have h3a : ∀ k p, (k, p) ∈ r.flows →
        refFlow a i k (Op.events ops) = some ((r.base p).firstSeen, (r.base p).lastSeen) := by
      intro k p hp
      rcases hu.ref k with ⟨_, hno⟩ | ⟨f, l, s0, hin | ⟨hno, _⟩⟩
      · exact absurd hp (hno p)
      · obtain ⟨p', hp', hf, hl⟩ := hin
        have hpp : p' = p := congrArg Prod.snd (mem_flows_unique_key htr.inv hp' hp rfl)
        subst hpp
        rw [hf, hl]
        exact s0
      · exact absurd hp (hno p)
    have h3b : ∀ k f t, refFlow a i k (Op.events ops) = some (f, t) →
        r.now ≤ min (f + a) (t + i) → ∃ p, (k, p) ∈ r.flows := by
      intro k f t href hle
      rcases hu.ref k with ⟨s0, _⟩ | ⟨f', l', s0, hin | ⟨_, hpast⟩⟩
      · have : refFlow a i k (Op.events ops) = none := s0
        rw [this] at href
        exact absurd href (by simp)
      · obtain ⟨p, hp, _, _⟩ := hin
        exact ⟨p, hp⟩
      · have : refFlow a i k (Op.events ops) = some (f', l') := s0
        rw [this] at href
        simp only [Option.some.injEq, Prod.mk.injEq] at href
        rw [href.1, href.2] at hpast
        exact absurd hle (Nat.not_le.2 hpast)
    refine ⟨h3a, h3b, ?_⟩
    intro ops' hops k
    constructor
    · rintro ⟨p, hp⟩
      refine ⟨_, _, h3a k p hp, ?_⟩
      rw [← hnext k p hp]
      exact hexp ops' hops k p hp
    · rintro ⟨f, t, hfl, hle⟩
      exact h3b k f t hfl hle

/-- Witness for C8 (amended): after the idle-timeout scenario key [2] is in the table and has
not timed out. -/
theorem table_keys_after_expire_witness :
    (∃ p, (([2] : FlowKey), p) ∈ idleResult.flows) ↔
      ∃ f t, refFlow 300 10 [2] (Op.events idleScenario) = some (f, t) ∧
        idleResult.now ≤ min (f + 300) (t + 10) :=
  ((table_keys_after_expire 300 10 idleScenario idleResult idle_run).2.2.2 (by decide)
    (by simp [idleScenario, Op.events])).2.2
    [.Event ⟨[1], 0, none, some ⟨.UDP, [0, 1], [0, 2], false, false, false⟩, true⟩,
     .Event ⟨[2], 11, none, some ⟨.UDP, [0, 1], [0, 2], false, false, false⟩, true⟩]
    rfl [2]

theorem flow_event_total (t : FlowTable) (elem : Ptr) (e : packetBuffer) (w : Time)
    (h : ∀ a, elem = Ptr.tcp a → isTCP e.transport = true) :
    ∃ r, Flow.Event t elem e w = some r := by
  cases elem with
  | uni a => exact ⟨_, rfl⟩
  | tcp a =>
    have htcp := h a rfl
    cases htr : e.transport with
    | none => rw [htr] at htcp; exact absurd htcp (by simp [isTCP])
    | some tp =>
      rw [htr] at htcp
      have hty : tp.layerType = .TCP := by simpa [isTCP] using htcp
      simp only [Flow.Event, TCPFlow.Event, htr, hty]
      split_ifs with h1 h2
      all_goals first
        | exact ⟨_, rfl⟩
        | exact absurd rfl h2

/-- A sequence of calls runs to its end without a panic when the packets of each key are either
all TCP or all not TCP (as with five-tuple keys, which hold the protocol byte). -/
theorem run_total (K : FlowKey → Bool) (ops : List Op) {t : FlowTable} (h : t.Inv)
    (ht : t.Timed) (hk : ∀ x ∈ t.flows, ∀ a, x.2 = Ptr.tcp a → K x.1 = true)
    (hops : ∀ e ∈ Op.events ops, isTCP e.transport = K e.key) :
    ∃ r, FlowTable.run ops t = some r := by
  induction ops generalizing t with
  | nil => exact ⟨t, rfl⟩
  | cons op rest ih =>
    cases op with
    | Expire =>
      obtain ⟨e1, e2, _, _, _, e6, _⟩ := expire_effect h ht
      exact ih e1 e2 (fun x hx => hk x ((e6 x).1 hx).1) hops
    | Event e =>
      have he : isTCP e.transport = K e.key := hops e (by simp [Op.events])
      have hsome : ∃ r, FlowTable.Event t e = some r := by
        obtain ⟨u1, u2, u3⟩ := event_unfold t e
        have hnew : ∀ (s : FlowTable) (a : Nat),
            (FlowTable.Event.create s none e e.key e.time).1 = Ptr.tcp a →
            isTCP e.transport = true := by
          intro s a ha
          cases htcp : isTCP e.transport with
          | true => rfl
          | false =>
            obtain ⟨b, hb⟩ := newflow_uni e s e.key e.time htcp
            have : (FlowTable.Event.create s none e e.key e.time).1 = (NewFlow e s e.key e.time).1 := by
              simp [FlowTable.Event.create]
            rw [this, hb] at ha
            cases ha
        cases hget : mapGet t.flows e.key with
        | none =>
          rw [u1 hget]
          exact flow_event_total _ _ _ _ (hnew _)
        | some p =>
          have hold : ∀ a, p = Ptr.tcp a → isTCP e.transport = true :=
            fun a ha => he.trans (hk _ (mapGet_mem hget) a ha)
          by_cases hle : e.time ≤ (t.base p).nextEvent
          · rw [u2 p hget hle]
            exact flow_event_total _ _ _ _ hold
          · have hlt := Nat.lt_of_not_le hle
            cases hact : (BaseFlow.Expire (({ t with now := e.time } : FlowTable).log
                (.Expire (t.base p).id e.time)) p e.time).Active p with
            | true =>
              rw [(u3 p hget hlt).1 hact]
              exact flow_event_total _ _ _ _ hold
            | false =>
              rw [(u3 p hget hlt).2 hact]
              exact flow_event_total _ _ _ _ (hnew _)
      obtain ⟨r, hr⟩ := hsome
      obtain ⟨e1, e2, _, _, _, e6, _, _, _, e10⟩ := event_effect h ht e hr
      have hk' : ∀ x ∈ r.flows, ∀ a, x.2 = Ptr.tcp a → K x.1 = true := by
        intro x hx a ha
        by_cases hxk : x.1 = e.key
        · have hx' : (e.key, x.2) ∈ r.flows := by rw [← hxk]; exact hx
          rw [hxk]
          rcases e10 x.2 a hx' ha with hin | htcp
          · exact hk _ hin a ha
          · rw [← he]; exact htcp
        · exact hk x ((e6 x hxk).1 hx) a ha
      obtain ⟨r', hr'⟩ := ih e1 e2 hk' (fun e' he' => hops e' (by simp [Op.events, he']))
      exact ⟨r', by simp [FlowTable.run, hr, hr']⟩

/-! ## Theorems: packet buffers -/

theorem recycle_shared (pb : bufferSlot) (h : 1 < pb.refcnt) :
    (packetBuffer.Recycle pb).refcnt = pb.refcnt - 1 ∧
    (packetBuffer.Recycle pb).inUse = pb.inUse ∧
    (packetBuffer.Recycle pb).poolCalls = pb.poolCalls := by
  have hpos : pb.refcnt - 1 > 0 := by omega
  simp [packetBuffer.Recycle, packetBuffer.canRecycle, hpos]

theorem recycle_last (pb : bufferSlot) (h : pb.refcnt ≤ 1) :
    (packetBuffer.Recycle pb).refcnt = pb.refcnt - 1 ∧
    (packetBuffer.Recycle pb).inUse = 0 ∧
    (packetBuffer.Recycle pb).poolCalls = pb.poolCalls ++ [.StoreInUse 0, .free 1] := by
  have hpos : ¬ pb.refcnt - 1 > 0 := by omega
  simp [packetBuffer.Recycle, packetBuffer.canRecycle, hpos]

theorem bufOp_nil_of_not_mem (ops : List BufOp) (hc : BufOp.Copy ∉ ops)
    (hr : BufOp.Recycle ∉ ops) : ops = [] := by
  cases ops with
  | nil => rfl
  | cons op rest =>
    cases op
    · exact absurd (List.mem_cons_self _ _) hc
    · exact absurd (List.mem_cons_self _ _) hr

/-- A buffer with `n ≥ 1` holders, and calls that release all of them, so that after each
`Recycle` with a later `Recycle` a holder is left: the reference count stays positive and the
slot stays with the holders as long as a call is outstanding, the last call is a `Recycle`,
and it returns the slot. -/
theorem run_holders (ops : List BufOp) : ∀ (n : Nat) (s : bufferSlot), 1 ≤ n → s.refcnt = n →
    ops.count .Recycle = n + ops.count .Copy →
    (∀ pre post, ops = pre ++ .Recycle :: post → .Recycle ∈ post →
      pre.count .Recycle + 1 < n + pre.count .Copy) →
    (∀ pre post, ops = pre ++ post → post ≠ [] →
      1 ≤ (bufferSlot.run pre s).refcnt ∧ (bufferSlot.run pre s).inUse = s.inUse ∧
      (bufferSlot.run pre s).poolCalls = s.poolCalls) ∧
    (∃ pre, ops = pre ++ [.Recycle]) ∧
    (bufferSlot.run ops s).refcnt = 0 ∧ (bufferSlot.run ops s).inUse = 0 ∧
    (bufferSlot.run ops s).poolCalls = s.poolCalls ++ [.StoreInUse 0, .free 1] := by
  induction ops with
  | nil =>
    intro n s hn _ hcount _
    simp at hcount
    omega
  | cons op rest ih =>
    intro n s hn hs hcount hold
    have hfirst : 1 ≤ (bufferSlot.run [] s).refcnt ∧ (bufferSlot.run [] s).inUse = s.inUse ∧
        (bufferSlot.run [] s).poolCalls = s.poolCalls := by
      refine ⟨?_, rfl, rfl⟩
      show 1 ≤ s.refcnt
      omega
    cases op with
    | Copy =>
      have hcount' : rest.count .Recycle = (n + 1) + rest.count .Copy := by
        simp [List.count_cons] at hcount
        omega
      have hold' : ∀ pre post, rest = pre ++ .Recycle :: post → .Recycle ∈ post →
          pre.count .Recycle + 1 < (n + 1) + pre.count .Copy := by
        intro pre post hpp hmem
        have := hold (.Copy :: pre) post (by rw [hpp]; rfl) hmem
        simp [List.count_cons] at this
        omega
      obtain ⟨ha, ⟨pre, hpre⟩, hb⟩ := ih (n + 1) (packetBuffer.Copy s) (by omega)
        (by show s.refcnt + 1 = ((n + 1 : Nat) : Int); omega) hcount' hold'
      refine ⟨?_, ⟨.Copy :: pre, by rw [hpre]; rfl⟩, hb⟩
      intro pre' post hpp hne
      cases pre' with
      | nil => exact hfirst
      | cons p pre'' =>
        simp only [List.cons_append, List.cons.injEq] at hpp
        obtain ⟨hp, hrest⟩ := hpp
        subst hp
        exact ha pre'' post hrest hne
    | Recycle =>
      by_cases hmem : BufOp.Recycle ∈ rest
      · have h2 : 2 ≤ n := by
          have := hold [] rest rfl hmem
          simp at this
          omega
        obtain ⟨r1, r2, r3⟩ := recycle_shared s (by omega)
        have hcount' : rest.count .Recycle = (n - 1) + rest.count .Copy := by
          simp [List.count_cons] at hcount
          omega
        have hold' : ∀ pre post, rest = pre ++ .Recycle :: post → .Recycle ∈ post →
            pre.count .Recycle + 1 < (n - 1) + pre.count .Copy := by
          intro pre post hpp hmem'
          have := hold (.Recycle :: pre) post (by rw [hpp]; rfl) hmem'
          simp [List.count_cons] at this
          omega
        obtain ⟨ha, ⟨pre, hpre⟩, hb⟩ := ih (n - 1) (packetBuffer.Recycle s) (by omega)
          (by rw [r1]; omega) hcount' hold'
        rw [r3] at hb
        refine ⟨?_, ⟨.Recycle :: pre, by rw [hpre]; rfl⟩, hb⟩
        intro pre' post hpp hne
        cases pre' with
        | nil => exact hfirst
        | cons p pre'' =>
          simp only [List.cons_append, List.cons.injEq] at hpp
          obtain ⟨hp, hrest⟩ := hpp
          subst hp
          have := ha pre'' post hrest hne
          rw [r2, r3] at this
          exact this
      · have hzero : rest.count .Recycle = 0 := List.count_eq_zero_of_not_mem hmem
        have hn1 : n = 1 ∧ rest.count .Copy = 0 := by
          simp [List.count_cons, hzero] at hcount
          omega
        have hnil : rest = [] :=
          bufOp_nil_of_not_mem rest (List.count_eq_zero.mp hn1.2) hmem
        subst hnil
        obtain ⟨r1, r2, r3⟩ := recycle_last s (by omega)
        refine ⟨?_, ⟨[], rfl⟩, ?_, r2, r3⟩
        · intro pre' post hpp hne
          cases pre' with
          | nil => exact hfirst
          | cons p pre'' =>
            simp only [List.cons_append, List.cons.injEq] at hpp
            have hpost : post = [] := (List.append_eq_nil.mp hpp.2.symm).2
            exact absurd hpost hne
        · show (packetBuffer.Recycle s).refcnt = 0
          rw [r1]
          omega

theorem take_succ_split (pre post : List BufOp) (x : BufOp) :
    (pre ++ x :: post).take (pre.length + 1) = pre ++ [x] := by
  induction pre with
  | nil => simp
  | cons p pre ih => simpa using ih

theorem getElem?_split (pre post : List BufOp) (x : BufOp) :
    (pre ++ x :: post)[pre.length]? = some x := by
  induction pre with
  | nil => simp
  | cons p pre ih => simpa using ih

/-- C11: for every packet buffer `pb` and every `k`, after `assign` and a sequence `ops` of `k`
`Copy` calls and `k + 1` `Recycle` calls in which every `Recycle` that is not the last one
comes when the holders created so far (1 + the `Copy` calls before it) outnumber the `Recycle`
calls made so far, that call included: the reference count is at least 0 after every prefix
of the calls; before the last call `inUse` is untouched and no call has been made to the
pool; the last call is a `Recycle`, and after it the reference count is 0, `inUse` is 0
and the pool has received exactly `StoreInt32(&pb.inUse, 0)` and `owner.free(1)`. -/
theorem refcount_returns_slot_once (pb : bufferSlot) (timestamp : Time) (packetnr k : Nat)
    (ops : List BufOp)
    (hc : ops.count .Copy = k) (hr : ops.count .Recycle = k + 1)
    (hold : ∀ i, i < ops.length → ops[i]? = some .Recycle → .Recycle ∈ ops.drop (i + 1) →
      (ops.take (i + 1)).count .Recycle < 1 + (ops.take i).count .Copy) :
    (∀ i, 0 ≤ (bufferSlot.run (ops.take i) (packetBuffer.assign pb timestamp packetnr)).refcnt) ∧
    (∀ i, i < ops.length →
      (bufferSlot.run (ops.take i) (packetBuffer.assign pb timestamp packetnr)).inUse = pb.inUse ∧
      (bufferSlot.run (ops.take i) (packetBuffer.assign pb timestamp packetnr)).poolCalls
        = pb.poolCalls) ∧
    (∃ pre, ops = pre ++ [.Recycle]) ∧
    (bufferSlot.run ops (packetBuffer.assign pb timestamp packetnr)).refcnt = 0 ∧
    (bufferSlot.run ops (packetBuffer.assign pb timestamp packetnr)).inUse = 0 ∧
    (bufferSlot.run ops (packetBuffer.assign pb timestamp packetnr)).poolCalls
      = pb.poolCalls ++ [.StoreInUse 0, .free 1] := by
  have hsplit : ∀ pre post, ops = pre ++ .Recycle :: post → .Recycle ∈ post →
      pre.count .Recycle + 1 < 1 + pre.count .Copy := by
    intro pre post hpp hmem
    have h := hold pre.length (by rw [hpp]; simp) (by rw [hpp]; exact getElem?_split pre post _)
      (by rw [hpp]; simpa using hmem)
    rw [hpp, take_succ_split, List.take_left] at h
    simpa using h
  obtain ⟨ha, hlast, h0, h1, h2⟩ := run_holders ops 1
    (packetBuffer.assign pb timestamp packetnr) (le_refl 1) rfl (by omega) hsplit
  refine ⟨?_, ?_, hlast, h0, h1, h2⟩
  · intro i
    by_cases hi : i < ops.length
    · have := (ha (ops.take i) (ops.drop i) (List.take_append_drop i ops).symm
        (by simpa using hi)).1
      omega
    · rw [List.take_of_length_le (by omega), h0]
  · intro i hi
    have := ha (ops.take i) (ops.drop i) (List.take_append_drop i ops).symm (by simpa using hi)
    exact ⟨this.2.1, this.2.2⟩

/-- Witness for C11: `Copy`, `Recycle`, `Copy`, `Recycle`, `Recycle` on a slot that was in use
with stale fields. -/
theorem refcount_returns_slot_once_witness :
    (∀ i, 0 ≤ (bufferSlot.run ([BufOp.Copy, .Recycle, .Copy, .Recycle, .Recycle].take i)
      (packetBuffer.assign ⟨1, 7, 3, 0, 0, []⟩ 5 9)).refcnt) ∧
    bufferSlot.run [.Copy, .Recycle, .Copy, .Recycle, .Recycle]
      (packetBuffer.assign ⟨1, 7, 3, 0, 0, []⟩ 5 9)
      = ⟨0, 0, 0, 5, 9, [.StoreInUse 0, .free 1]⟩ :=
  ⟨(refcount_returns_slot_once ⟨1, 7, 3, 0, 0, []⟩ 5 9 2
      [.Copy, .Recycle, .Copy, .Recycle, .Recycle] (by decide) (by decide) (by decide)).1,
    by decide⟩

/-- When only the earlier `Recycle` calls are counted against the holders, the condition on
the calls admits `Recycle`, `Copy`, `Recycle` (one `Copy`, two `Recycle`): the first `Recycle`
comes with one holder and no earlier `Recycle`. That sequence returns the slot twice. -/
theorem recycle_copy_recycle_returns_twice :
    (∀ i, i < 3 → [BufOp.Recycle, .Copy, .Recycle][i]? = some .Recycle →
      .Recycle ∈ [BufOp.Recycle, .Copy, .Recycle].drop (i + 1) →
      ([BufOp.Recycle, .Copy, .Recycle].take i).count .Recycle
        < 1 + ([BufOp.Recycle, .Copy, .Recycle].take i).count .Copy) ∧
    (bufferSlot.run [.Recycle, .Copy, .Recycle]
      (packetBuffer.assign ⟨1, 7, 3, 0, 0, []⟩ 5 9)).poolCalls
      = [.StoreInUse 0, .free 1, .StoreInUse 0, .free 1] := by
  decide

/-! ## Theorems: reuse of flow objects -/

/-- On a TCP packet and an empty pool of `TCPFlow` objects, `NewFlow` returns a newly allocated
object, whose four flags are false. -/
theorem newFlow_fresh_flags (event : packetBuffer) (tab : FlowTable) (key : FlowKey)
    (time : Time) (htcp : isTCP event.transport = true) (hpool : tab.DataStore.tcp = []) :
    (NewFlow event tab key time).1 = .tcp tab.tcpObjects ∧
    (NewFlow event tab key time).2.tcp tab.tcpObjects = ⟨false, false, false, false⟩ := by
  simp [NewFlow, htcp, flowPool.getTCP, hpool, BaseFlow.Init]

/-- On a TCP packet and a pool of `TCPFlow` objects whose object put last is at address `a`,
`NewFlow` returns that object, and its four flags are what they were in the pool. -/
theorem newFlow_pooled_flags (event : packetBuffer) (tab : FlowTable) (key : FlowKey)
    (time : Time) (a : Nat) (rest : List Nat) (htcp : isTCP event.transport = true)
    (hpool : tab.DataStore.tcp = a :: rest) :
    (NewFlow event tab key time).1 = .tcp a ∧
    (NewFlow event tab key time).2.tcp a = tab.tcp a := by
  simp [NewFlow, htcp, flowPool.getTCP, hpool, BaseFlow.Init]

/-- C12 fails on the code for a `TCPFlow` taken from the pool: on a new table with active
timeout 300 and idle timeout 10, after the teardown of the connection with key [1] at the times
1 to 6, the pool of `TCPFlow` objects holds the object at address 0 with all four flags true;
`NewFlow` for a SYN with key [2] at time 7 returns that object with all four flags still true,
and the table's `Event` for that SYN exports the new flow with reason `End` on this first
packet and removes it. On the empty pool of a new table `NewFlow` returns an object with all
four flags false. -/
theorem pooled_tcpflow_keeps_flags :
    (FlowTable.run reuseScenario (NewFlowTable 300 10)).map
      (fun t => (t.DataStore.tcp, t.tcp 0)) = some ([0], ⟨true, true, true, true⟩) ∧
    (FlowTable.run reuseScenario (NewFlowTable 300 10)).map
      (fun t => ((NewFlow reuseSyn t [2] 7).1, (NewFlow reuseSyn t [2] 7).2.tcp 0))
      = some (.tcp 0, ⟨true, true, true, true⟩) ∧
    ((FlowTable.run reuseScenario (NewFlowTable 300 10)).bind
      (fun t => (t.Event reuseSyn).map
        (fun r => (r.calls.drop t.calls.length, mapGet r.flows [2]))))
      = some ([.NewFlow 1, .Event 1 reuseSyn, .Export 1 .End 7, .Recycle 1], none) ∧
    (NewFlow reuseSyn (NewFlowTable 300 10) [2] 7).2.tcp 0 = ⟨false, false, false, false⟩ := by
  decide

end GoFlows
